import Mathlib

/-!
ComSim: the correlation engine of `src/include/comMath.h` and the helpers of
`fir.h`, `dataGen.h`, `symMapper.h` and `fixedpoint.h`.

Shallow embedding of `xcorr_range`, `xcorr`, `autocorr_range`, `autocorr` and
`xcorr_rangeComp` with the complex operations they use, and of `conv`,
`biA2decA`, `mapPsk` and the `fxp` arithmetic.

Modelling conventions.

* A C array is a `List`; a read or write at an `int` index outside the list is
  a fault, so every function that accesses memory returns an `Option` that is
  `none` exactly when the run performs an out-of-bounds access or another
  operation without defined behaviour.
* Lengths and indices are unbounded integers (`Int`); the arithmetic on them
  is assumed not to overflow. An `int` or `long long` result computed from
  data wraps around (`wrap32`, `wrap64`).
* The control flow, the indices and the memory accesses of the functions do
  not depend on how `double` arithmetic rounds. For the properties about them
  the samples are elements of a linearly ordered commutative ring `α` (a field
  where the code divides); every definition is executable once `α` is
  instantiated, e.g. with `Int`.
* The properties that relate computed sample values to one another (C14, C16,
  C17, C27, C28) are stated on `double`, a model of IEEE 754 binary64 with
  round-to-nearest-even, signed zeros, infinities and NaN, and on the copies of
  the functions in the namespace `Binary64`, which differ from the ring
  versions only in the arithmetic. On `double` these properties fail in
  general; each is proved for the inputs on which it does hold: for all
  values where the property only uses sign rules and neutral zeros, and for
  integer-valued samples small enough that no operation rounds where it needs
  exact sums.
* `sqrt`, `pow` and `log2` from `math.h` and the conversion of a `double` to
  `int` are parameters of the functions that call them; over a ring `pow(v, 2)`
  is the square `v ^ 2`.
* `malloc` hands out a block of the requested size whose cells hold zero
  until they are written; it always succeeds in `xcorr_rangeComp`, and `conv`
  takes the outcome of its two allocations as arguments.
* The `printf` diagnostics of the length check have no effect on the buffer or
  on the returned value; `xcorr_range_printed` and `xcorr_rangeComp_printed`
  pair them with the result.
* The value returned by a correlation function is `Result.ret`; `Result.exit`
  additionally records which `return` statement produced it.
-/

namespace ComSim

/-! ## Memory model -/

/-- Read `a[idx]`; `none` when `idx` is outside the array. -/
def readAt {β : Type} (a : List β) (idx : Int) : Option β :=
  if 0 ≤ idx then a.get? idx.toNat else none

/-- Write `a[idx] = v`; `none` when `idx` is outside the array. -/
def writeAt {β : Type} (a : List β) (idx : Int) (v : β) : Option (List β) :=
  if 0 ≤ idx ∧ idx < (a.length : Int) then some (a.set idx.toNat v) else none

/-- The loop `for(i = 0; i < bound; i++) body(i)` over a state `σ`. -/
def forLoop {σ : Type} (bound : Int) (body : Int → σ → Option σ) (s : σ) : Option σ :=
  (List.range bound.toNat).foldlM (fun st (i : Nat) => body (i : Int) st) s

/-- Which `return` statement ended a correlation call. -/
inductive Exit where
  | completed : Exit
  | stopped (oBuff : Int) : Exit
  deriving DecidableEq

/-- Final output buffer together with the way the call returned. -/
structure Result (β : Type) where
  output : List β
  exit : Exit
  deriving DecidableEq

/-- The `int` handed back to the caller: `return 0` or `return oBuff`. -/
def Result.ret {β : Type} (r : Result β) : Int :=
  match r.exit with
  | Exit.completed => 0
  | Exit.stopped oBuff => oBuff

/-! ## Complex operations -/

/-- The struct `complex` of `comSim_types.h`. -/
structure complex (α : Type) where
  re : α
  im : α
  deriving DecidableEq

section Defs

variable {α : Type} [LinearOrderedCommRing α]

/-- The constant `MAX_MAGIC`. -/
def MAX_MAGIC : α := -65534

/-- The constant `MIN_MAGIC`. -/
def MIN_MAGIC : α := 65533

/-- Complex conjugate. -/
def conjComp (c : complex α) : complex α :=
  { re := c.re, im := -c.im }

/-- Build a complex value from its two components. -/
def genComp (re im : α) : complex α :=
  { re := re, im := im }

/-- Magnitude, `sqrt(pow(re, 2) + pow(im, 2))`. -/
def absComp (sqrt : α → α) (c : complex α) : α :=
  sqrt (c.re ^ 2 + c.im ^ 2)

/-- Squared magnitude. -/
def absSqrComp (c : complex α) : α :=
  c.re ^ 2 + c.im ^ 2

/-- Norm, the same as `absComp`. -/
def normComp (sqrt : α → α) (c : complex α) : α :=
  absComp sqrt c

/-- Complex product. -/
def mulComp (a b : complex α) : complex α :=
  { re := a.re * b.re - a.im * b.im, im := a.re * b.im + a.im * b.re }

/-- Complex sum. -/
def addComp (a b : complex α) : complex α :=
  genComp (a.re + b.re) (a.im + b.im)

/-! ## Real correlation -/

/-- The statement `output[oBuff] += rev[ri] * local[li]`. -/
def macStep (rev loc : List α) (oBuff ri li : Int) (output : List α) : Option (List α) := do
  let o ← readAt output oBuff
  let r ← readAt rev ri
  let l ← readAt loc li
  writeAt output oBuff (o + r * l)

/-- The six window branches of the body of the correlation loop of `xcorr_range`. -/
def corrWindow (rev : List α) (len_rev : Int) (loc : List α) (len_local : Int)
    (oBuff : Int) (output : List α) : Option (List α) :=
  let len_out := len_rev + len_local - 1
  if len_rev ≥ len_local then
    if oBuff < len_local then
      let len_win := oBuff
      forLoop (oBuff + 1)
        (fun i => macStep rev loc oBuff (len_win - i) (len_local - 1 - i)) output
    else if oBuff ≥ len_rev then
      let len_win := len_out - oBuff
      forLoop len_win
        (fun i => macStep rev loc oBuff (len_rev - len_win + i) (len_local - len_win - 1 + i))
        output
    else
      let len_win := len_local
      forLoop len_win
        (fun i => macStep rev loc oBuff (oBuff - i) (len_win - 1 - i)) output
  else
    if oBuff < len_rev then
      let len_win := oBuff
      forLoop (len_win + 1)
        (fun i => macStep rev loc oBuff (len_win - i) (len_local - 1 - i)) output
    else if oBuff ≥ len_local then
      let len_win := len_out - oBuff
      forLoop len_win
        (fun i => macStep rev loc oBuff (len_rev - len_win + i) i) output
    else
      let len_win := len_rev
      forLoop len_win
        (fun i => macStep rev loc oBuff (len_win - 1 - i)
          (len_local - 1 - (oBuff + 1 - len_rev) - i)) output

/-- The correlation loop of `xcorr_range`, with `remaining` iterations left and
the loop variable at `oBuff`. -/
def xcorr_loop (rev : List α) (len_rev : Int) (loc : List α) (len_local : Int)
    (max_threshold min_threshold : α) :
    (remaining : Nat) → (oBuff : Int) → (output : List α) → Option (Result α)
  | 0, _, output => some { output := output, exit := Exit.completed }
  | remaining + 1, oBuff, output => do
    let output ← writeAt output oBuff 0
    if oBuff > len_rev + len_local - 1 then
      xcorr_loop rev len_rev loc len_local max_threshold min_threshold
        remaining (oBuff + 1) output
    else
      let output ← corrWindow rev len_rev loc len_local oBuff output
      let v ← readAt output oBuff
      if (max_threshold ≠ MAX_MAGIC ∧ v > max_threshold) ∨
          (min_threshold ≠ MIN_MAGIC ∧ v < min_threshold) then
        some { output := output, exit := Exit.stopped oBuff }
      else
        xcorr_loop rev len_rev loc len_local max_threshold min_threshold
          remaining (oBuff + 1) output

/-- The function `xcorr_range`. -/
def xcorr_range (output : List α) (len_output : Int) (rev : List α) (len_rev : Int)
    (loc : List α) (len_local : Int) (max_threshold min_threshold : α) :
    Option (Result α) :=
  xcorr_loop rev len_rev loc len_local max_threshold min_threshold len_output.toNat 0 output

/-- The function `xcorr`. -/
def xcorr (output : List α) (len_output : Int) (rev : List α) (len_rev : Int)
    (loc : List α) (len_local : Int) : Option (Result α) :=
  xcorr_range output len_output rev len_rev loc len_local MAX_MAGIC MIN_MAGIC

/-- The function `autocorr_range`. -/
def autocorr_range (output : List α) (len_output : Int) (rev : List α) (len_rev : Int)
    (max_threshold min_threshold : α) : Option (Result α) :=
  xcorr_range output len_output rev len_rev rev len_rev max_threshold min_threshold

/-- The function `autocorr`. -/
def autocorr (output : List α) (len_output : Int) (rev : List α) (len_rev : Int) :
    Option (Result α) :=
  xcorr output len_output rev len_rev rev len_rev

/-! ## Complex correlation -/

/-- The statement
`output[oBuff] = addComp(output[oBuff], mulComp(rev[ri], compLocal[li]))`. -/
def macStepComp (rev compLocal : List (complex α)) (oBuff ri li : Int)
    (output : List (complex α)) : Option (List (complex α)) := do
  let o ← readAt output oBuff
  let r ← readAt rev ri
  let l ← readAt compLocal li
  writeAt output oBuff (addComp o (mulComp r l))

/-- The six window branches of the body of the correlation loop of
`xcorr_rangeComp`. -/
def corrWindowComp (rev : List (complex α)) (len_rev : Int) (compLocal : List (complex α))
    (len_local : Int) (oBuff : Int) (output : List (complex α)) :
    Option (List (complex α)) :=
  let len_out := len_rev + len_local - 1
  if len_rev ≥ len_local then
    if oBuff < len_local then
      let len_win := oBuff
      forLoop (oBuff + 1)
        (fun i => macStepComp rev compLocal oBuff (len_win - i) (len_local - 1 - i)) output
    else if oBuff ≥ len_rev then
      let len_win := len_out - oBuff
      forLoop len_win
        (fun i => macStepComp rev compLocal oBuff (len_rev - len_win + i)
          (len_local - len_win - 1 + i)) output
    else
      let len_win := len_local
      forLoop len_win
        (fun i => macStepComp rev compLocal oBuff (oBuff - i) (len_win - 1 - i)) output
  else
    if oBuff < len_rev then
      let len_win := oBuff
      forLoop (len_win + 1)
        (fun i => macStepComp rev compLocal oBuff (len_win - i) (len_local - 1 - i)) output
    else if oBuff ≥ len_local then
      let len_win := len_out - oBuff
      forLoop len_win
        (fun i => macStepComp rev compLocal oBuff (len_rev - len_win + i) i) output
    else
      let len_win := len_rev
      forLoop len_win
        (fun i => macStepComp rev compLocal oBuff (len_win - 1 - i)
          (len_local - 1 - (oBuff + 1 - len_rev) - i)) output

/-- The correlation loop of `xcorr_rangeComp`, with `remaining` iterations left
and the loop variable at `oBuff`. -/
def xcorr_loopComp (sqrt : α → α) (rev : List (complex α)) (len_rev : Int)
    (compLocal : List (complex α)) (len_local : Int) (max_threshold : α) :
    (remaining : Nat) → (oBuff : Int) → (output : List (complex α)) →
      Option (Result (complex α))
  | 0, _, output => some { output := output, exit := Exit.completed }
  | remaining + 1, oBuff, output => do
    let output ← writeAt output oBuff (genComp 0 0)
    if oBuff > len_rev + len_local - 1 then
      xcorr_loopComp sqrt rev len_rev compLocal len_local max_threshold
        remaining (oBuff + 1) output
    else
      let output ← corrWindowComp rev len_rev compLocal len_local oBuff output
      let v ← readAt output oBuff
      if max_threshold ≠ MAX_MAGIC ∧ absComp sqrt v > max_threshold then
        some { output := output, exit := Exit.stopped oBuff }
      else
        xcorr_loopComp sqrt rev len_rev compLocal len_local max_threshold
          remaining (oBuff + 1) output

/-- The loop `for(i = 0; i < len_local; i++) compLocal[i] = conjComp(local[i])`
run on the freshly allocated block. -/
def conjLocal (loc : List (complex α)) (len_local : Int) : Option (List (complex α)) :=
  forLoop len_local
    (fun i compLocal => do
      let l ← readAt loc i
      writeAt compLocal i (conjComp l))
    (List.replicate len_local.toNat (genComp 0 0))

/-- The function `xcorr_rangeComp`; `min_threshold` is accepted and never used. -/
def xcorr_rangeComp (sqrt : α → α) (output : List (complex α)) (len_output : Int)
    (rev : List (complex α)) (len_rev : Int) (loc : List (complex α)) (len_local : Int)
    (max_threshold _min_threshold : α) : Option (Result (complex α)) := do
  let compLocal ← conjLocal loc len_local
  xcorr_loopComp sqrt rev len_rev compLocal len_local max_threshold len_output.toNat 0 output

end Defs

/-! ## Window geometry and a fault-free reference loop

The definitions below restate the loop body once, for an arbitrary sample type
with its own zero, sum and product, so that the real and the complex engine can
be analysed together. `winBound`, `winRev` and `winLoc` give, per branch, the
trip count of the inner loop and the two indices it reads. -/

/-- Trip count of the inner loop at output position `oBuff`. -/
def winBound (len_rev len_local oBuff : Int) : Int :=
  if len_rev ≥ len_local then
    if oBuff < len_local then oBuff + 1
    else if oBuff ≥ len_rev then len_rev + len_local - 1 - oBuff
    else len_local
  else
    if oBuff < len_rev then oBuff + 1
    else if oBuff ≥ len_local then len_rev + len_local - 1 - oBuff
    else len_rev

/-- Index into `rev` read by iteration `i` of the inner loop. -/
def winRev (len_rev len_local oBuff i : Int) : Int :=
  if len_rev ≥ len_local then
    if oBuff < len_local then oBuff - i
    else if oBuff ≥ len_rev then len_rev - (len_rev + len_local - 1 - oBuff) + i
    else oBuff - i
  else
    if oBuff < len_rev then oBuff - i
    else if oBuff ≥ len_local then len_rev - (len_rev + len_local - 1 - oBuff) + i
    else len_rev - 1 - i

/-- Index into `local` read by iteration `i` of the inner loop. -/
def winLoc (len_rev len_local oBuff i : Int) : Int :=
  if len_rev ≥ len_local then
    if oBuff < len_local then len_local - 1 - i
    else if oBuff ≥ len_rev then len_local - (len_rev + len_local - 1 - oBuff) - 1 + i
    else len_local - 1 - i
  else
    if oBuff < len_rev then len_local - 1 - i
    else if oBuff ≥ len_local then i
    else len_local - 1 - (oBuff + 1 - len_rev) - i

section Generic

variable {β : Type}

/-- One multiply-accumulate into `output[oBuff]` for arbitrary sum and product. -/
def gMac (add mul : β → β → β) (rev loc : List β) (oBuff ri li : Int)
    (output : List β) : Option (List β) := do
  let o ← readAt output oBuff
  let r ← readAt rev ri
  let l ← readAt loc li
  writeAt output oBuff (add o (mul r l))

/-- The inner loop at position `oBuff`, with the branch folded into the index
functions. -/
def gWindow (add mul : β → β → β) (rev : List β) (len_rev : Int) (loc : List β)
    (len_local : Int) (oBuff : Int) (output : List β) : Option (List β) :=
  forLoop (winBound len_rev len_local oBuff)
    (fun i => gMac add mul rev loc oBuff (winRev len_rev len_local oBuff i)
      (winLoc len_rev len_local oBuff i)) output

/-- The correlation loop for arbitrary operations and stop test. -/
def gLoop (zero : β) (add mul : β → β → β) (stop : β → Bool) (rev : List β) (len_rev : Int)
    (loc : List β) (len_local : Int) :
    Nat → Int → List β → Option (Result β)
  | 0, _, output => some { output := output, exit := Exit.completed }
  | remaining + 1, oBuff, output => do
    let output ← writeAt output oBuff zero
    if oBuff > len_rev + len_local - 1 then
      gLoop zero add mul stop rev len_rev loc len_local remaining (oBuff + 1) output
    else
      let output ← gWindow add mul rev len_rev loc len_local oBuff output
      let v ← readAt output oBuff
      if stop v = true then
        some { output := output, exit := Exit.stopped oBuff }
      else
        gLoop zero add mul stop rev len_rev loc len_local remaining (oBuff + 1) output

/-- Value accumulated by the inner loop at position `k`, read with total
indexing. -/
def winVal (zero : β) (add mul : β → β → β) (rev loc : List β) (k : Nat) : β :=
  (List.range (winBound rev.length loc.length k).toNat).foldl
    (fun acc (i : Nat) =>
      add acc (mul (rev.getD (winRev rev.length loc.length k (i : Int)).toNat zero)
        (loc.getD (winLoc rev.length loc.length k (i : Int)).toNat zero))) zero

/-- Value the loop leaves at position `k`: zero past `len_out`, the window sum
otherwise. -/
def posVal (zero : β) (add mul : β → β → β) (rev loc : List β) (k : Nat) : β :=
  if (k : Int) > (rev.length : Int) + (loc.length : Int) - 1 then zero
  else winVal zero add mul rev loc k

/-- Whether the loop stops at position `k`: the position is not skipped and the
stop test holds for its value. -/
def stopAt (zero : β) (add mul : β → β → β) (stop : β → Bool) (rev loc : List β)
    (k : Nat) : Bool :=
  decide ((k : Int) ≤ (rev.length : Int) + (loc.length : Int) - 1) &&
    stop (winVal zero add mul rev loc k)

/-- The correlation loop without faults: what `gLoop` computes when every access
is in bounds. -/
def refLoop (zero : β) (add mul : β → β → β) (stop : β → Bool) (rev loc : List β) :
    Nat → Nat → List β → Result β
  | 0, _, output => { output := output, exit := Exit.completed }
  | remaining + 1, k, output =>
    if stopAt zero add mul stop rev loc k = true then
      { output := output.set k (posVal zero add mul rev loc k), exit := Exit.stopped k }
    else
      refLoop zero add mul stop rev loc remaining (k + 1)
        (output.set k (posVal zero add mul rev loc k))

end Generic

section Predicates

variable {α : Type} [LinearOrderedCommRing α]

/-- Stop test of `xcorr_range` on the value just written. -/
def stopReal (max_threshold min_threshold v : α) : Bool :=
  decide ((max_threshold ≠ MAX_MAGIC ∧ v > max_threshold) ∨
    (min_threshold ≠ MIN_MAGIC ∧ v < min_threshold))

/-- Stop test of `xcorr_rangeComp` on the value just written. -/
def stopComp (sqrt : α → α) (max_threshold : α) (v : complex α) : Bool :=
  decide (max_threshold ≠ MAX_MAGIC ∧ absComp sqrt v > max_threshold)

/-- An index of the unbounded output `v` is violating when an enabled bound is
crossed there. -/
def violating (max_threshold min_threshold : α) (v : List α) (k : Nat) : Prop :=
  ∃ x, v.get? k = some x ∧
    ((max_threshold ≠ MAX_MAGIC ∧ x > max_threshold) ∨
      (min_threshold ≠ MIN_MAGIC ∧ x < min_threshold))

/-- The bounded sum of the specification at position `k`:
the sum of `rev[i] * local[i - k + n - 1]` over the `i` valid in `rev` whose
partner index is valid in `local`. -/
def corrSum (rev loc : List α) (k : Nat) : α :=
  ((List.range rev.length).map (fun (i : Nat) =>
    if 0 ≤ (i : Int) - k + loc.length - 1 ∧ (i : Int) - k + loc.length - 1 < loc.length then
      rev.getD i 0 * loc.getD ((i : Int) - k + loc.length - 1).toNat 0
    else 0)).sum

end Predicates

/-! ## Diagnostics of the output length verification -/

/-- A message printed by the output length verification of `xcorr_range` and
`xcorr_rangeComp`: "output vector is shorter than which it was expected", or
"output vector has %d dummy values at the end of it" with its argument. -/
inductive Diag where
  | shorter : Diag
  | dummy (len_dummy : Int) : Diag
  deriving DecidableEq

/-- The output length verification at the head of `xcorr_range` and
`xcorr_rangeComp`: the messages it prints, in order. -/
def lengthCheck (len_output len_rev len_local : Int) : List Diag :=
  let len_out := len_rev + len_local - 1
  if len_output < len_out then [Diag.shorter]
  else if len_output - len_out > 0 then [Diag.dummy (len_output - len_out)]
  else []

section Printed

variable {α : Type} [LinearOrderedCommRing α]

/-- The function `xcorr_range` together with what it prints: the length
verification runs first, then the correlation loop. -/
def xcorr_range_printed (output : List α) (len_output : Int) (rev : List α) (len_rev : Int)
    (loc : List α) (len_local : Int) (max_threshold min_threshold : α) :
    List Diag × Option (Result α) :=
  (lengthCheck len_output len_rev len_local,
    xcorr_range output len_output rev len_rev loc len_local max_threshold min_threshold)

/-- The function `xcorr_rangeComp` together with what it prints. -/
def xcorr_rangeComp_printed (sqrt : α → α) (output : List (complex α)) (len_output : Int)
    (rev : List (complex α)) (len_rev : Int) (loc : List (complex α)) (len_local : Int)
    (max_threshold min_threshold : α) : List Diag × Option (Result (complex α)) :=
  (lengthCheck len_output len_rev len_local,
    xcorr_rangeComp sqrt output len_output rev len_rev loc len_local
      max_threshold min_threshold)

/-- An index of the unbounded complex output `v` is violating when the upper
bound is enabled and the magnitude there exceeds it. -/
def violatingComp (sqrt : α → α) (max_threshold : α) (v : List (complex α)) (k : Nat) :
    Prop :=
  ∃ x, v.get? k = some x ∧ max_threshold ≠ MAX_MAGIC ∧ absComp sqrt x > max_threshold

end Printed

/-! ## Fixed-point arithmetic (`src/include/fixedpoint.h`)

`sfxp_t` is a 32-bit `int` and `sfxp64_t` a 64-bit `long long`; both are
integers here, and a result that leaves the range of its type wraps around
(two's complement), as does the narrowing `(sfxp_t)tmp`. `>>` on a negative
value is the arithmetic shift, so it rounds towards minus infinity. -/

/-- Two's complement wrap-around of an integer to the range of `int`. -/
def wrap32 (v : Int) : Int :=
  (v + 2147483648) % 4294967296 - 2147483648

/-- Two's complement wrap-around of an integer to the range of `long long`. -/
def wrap64 (v : Int) : Int :=
  (v + 9223372036854775808) % 18446744073709551616 - 9223372036854775808

/-- The macro `MAX_SFXP(WL)`, `(sfxp_t)((1<<(WL-1))-1)`. -/
def MAX_SFXP (WL : Int) : Int :=
  wrap32 (wrap32 (1 * 2 ^ (WL - 1).toNat) - 1)

/-- The macro `MIN_SFXP(WL)`, `(sfxp_t)(-(1<<(WL-1)))`. -/
def MIN_SFXP (WL : Int) : Int :=
  wrap32 (-wrap32 (1 * 2 ^ (WL - 1).toNat))

/-- The macro `RANGECHECK(I, WL)`: the value of `I` after the check. -/
def RANGECHECK (I WL : Int) : Int :=
  if I > MAX_SFXP WL then MAX_SFXP WL
  else if I < MIN_SFXP WL then MIN_SFXP WL
  else I

/-- The function `fxpAdd`. -/
def fxpAdd (A B WL : Int) : Int :=
  let C := wrap32 (A + B)
  RANGECHECK C WL

/-- The function `fxpSub`. -/
def fxpSub (A B WL : Int) : Int :=
  let C := wrap32 (A - B)
  RANGECHECK C WL

/-- The function `fxpMul`. -/
def fxpMul (A B WL FL : Int) : Int :=
  let tmp := wrap64 (A * B) / 2 ^ FL.toNat
  let ret := wrap32 tmp
  RANGECHECK ret WL

/-- The function `fxpDiv`; `none` when the divisor is zero. -/
def fxpDiv (A B WL FL : Int) : Option Int :=
  if B = 0 then none
  else
    let tmp := wrap64 (Int.tdiv (wrap64 (A * 2 ^ FL.toNat)) B)
    let ret := wrap32 tmp
    some (RANGECHECK ret WL)

/-! ## PSK symbol mapper (`src/include/symMapper.h`)

`log2` from `math.h` and the conversion of a `double` to `int` are parameters.
An `int` expression on bit values wraps around like every `int` result; index
expressions are assumed to stay in range. -/

/-- What a symbol mapper hands back: the value stored to `*lenSym`, the symbol
vector and the returned `int`. -/
structure MapResult (α : Type) where
  lenSym : Int
  symVec : List (complex α)
  ret : Int

section SymMapper

variable {α : Type} [LinearOrderedField α]

/-- The constant `SQRT2`. -/
def SQRT2 : α := 1.4142135623730950488016887242097

/-- The constant `COS_PI8`. -/
def COS_PI8 : α := 0.923828125

/-- The constant `SIN_PI8`. -/
def SIN_PI8 : α := 0.382568359375

/-- The constant `COS_PI4`. -/
def COS_PI4 : α := 0.707092285156250

/-- The table `psk8`. -/
def psk8 : List (complex α) :=
  [⟨SIN_PI8, COS_PI8⟩, ⟨COS_PI8, SIN_PI8⟩, ⟨SIN_PI8, -COS_PI8⟩, ⟨COS_PI8, -SIN_PI8⟩,
    ⟨-SIN_PI8, COS_PI8⟩, ⟨-COS_PI8, SIN_PI8⟩, ⟨-SIN_PI8, -COS_PI8⟩, ⟨-COS_PI8, -SIN_PI8⟩]

/-- The table `psk4`. -/
def psk4 : List (complex α) :=
  [⟨COS_PI4, COS_PI4⟩, ⟨-COS_PI4, COS_PI4⟩, ⟨COS_PI4, -COS_PI4⟩, ⟨-COS_PI4, -COS_PI4⟩]

/-- Modulation type `BPSK`. -/
def BPSK : Int := 2

/-- Modulation type `QPSK`. -/
def QPSK : Int := 4

/-- Modulation type `PSK8`. -/
def PSK8 : Int := 8

/-- The statement `symVec[i].re = v`. -/
def writeRe (symVec : List (complex α)) (i : Int) (v : α) : Option (List (complex α)) := do
  let c ← readAt symVec i
  writeAt symVec i { re := v, im := c.im }

/-- The statement `symVec[i].im = v`. -/
def writeIm (symVec : List (complex α)) (i : Int) (v : α) : Option (List (complex α)) := do
  let c ← readAt symVec i
  writeAt symVec i { re := c.re, im := v }

/-- The function `mapPsk`. In `case QPSK` the statement before the loop reads
`bitStream[2*i]` while `i` has not been assigned, so that arm faults. -/
def mapPsk (log2 : α → α) (toInt : α → Int) (lenSym : Int) (symVec : List (complex α))
    (lenBit : Int) (bitStream : List Int) (type : Int) (avePow : α) :
    Option (MapResult α) :=
  let boost : α := 1
  let symLen : Int :=
    if (lenSym : α) ≠ (lenBit : α) / log2 (type : α) then
      toInt ((lenBit : α) / log2 (type : α))
    else lenSym
  if type = BPSK then
    let boost := avePow * boost
    (forLoop symLen
      (fun i symVec => do
        let b ← readAt bitStream i
        let symVec ← writeRe symVec i (boost * ((wrap32 (1 - wrap32 (2 * b)) : Int) : α))
        writeIm symVec i 0) symVec).map
      (fun symVec => { lenSym := symLen, symVec := symVec, ret := 0 })
  else if type = QPSK then
    none
  else if type = PSK8 then
    (forLoop symLen
      (fun i symVec => do
        let b0 ← readAt bitStream (3 * i)
        let b1 ← readAt bitStream (3 * i + 1)
        let b2 ← readAt bitStream (3 * i + 2)
        let symIndex := wrap32 (wrap32 (wrap32 (b0 * 4) + wrap32 (b1 * 2)) + b2)
        let p ← readAt (psk8 : List (complex α)) symIndex
        let symVec ← writeRe symVec i p.re
        let q ← readAt (psk8 : List (complex α)) symIndex
        writeIm symVec i q.im) symVec).map
      (fun symVec => { lenSym := symLen, symVec := symVec, ret := 0 })
  else
    some { lenSym := symLen, symVec := symVec, ret := 0 }

end SymMapper

/-! ## Convolution (`src/include/fir.h`) -/

/-- The loop `for(idx = start; idx < bound; idx++) body(idx)`. -/
def forLoopFrom {σ : Type} (start bound : Int) (body : Int → σ → Option σ) (s : σ) :
    Option σ :=
  (List.range (bound - start).toNat).foldlM
    (fun st (i : Nat) => body (start + (i : Int)) st) s

section Fir

variable {α : Type} [LinearOrderedCommRing α]

/-- The function `conv`; the result is the final `y` and the returned value.
`inv_h_alloc` and `buf_alloc` tell whether the two `malloc` calls succeed. When
the first one fails the second is not evaluated and `err_alloc` frees `buf`
before it has been assigned, which is a fault. -/
def conv (inv_h_alloc buf_alloc : Bool) (y : List α) (len_y : Int) (h : List α)
    (len_h : Int) (x : List α) (len_x : Int) : Option (List α × Int) :=
  let ret : Int := 0
  let len_buf := len_x + (len_h - 1) * 2
  if len_y < len_x + len_h - 1 then
    some (y, ret - 1)
  else if inv_h_alloc = false then
    none
  else if buf_alloc = false then
    some (y, ret - 1 - 1)
  else do
    let inv_h ← forLoop len_h
      (fun idx inv_h => do
        let v ← readAt h (len_h - 1 - idx)
        writeAt inv_h idx v)
      (List.replicate len_h.toNat 0)
    let buf ← forLoop len_buf (fun idx buf => writeAt buf idx 0)
      (List.replicate len_buf.toNat 0)
    let buf ← forLoopFrom (len_h - 1) (len_x - 1 + len_h)
      (fun idx buf => do
        let v ← readAt x (idx - len_h + 1)
        writeAt buf idx v)
      buf
    let y ← forLoop (len_x + len_h - 1)
      (fun idx y => forLoop len_h
        (fun idx2 y => macStep buf inv_h idx (idx + idx2) idx2 y) y)
      y
    some (y, 0)

/-- The linear convolution of the specification at position `idx`: the sum of
`h[s] * x[idx - s]` over the `s` with `0 ≤ s < len_h` and `0 ≤ idx - s < len_x`. -/
def convSum (h x : List α) (idx : Nat) : α :=
  ∑ s in Finset.range h.length,
    if s ≤ idx ∧ idx - s < x.length then h.getD s 0 * x.getD (idx - s) 0 else 0

end Fir

/-! ## Bit grouping (`src/include/dataGen.h`)

`int` results wrap around to 32 bits, `1<<cursor` included. The `for` loop of
`biA2decA` advances `i` by `M`, which need not be positive, so the loop carries
a bound `fuel` on the number of its iterations and faults when the bound is
used up. -/

/-- The statement `output[cnt] += (1<<cursor)*input[i+M-1-cursor]`. -/
def biStep (input : List Int) (cnt i M cursor : Int) (output : List Int) :
    Option (List Int) := do
  let o ← readAt output cnt
  let b ← readAt input (i + M - 1 - cursor)
  writeAt output cnt (wrap32 (o + wrap32 (wrap32 (1 * 2 ^ cursor.toNat) * b)))

/-- The statements `cursor = M; while(--cursor >= 0) ...`: the body runs for
`cursor = M-1, M-2, ..., 0`. -/
def biGroup (input : List Int) (cnt i M : Int) (output : List Int) : Option (List Int) :=
  (List.range M.toNat).foldlM
    (fun st (j : Nat) => biStep input cnt i M (M - 1 - (j : Int)) st) output

/-- The loop `for(i = 0; i<lenIn; i=i+M)` from the state `(i, cnt, output)`;
the result is the final `output` and `cnt`. -/
def biLoop (input : List Int) (lenIn M : Int) :
    (fuel : Nat) → (i cnt : Int) → (output : List Int) → Option (List Int × Int)
  | 0, i, cnt, output => if i < lenIn then none else some (output, cnt)
  | fuel + 1, i, cnt, output =>
    if i < lenIn then do
      let output ← biGroup input cnt i M output
      biLoop input lenIn M fuel (i + M) (cnt + 1) output
    else some (output, cnt)

/-- The function `biA2decA`; the result is the final `decOut` and the returned
value. `lenIn%M` with `M = 0` is a fault. -/
def biA2decA (fuel : Nat) (decOut bitIn : List Int) (lenIn M : Int) :
    Option (List Int × Int) := do
  let (output, cnt) ← biLoop bitIn lenIn M fuel 0 0 decOut
  if M = 0 then none
  else if Int.tmod lenIn M ≠ 0 then do
    let output ← writeAt output (cnt - 1) 0
    some (output, 1)
  else some (output, 0)

/-- Value of group `c` in the specification: the sum over `b < M` of
`2^(M-1-b) * bitIn[c*M + b]`, most significant bit first. -/
def groupSum (bitIn : List Int) (M c : Nat) : Int :=
  ∑ b in Finset.range M, 2 ^ (M - 1 - b) * bitIn.getD (c * M + b) 0

/-- What the inner loop of `biA2decA` adds up for group `c` starting from `v`,
with the wrap-around of every `int` result. -/
def groupAcc (bitIn : List Int) (M c : Nat) (v : Int) : Int :=
  (List.range M).foldl
    (fun acc (j : Nat) =>
      wrap32 (acc + wrap32 (wrap32 (1 * 2 ^ (M - 1 - j)) * bitIn.getD (c * M + j) 0))) v

/-! ## QAM mapping and hard decision (`src/include/symMapper.h`)

The functions below do not write the array they read from, so an element that
one loop iteration uses several times is read once. `*lenBit` is never assigned
by `PskHd` and `QamHd` and is left out. -/

/-- Modulation type `QAM16`. -/
def QAM16 : Int := 16

/-- Modulation type `QAM64`. -/
def QAM64 : Int := 64

/-- Modulation type `QAM256`. -/
def QAM256 : Int := 256

/-- The `int` expression `(2*b0-1) * (2*b1+1)` of `case QAM16`. -/
def lvl16 (b0 b1 : Int) : Int :=
  wrap32 (wrap32 (wrap32 (2 * b0) - 1) * wrap32 (wrap32 (2 * b1) + 1))

/-- The `int` expression `(2*b0-1) * (4 + (2*b1-1) * (2*b2+1))` of `case QAM64`. -/
def lvl64 (b0 b1 b2 : Int) : Int :=
  wrap32 (wrap32 (wrap32 (2 * b0) - 1) *
    wrap32 (4 + wrap32 (wrap32 (wrap32 (2 * b1) - 1) * wrap32 (wrap32 (2 * b2) + 1))))

/-- The `int` expression `(2*b0-1) * (8 + 4*(2*b1-1) + (2*b2-1)*(2*b3+1))` of
`case QAM256`. -/
def lvl256 (b0 b1 b2 b3 : Int) : Int :=
  wrap32 (wrap32 (wrap32 (2 * b0) - 1) *
    wrap32 (wrap32 (8 + wrap32 (4 * wrap32 (wrap32 (2 * b1) - 1))) +
      wrap32 (wrap32 (wrap32 (2 * b2) - 1) * wrap32 (wrap32 (2 * b3) + 1))))

section Qam

variable {α : Type} [LinearOrderedField α]

/-- Body of the loop of `case QAM16` in `mapQam`. -/
def mapStep16 (sqrt : α → α) (bitStream : List Int) (i : Int) (symVec : List (complex α)) :
    Option (List (complex α)) := do
  let b0 ← readAt bitStream (4 * i)
  let b1 ← readAt bitStream (4 * i + 1)
  let symVec ← writeRe symVec i (((lvl16 b0 b1 : Int) : α) / sqrt 10)
  let b2 ← readAt bitStream (4 * i + 2)
  let b3 ← readAt bitStream (4 * i + 3)
  writeIm symVec i (((lvl16 b2 b3 : Int) : α) / sqrt 10)

/-- Body of the loop of `case QAM64` in `mapQam`. -/
def mapStep64 (sqrt : α → α) (bitStream : List Int) (i : Int) (symVec : List (complex α)) :
    Option (List (complex α)) := do
  let b0 ← readAt bitStream (6 * i)
  let b1 ← readAt bitStream (6 * i + 1)
  let b2 ← readAt bitStream (6 * i + 2)
  let symVec ← writeRe symVec i (((lvl64 b0 b1 b2 : Int) : α) / sqrt 42)
  let b3 ← readAt bitStream (6 * i + 3)
  let b4 ← readAt bitStream (6 * i + 4)
  let b5 ← readAt bitStream (6 * i + 5)
  writeIm symVec i (((lvl64 b3 b4 b5 : Int) : α) / sqrt 42)

/-- Body of the loop of `case QAM256` in `mapQam`. -/
def mapStep256 (sqrt : α → α) (bitStream : List Int) (i : Int) (symVec : List (complex α)) :
    Option (List (complex α)) := do
  let b0 ← readAt bitStream (8 * i)
  let b1 ← readAt bitStream (8 * i + 1)
  let b2 ← readAt bitStream (8 * i + 2)
  let b3 ← readAt bitStream (8 * i + 3)
  let symVec ← writeRe symVec i (((lvl256 b0 b1 b2 b3 : Int) : α) / sqrt 170)
  let b4 ← readAt bitStream (8 * i + 4)
  let b5 ← readAt bitStream (8 * i + 5)
  let b6 ← readAt bitStream (8 * i + 6)
  let b7 ← readAt bitStream (8 * i + 7)
  writeIm symVec i (((lvl256 b4 b5 b6 b7 : Int) : α) / sqrt 170)

/-- The function `mapQam`; `avePow` is accepted and never used. -/
def mapQam (log2 : α → α) (toInt : α → Int) (sqrt : α → α) (lenSym : Int)
    (symVec : List (complex α)) (lenBit : Int) (bitStream : List Int) (type : Int)
    (_avePow : α) : Option (MapResult α) :=
  let symLen : Int :=
    if (lenSym : α) ≠ (lenBit : α) / log2 (type : α) then
      toInt ((lenBit : α) / log2 (type : α))
    else lenSym
  if type = QAM16 then
    (forLoop symLen (mapStep16 sqrt bitStream) symVec).map
      (fun symVec => { lenSym := symLen, symVec := symVec, ret := 0 })
  else if type = QAM64 then
    (forLoop symLen (mapStep64 sqrt bitStream) symVec).map
      (fun symVec => { lenSym := symLen, symVec := symVec, ret := 0 })
  else if type = QAM256 then
    (forLoop symLen (mapStep256 sqrt bitStream) symVec).map
      (fun symVec => { lenSym := symLen, symVec := symVec, ret := 0 })
  else
    some { lenSym := symLen, symVec := symVec, ret := 0 }

/-- The decision `(v > 0)? 1:0`. -/
def hdPos (v : α) : Int :=
  if v > 0 then 1 else 0

/-- The decision `(fabs(v) > c/sqrt(n))? 1:0`. -/
def hdAbove (sqrt : α → α) (c n v : α) : Int :=
  if |v| > c / sqrt n then 1 else 0

/-- The decision `((fabs(v) > lo/sqrt(n)) && (fabs(v) < hi/sqrt(n)))? 0:1`. -/
def hdOutside (sqrt : α → α) (lo hi n v : α) : Int :=
  if |v| > lo / sqrt n ∧ |v| < hi / sqrt n then 0 else 1

/-- The decision
`(((fabs(v) > lo/sqrt(n)) && (fabs(v) < hi/sqrt(n))) || (fabs(v) > top/sqrt(n)))? 1:0`. -/
def hdBandOrTop (sqrt : α → α) (lo hi top n v : α) : Int :=
  if (|v| > lo / sqrt n ∧ |v| < hi / sqrt n) ∨ |v| > top / sqrt n then 1 else 0

/-- The decision `(((fabs(v) > a/sqrt(n)) && (fabs(v) < b/sqrt(n))) ||
((fabs(v) > c/sqrt(n)) && (fabs(v) < d/sqrt(n))))? 0:1`. -/
def hdTwoBands (sqrt : α → α) (a b c d n v : α) : Int :=
  if (|v| > a / sqrt n ∧ |v| < b / sqrt n) ∨ (|v| > c / sqrt n ∧ |v| < d / sqrt n) then 0
  else 1

/-- Body of the loop of `case QAM16`, the same text in `PskHd` and in `QamHd`. -/
def hdStep16 (sqrt : α → α) (symVec : List (complex α)) (idx : Int) (bitStream : List Int) :
    Option (List Int) := do
  let s ← readAt symVec idx
  let bitStream ← writeAt bitStream (4 * idx) (hdPos s.re)
  let bitStream ← writeAt bitStream (4 * idx + 1) (hdAbove sqrt 2 10 s.re)
  let bitStream ← writeAt bitStream (4 * idx + 2) (hdPos s.im)
  writeAt bitStream (4 * idx + 3) (hdAbove sqrt 2 10 s.im)

/-- Body of the loop of `case QAM64`, the same text in `PskHd` and in `QamHd`. -/
def hdStep64 (sqrt : α → α) (symVec : List (complex α)) (idx : Int) (bitStream : List Int) :
    Option (List Int) := do
  let s ← readAt symVec idx
  let bitStream ← writeAt bitStream (6 * idx) (hdPos s.re)
  let bitStream ← writeAt bitStream (6 * idx + 1) (hdAbove sqrt 4 42 s.re)
  let bitStream ← writeAt bitStream (6 * idx + 2) (hdOutside sqrt 2 6 42 s.re)
  let bitStream ← writeAt bitStream (6 * idx + 3) (hdPos s.im)
  let bitStream ← writeAt bitStream (6 * idx + 4) (hdAbove sqrt 4 42 s.im)
  writeAt bitStream (6 * idx + 5) (hdOutside sqrt 2 6 42 s.im)

/-- Body of the loop of `case QAM256`, the same text in `PskHd` and in `QamHd`. -/
def hdStep256 (sqrt : α → α) (symVec : List (complex α)) (idx : Int) (bitStream : List Int) :
    Option (List Int) := do
  let s ← readAt symVec idx
  let bitStream ← writeAt bitStream (8 * idx) (hdPos s.re)
  let bitStream ← writeAt bitStream (8 * idx + 1) (hdAbove sqrt 8 170 s.re)
  let bitStream ← writeAt bitStream (8 * idx + 2) (hdBandOrTop sqrt 4 8 12 170 s.re)
  let bitStream ← writeAt bitStream (8 * idx + 3) (hdTwoBands sqrt 2 6 10 14 170 s.re)
  let bitStream ← writeAt bitStream (8 * idx + 4) (hdPos s.im)
  let bitStream ← writeAt bitStream (8 * idx + 5) (hdAbove sqrt 8 170 s.im)
  let bitStream ← writeAt bitStream (8 * idx + 6) (hdBandOrTop sqrt 4 8 12 170 s.im)
  writeAt bitStream (8 * idx + 7) (hdTwoBands sqrt 2 6 10 14 170 s.im)

/-- The function `QamHd`; the result is the final `bitStream` and the returned
value. -/
def QamHd (sqrt : α → α) (bitStream : List Int) (lenSym : Int) (symVec : List (complex α))
    (type : Int) : Option (List Int × Int) :=
  let lengthSym := lenSym
  if type = QAM16 then
    (forLoop lengthSym (hdStep16 sqrt symVec) bitStream).map (fun bitStream => (bitStream, 0))
  else if type = QAM64 then
    (forLoop lengthSym (hdStep64 sqrt symVec) bitStream).map (fun bitStream => (bitStream, 0))
  else if type = QAM256 then
    (forLoop lengthSym (hdStep256 sqrt symVec) bitStream).map (fun bitStream => (bitStream, 0))
  else
    some (bitStream, 0)

/-- The function `PskHd`; the result is the final `bitStream` and the returned
value. -/
def PskHd (sqrt : α → α) (bitStream : List Int) (lenSym : Int) (symVec : List (complex α))
    (type : Int) : Option (List Int × Int) :=
  let lengthSym := lenSym
  if type = BPSK then
    (forLoop lengthSym
      (fun idx bitStream => do
        let s ← readAt symVec idx
        writeAt bitStream idx (if s.re < 0 then 1 else 0)) bitStream).map
      (fun bitStream => (bitStream, 0))
  else if type = QPSK then
    (forLoop lengthSym
      (fun idx bitStream => do
        let s ← readAt symVec idx
        let bitStream ← writeAt bitStream (2 * idx) (if s.re < 0 then 1 else 0)
        writeAt bitStream (2 * idx + 1) (if s.im < 0 then 1 else 0)) bitStream).map
      (fun bitStream => (bitStream, 0))
  else if type = PSK8 then
    (forLoop lengthSym
      (fun idx bitStream => do
        let s ← readAt symVec idx
        let bitStream ← writeAt bitStream (3 * idx) (if s.re > 0 then 0 else 1)
        let bitStream ← writeAt bitStream (3 * idx + 1) (if s.im > 0 then 0 else 1)
        writeAt bitStream (3 * idx + 2)
          (if (s.re + s.im) * (-s.re + s.im) > 0 then 0 else 1)) bitStream).map
      (fun bitStream => (bitStream, 0))
  else if type = QAM16 then
    (forLoop lengthSym (hdStep16 sqrt symVec) bitStream).map (fun bitStream => (bitStream, 0))
  else if type = QAM64 then
    (forLoop lengthSym (hdStep64 sqrt symVec) bitStream).map (fun bitStream => (bitStream, 0))
  else if type = QAM256 then
    (forLoop lengthSym (hdStep256 sqrt symVec) bitStream).map (fun bitStream => (bitStream, 0))
  else
    some (bitStream, 0)

/-- The symbol that `mapQam` writes at position `i` for `QAM16`. -/
def sym16 (sqrt : α → α) (b : List Int) (i : Nat) : complex α :=
  { re := ((lvl16 (b.getD (4 * i) 0) (b.getD (4 * i + 1) 0) : Int) : α) / sqrt 10,
    im := ((lvl16 (b.getD (4 * i + 2) 0) (b.getD (4 * i + 3) 0) : Int) : α) / sqrt 10 }

/-- The symbol that `mapQam` writes at position `i` for `QAM64`. -/
def sym64 (sqrt : α → α) (b : List Int) (i : Nat) : complex α :=
  { re := ((lvl64 (b.getD (6 * i) 0) (b.getD (6 * i + 1) 0) (b.getD (6 * i + 2) 0) : Int) : α) /
      sqrt 42,
    im := ((lvl64 (b.getD (6 * i + 3) 0) (b.getD (6 * i + 4) 0) (b.getD (6 * i + 5) 0) : Int) :
      α) / sqrt 42 }

/-- The symbol that `mapQam` writes at position `i` for `QAM256`. -/
def sym256 (sqrt : α → α) (b : List Int) (i : Nat) : complex α :=
  { re := ((lvl256 (b.getD (8 * i) 0) (b.getD (8 * i + 1) 0) (b.getD (8 * i + 2) 0)
      (b.getD (8 * i + 3) 0) : Int) : α) / sqrt 170,
    im := ((lvl256 (b.getD (8 * i + 4) 0) (b.getD (8 * i + 5) 0) (b.getD (8 * i + 6) 0)
      (b.getD (8 * i + 7) 0) : Int) : α) / sqrt 170 }

/-- The four decisions of `case QAM16` for one symbol, in the order written. -/
def hdBits16 (sqrt : α → α) (s : complex α) : List Int :=
  [hdPos s.re, hdAbove sqrt 2 10 s.re, hdPos s.im, hdAbove sqrt 2 10 s.im]

/-- The six decisions of `case QAM64` for one symbol, in the order written. -/
def hdBits64 (sqrt : α → α) (s : complex α) : List Int :=
  [hdPos s.re, hdAbove sqrt 4 42 s.re, hdOutside sqrt 2 6 42 s.re,
    hdPos s.im, hdAbove sqrt 4 42 s.im, hdOutside sqrt 2 6 42 s.im]

/-- The eight decisions of `case QAM256` for one symbol, in the order written. -/
def hdBits256 (sqrt : α → α) (s : complex α) : List Int :=
  [hdPos s.re, hdAbove sqrt 8 170 s.re, hdBandOrTop sqrt 4 8 12 170 s.re,
    hdTwoBands sqrt 2 6 10 14 170 s.re,
    hdPos s.im, hdAbove sqrt 8 170 s.im, hdBandOrTop sqrt 4 8 12 170 s.im,
    hdTwoBands sqrt 2 6 10 14 170 s.im]

end Qam

/-! ## IEEE 754 binary64 arithmetic

The claims that depend on how sums and products are rounded are settled on the
type `double` below instead of an exact ring. A finite value is an integer
multiple of `2^-1074`, the smallest positive `double`, kept as a sign and the
number of such units; every operation computes the exact result and rounds it to
53 significant bits, ties to even, with overflow to infinity. Each C operation is
rounded on its own (no fused multiply-add, no excess precision). `sqrt` and `pow`
of `math.h` stay parameters. -/

/-- A `double`: a finite value `(-1)^sign * mag * 2^-1074`, an infinity or a
NaN. The finite values of binary64 are those with `mag = m * 2^t`, `m < 2^53`
and `mag < 2^2098`. -/
inductive double where
  | fin (sign : Bool) (mag : Nat) : double
  | inf (sign : Bool) : double
  | nan : double
  deriving DecidableEq

namespace double

/-- The number of units of `2^-1074` in the value 1. -/
def unit : Nat :=
  2 ^ 1074

/-- The number of units in `2^1024`, which no finite value reaches. -/
def huge : Nat :=
  2 ^ 2098

/-- Binary search for the position of the leading bit of `n`: `acc` is raised
by `2^k` whenever `n` still has a bit at or above `acc + 2^k`. -/
def log2Search : Nat → Nat → Nat → Nat
  | 0, _, acc => acc
  | k + 1, n, acc =>
    if 2 ^ (acc + 2 ^ k) ≤ n then log2Search k n (acc + 2 ^ k) else log2Search k n acc

/-- Number of binary digits of `n`, for `n < 2^8192`; this covers every exact sum
and product of two finite values. -/
def bitLen (n : Nat) : Nat :=
  if n = 0 then 0 else log2Search 13 n 0 + 1

/-- Round `num / 2^sh` units to the nearest representable number of units, ties
to even: the `d` low bits that do not fit into 53 significant bits, and at least
the `sh` bits below one unit, are dropped. -/
def roundMag (num sh : Nat) : Nat :=
  let d := max sh (bitLen num - 53)
  let q := num / 2 ^ d
  let r := num % 2 ^ d
  (if 2 ^ d < 2 * r ∨ (2 * r = 2 ^ d ∧ q % 2 = 1) then q + 1 else q) * 2 ^ (d - sh)

/-- The `double` nearest to `(-1)^s * num / 2^sh` units; a magnitude of `2^1024`
or more after rounding overflows to infinity. -/
def roundEven (s : Bool) (num sh : Nat) : double :=
  if huge ≤ roundMag num sh then inf s else fin s (roundMag num sh)

/-- Conversion of an `int` to `double`. -/
def ofInt (n : Int) : double :=
  roundEven (decide (n < 0)) (n.natAbs * unit) 0

/-- Unary minus. -/
def neg : double → double
  | fin s m => fin (!s) m
  | inf s => inf (!s)
  | nan => nan

/-- The sum `a + b`. -/
def add : double → double → double
  | nan, _ => nan
  | _, nan => nan
  | inf s, inf t => if s = t then inf s else nan
  | inf s, fin _ _ => inf s
  | fin _ _, inf t => inf t
  | fin s a, fin t b =>
    if s = t then roundEven s (a + b) 0
    else if b < a then roundEven s (a - b) 0
    else if a < b then roundEven t (b - a) 0
    else fin false 0

/-- The difference `a - b`. -/
def sub (a b : double) : double :=
  add a (neg b)

/-- The product `a * b`. -/
def mul : double → double → double
  | nan, _ => nan
  | _, nan => nan
  | inf s, inf t => inf (xor s t)
  | inf s, fin t b => if b = 0 then nan else inf (xor s t)
  | fin s a, inf t => if a = 0 then nan else inf (xor s t)
  | fin s a, fin t b => roundEven (xor s t) (a * b) 1074

/-- Signed number of units of a finite value. -/
def sval (s : Bool) (m : Nat) : Int :=
  if s then -(m : Int) else (m : Int)

/-- Position of a value in the order of the extended reals, in units of
`2^-1074`; a NaN has none. -/
def key : double → Option Int
  | fin s m => some (sval s m)
  | inf s => some (sval s huge)
  | nan => none

/-- The comparison `a < b`. -/
def lt (a b : double) : Bool :=
  match key a, key b with
  | some x, some y => decide (x < y)
  | _, _ => false

/-- The comparison `a > b`. -/
def gt (a b : double) : Bool :=
  lt b a

/-- The comparison `a == b`. -/
def eq (a b : double) : Bool :=
  match key a, key b with
  | some x, some y => decide (x = y)
  | _, _ => false

/-- The comparison `a != b`. -/
def ne (a b : double) : Bool :=
  !(eq a b)

/-- The test `isfinite(a)`: neither an infinity nor a NaN. -/
def isfinite : double → Bool
  | fin _ _ => true
  | inf _ => false
  | nan => false

/-- Whether a value of the type is a value of binary64: a finite magnitude is below
`2^1024` and has at most 53 significant bits, so that rounding leaves it unchanged. -/
def isBinary64 : double → Bool
  | fin _ m => decide (m < huge) && decide (roundMag m 0 = m)
  | inf _ => true
  | nan => true

/-- The value `d` is finite and equals the integer `n`. -/
def rep (d : double) (n : Int) : Prop :=
  ∃ s m, d = fin s m ∧ sval s m = n * (unit : Int)

end double

instance : Add double := ⟨double.add⟩

instance : Sub double := ⟨double.sub⟩

instance : Mul double := ⟨double.mul⟩

instance : Neg double := ⟨double.neg⟩

instance (n : Nat) : OfNat double n := ⟨double.ofInt n⟩

/-! ## The correlation engine, the complex operations and `conv` on `double` -/

namespace Binary64

/-- The constant `MAX_MAGIC`, converted to `double` where it is compared. -/
def MAX_MAGIC : double := double.ofInt (-65534)

/-- The constant `MIN_MAGIC`, converted to `double` where it is compared. -/
def MIN_MAGIC : double := double.ofInt 65533

/-- Complex conjugate. -/
def conjComp (c : complex double) : complex double :=
  { re := c.re, im := -c.im }

/-- Build a complex value from its two components. -/
def genComp (re im : double) : complex double :=
  { re := re, im := im }

/-- Magnitude, `sqrt(pow(re, 2) + pow(im, 2))`. -/
def absComp (sqrt : double → double) (pow : double → double → double) (c : complex double) :
    double :=
  sqrt (pow c.re 2 + pow c.im 2)

/-- Squared magnitude, `pow(re, 2) + pow(im, 2)`. -/
def absSqrComp (pow : double → double → double) (c : complex double) : double :=
  pow c.re 2 + pow c.im 2

/-- Norm, the same as `absComp`. -/
def normComp (sqrt : double → double) (pow : double → double → double) (c : complex double) :
    double :=
  absComp sqrt pow c

/-- Complex product. -/
def mulComp (a b : complex double) : complex double :=
  { re := a.re * b.re - a.im * b.im, im := a.re * b.im + a.im * b.re }

/-- Complex sum. -/
def addComp (a b : complex double) : complex double :=
  genComp (a.re + b.re) (a.im + b.im)

/-- The statement `output[oBuff] += rev[ri] * local[li]`. -/
def macStep (rev loc : List double) (oBuff ri li : Int) (output : List double) :
    Option (List double) := do
  let o ← readAt output oBuff
  let r ← readAt rev ri
  let l ← readAt loc li
  writeAt output oBuff (o + r * l)

/-- The six window branches of the body of the correlation loop of `xcorr_range`. -/
def corrWindow (rev : List double) (len_rev : Int) (loc : List double) (len_local : Int)
    (oBuff : Int) (output : List double) : Option (List double) :=
  let len_out := len_rev + len_local - 1
  if len_rev ≥ len_local then
    if oBuff < len_local then
      let len_win := oBuff
      forLoop (oBuff + 1)
        (fun i => macStep rev loc oBuff (len_win - i) (len_local - 1 - i)) output
    else if oBuff ≥ len_rev then
      let len_win := len_out - oBuff
      forLoop len_win
        (fun i => macStep rev loc oBuff (len_rev - len_win + i) (len_local - len_win - 1 + i))
        output
    else
      let len_win := len_local
      forLoop len_win
        (fun i => macStep rev loc oBuff (oBuff - i) (len_win - 1 - i)) output
  else
    if oBuff < len_rev then
      let len_win := oBuff
      forLoop (len_win + 1)
        (fun i => macStep rev loc oBuff (len_win - i) (len_local - 1 - i)) output
    else if oBuff ≥ len_local then
      let len_win := len_out - oBuff
      forLoop len_win
        (fun i => macStep rev loc oBuff (len_rev - len_win + i) i) output
    else
      let len_win := len_rev
      forLoop len_win
        (fun i => macStep rev loc oBuff (len_win - 1 - i)
          (len_local - 1 - (oBuff + 1 - len_rev) - i)) output

/-- Stop test of `xcorr_range` on the value just written. -/
def stopReal (max_threshold min_threshold v : double) : Bool :=
  (double.ne max_threshold MAX_MAGIC && double.gt v max_threshold) ||
    (double.ne min_threshold MIN_MAGIC && double.lt v min_threshold)

/-- Stop test of `xcorr_rangeComp` on the value just written. -/
def stopComp (sqrt : double → double) (pow : double → double → double)
    (max_threshold : double) (v : complex double) : Bool :=
  double.ne max_threshold MAX_MAGIC && double.gt (absComp sqrt pow v) max_threshold

/-- The correlation loop of `xcorr_range`, with `remaining` iterations left and
the loop variable at `oBuff`. -/
def xcorr_loop (rev : List double) (len_rev : Int) (loc : List double) (len_local : Int)
    (max_threshold min_threshold : double) :
    (remaining : Nat) → (oBuff : Int) → (output : List double) → Option (Result double)
  | 0, _, output => some { output := output, exit := Exit.completed }
  | remaining + 1, oBuff, output => do
    let output ← writeAt output oBuff 0
    if oBuff > len_rev + len_local - 1 then
      xcorr_loop rev len_rev loc len_local max_threshold min_threshold
        remaining (oBuff + 1) output
    else
      let output ← corrWindow rev len_rev loc len_local oBuff output
      let v ← readAt output oBuff
      if (double.ne max_threshold MAX_MAGIC && double.gt v max_threshold) ||
          (double.ne min_threshold MIN_MAGIC && double.lt v min_threshold) then
        some { output := output, exit := Exit.stopped oBuff }
      else
        xcorr_loop rev len_rev loc len_local max_threshold min_threshold
          remaining (oBuff + 1) output

/-- The function `xcorr_range`. -/
def xcorr_range (output : List double) (len_output : Int) (rev : List double) (len_rev : Int)
    (loc : List double) (len_local : Int) (max_threshold min_threshold : double) :
    Option (Result double) :=
  xcorr_loop rev len_rev loc len_local max_threshold min_threshold len_output.toNat 0 output

/-- The function `xcorr`. -/
def xcorr (output : List double) (len_output : Int) (rev : List double) (len_rev : Int)
    (loc : List double) (len_local : Int) : Option (Result double) :=
  xcorr_range output len_output rev len_rev loc len_local MAX_MAGIC MIN_MAGIC

/-- The statement
`output[oBuff] = addComp(output[oBuff], mulComp(rev[ri], compLocal[li]))`. -/
def macStepComp (rev compLocal : List (complex double)) (oBuff ri li : Int)
    (output : List (complex double)) : Option (List (complex double)) := do
  let o ← readAt output oBuff
  let r ← readAt rev ri
  let l ← readAt compLocal li
  writeAt output oBuff (addComp o (mulComp r l))

/-- The six window branches of the body of the correlation loop of
`xcorr_rangeComp`. -/
def corrWindowComp (rev : List (complex double)) (len_rev : Int)
    (compLocal : List (complex double)) (len_local : Int) (oBuff : Int)
    (output : List (complex double)) : Option (List (complex double)) :=
  let len_out := len_rev + len_local - 1
  if len_rev ≥ len_local then
    if oBuff < len_local then
      let len_win := oBuff
      forLoop (oBuff + 1)
        (fun i => macStepComp rev compLocal oBuff (len_win - i) (len_local - 1 - i)) output
    else if oBuff ≥ len_rev then
      let len_win := len_out - oBuff
      forLoop len_win
        (fun i => macStepComp rev compLocal oBuff (len_rev - len_win + i)
          (len_local - len_win - 1 + i)) output
    else
      let len_win := len_local
      forLoop len_win
        (fun i => macStepComp rev compLocal oBuff (oBuff - i) (len_win - 1 - i)) output
  else
    if oBuff < len_rev then
      let len_win := oBuff
      forLoop (len_win + 1)
        (fun i => macStepComp rev compLocal oBuff (len_win - i) (len_local - 1 - i)) output
    else if oBuff ≥ len_local then
      let len_win := len_out - oBuff
      forLoop len_win
        (fun i => macStepComp rev compLocal oBuff (len_rev - len_win + i) i) output
    else
      let len_win := len_rev
      forLoop len_win
        (fun i => macStepComp rev compLocal oBuff (len_win - 1 - i)
          (len_local - 1 - (oBuff + 1 - len_rev) - i)) output

/-- The correlation loop of `xcorr_rangeComp`, with `remaining` iterations left
and the loop variable at `oBuff`. -/
def xcorr_loopComp (sqrt : double → double) (pow : double → double → double)
    (rev : List (complex double)) (len_rev : Int) (compLocal : List (complex double))
    (len_local : Int) (max_threshold : double) :
    (remaining : Nat) → (oBuff : Int) → (output : List (complex double)) →
      Option (Result (complex double))
  | 0, _, output => some { output := output, exit := Exit.completed }
  | remaining + 1, oBuff, output => do
    let output ← writeAt output oBuff (genComp 0 0)
    if oBuff > len_rev + len_local - 1 then
      xcorr_loopComp sqrt pow rev len_rev compLocal len_local max_threshold
        remaining (oBuff + 1) output
    else
      let output ← corrWindowComp rev len_rev compLocal len_local oBuff output
      let v ← readAt output oBuff
      if double.ne max_threshold MAX_MAGIC && double.gt (absComp sqrt pow v) max_threshold then
        some { output := output, exit := Exit.stopped oBuff }
      else
        xcorr_loopComp sqrt pow rev len_rev compLocal len_local max_threshold
          remaining (oBuff + 1) output

/-- The loop `for(i = 0; i < len_local; i++) compLocal[i] = conjComp(local[i])`
run on the freshly allocated block. -/
def conjLocal (loc : List (complex double)) (len_local : Int) :
    Option (List (complex double)) :=
  forLoop len_local
    (fun i compLocal => do
      let l ← readAt loc i
      writeAt compLocal i (conjComp l))
    (List.replicate len_local.toNat (genComp 0 0))

/-- The function `xcorr_rangeComp`; `min_threshold` is accepted and never used. -/
def xcorr_rangeComp (sqrt : double → double) (pow : double → double → double)
    (output : List (complex double)) (len_output : Int) (rev : List (complex double))
    (len_rev : Int) (loc : List (complex double)) (len_local : Int)
    (max_threshold _min_threshold : double) : Option (Result (complex double)) := do
  let compLocal ← conjLocal loc len_local
  xcorr_loopComp sqrt pow rev len_rev compLocal len_local max_threshold len_output.toNat 0
    output

/-- The function `conv` of `fir.h`; the result is the final `y` and the returned
value. `inv_h_alloc` and `buf_alloc` tell whether the two `malloc` calls succeed. -/
def conv (inv_h_alloc buf_alloc : Bool) (y : List double) (len_y : Int) (h : List double)
    (len_h : Int) (x : List double) (len_x : Int) : Option (List double × Int) :=
  let ret : Int := 0
  let len_buf := len_x + (len_h - 1) * 2
  if len_y < len_x + len_h - 1 then
    some (y, ret - 1)
  else if inv_h_alloc = false then
    none
  else if buf_alloc = false then
    some (y, ret - 1 - 1)
  else do
    let inv_h ← forLoop len_h
      (fun idx inv_h => do
        let v ← readAt h (len_h - 1 - idx)
        writeAt inv_h idx v)
      (List.replicate len_h.toNat 0)
    let buf ← forLoop len_buf (fun idx buf => writeAt buf idx 0)
      (List.replicate len_buf.toNat 0)
    let buf ← forLoopFrom (len_h - 1) (len_x - 1 + len_h)
      (fun idx buf => do
        let v ← readAt x (idx - len_h + 1)
        writeAt buf idx v)
      buf
    let y ← forLoop (len_x + len_h - 1)
      (fun idx y => forLoop len_h
        (fun idx2 y => macStep buf inv_h idx (idx + idx2) idx2 y) y)
      y
    some (y, 0)

end Binary64

/-- The `double` pair holding the integers of a pair. -/
def toDouble (z : complex Int) : complex double :=
  { re := double.ofInt z.re, im := double.ofInt z.im }

/-- The complex number `re + im * i` denoted by a pair of integers. -/
def toComplex (z : complex Int) : ℂ :=
  { re := (z.re : ℝ), im := (z.im : ℝ) }

/-! ## Memory and inner-loop lemmas -/

section Lemmas
variable {β : Type}

theorem readAt_natCast (a : List β) (k : Nat) : readAt a (k : Int) = a.get? k := by
  simp [readAt]

theorem readAt_of_lt (zero : β) (a : List β) (i : Int) (h0 : 0 ≤ i)
    (h1 : i < (a.length : Int)) : readAt a i = some (a.getD i.toNat zero) := by
  have h : i.toNat < a.length := by omega
  simp [readAt, h0, List.getD, List.getElem?_eq_getElem h]

theorem writeAt_natCast (a : List β) (k : Nat) (v : β) (h : k < a.length) :
    writeAt a (k : Int) v = some (a.set k v) := by
  simp [writeAt, h]

theorem readAt_set_self (a : List β) (k : Nat) (v : β) (h : k < a.length) :
    readAt (a.set k v) (k : Int) = some v := by
  simp [readAt, h]

theorem foldlM_gMac (zero : β) (add mul : β → β → β) (rev loc : List β) (k : Nat)
    (f g : Int → Int) (out : List β) (hk : k < out.length) :
    ∀ (n : Nat) (a : β),
      (∀ i : Nat, i < n → 0 ≤ f i ∧ f i < (rev.length : Int) ∧ 0 ≤ g i ∧
        g i < (loc.length : Int)) →
      (List.range n).foldlM (fun st (i : Nat) => gMac add mul rev loc k (f i) (g i) st)
          (out.set k a) =
        some (out.set k ((List.range n).foldl
          (fun acc (i : Nat) => add acc (mul (rev.getD (f i).toNat zero)
            (loc.getD (g i).toNat zero))) a)) := by
  intro n
  induction n with
  | zero => intro a _; simp
  | succ n ih =>
    intro a h
    have hn := h n (Nat.lt_succ_self n)
    rw [List.range_succ, List.foldlM_append, ih a (fun i hi => h i (Nat.lt_succ_of_lt hi)),
      List.foldl_append]
    simp [gMac, readAt_set_self, hk, readAt_of_lt zero rev (f n) hn.1 hn.2.1,
      readAt_of_lt zero loc (g n) hn.2.2.1 hn.2.2.2, writeAt_natCast]

theorem win_inBounds (m n k : Nat) (hk : (k : Int) ≤ (m : Int) + (n : Int) - 1) (i : Nat)
    (hi : i < (winBound m n k).toNat) :
    0 ≤ winRev m n k i ∧ winRev m n k i < (m : Int) ∧
      0 ≤ winLoc m n k i ∧ winLoc m n k i < (n : Int) := by
  unfold winBound at hi
  unfold winRev winLoc
  split_ifs at hi ⊢ <;> omega

theorem gWindow_eq (zero : β) (add mul : β → β → β) (rev loc : List β) (k : Nat)
    (out : List β) (hk : k < out.length)
    (hnat : (k : Int) ≤ (rev.length : Int) + (loc.length : Int) - 1) :
    gWindow add mul rev rev.length loc loc.length k (out.set k zero) =
      some (out.set k (winVal zero add mul rev loc k)) := by
  unfold gWindow forLoop winVal
  exact foldlM_gMac zero add mul rev loc k _ _ out hk _ zero
    (fun i hi => win_inBounds rev.length loc.length k hnat i hi)

theorem gLoop_eq_refLoop (zero : β) (add mul : β → β → β) (stop : β → Bool)
    (rev loc : List β) :
    ∀ (r k : Nat) (out : List β), k + r ≤ out.length →
      gLoop zero add mul stop rev rev.length loc loc.length r k out =
        some (refLoop zero add mul stop rev loc r k out) := by
  intro r
  induction r with
  | zero => intro k out _; rfl
  | succ r ih =>
    intro k out h
    have hk : k < out.length := by omega
    have hnext := ih (k + 1) (out.set k zero) (by simp; omega)
    push_cast at hnext
    by_cases hskip : (k : Int) > (rev.length : Int) + (loc.length : Int) - 1
    · have hn : ¬ ((k : Int) ≤ (rev.length : Int) + (loc.length : Int) - 1) := by omega
      simp [gLoop, refLoop, writeAt_natCast, hk, hskip, hnext, stopAt, posVal, hn]
    · have hnat : (k : Int) ≤ (rev.length : Int) + (loc.length : Int) - 1 := by omega
      have hnext2 := ih (k + 1) (out.set k (winVal zero add mul rev loc k)) (by simp; omega)
      push_cast at hnext2
      by_cases hstop : stop (winVal zero add mul rev loc k) = true
      · simp [gLoop, refLoop, writeAt_natCast, hk, hskip, stopAt, posVal, hnat,
          gWindow_eq zero add mul rev loc k out hk hnat, readAt_set_self, hstop]
      · simp [gLoop, refLoop, writeAt_natCast, hk, hskip, stopAt, posVal, hnat,
          gWindow_eq zero add mul rev loc k out hk hnat, readAt_set_self, hstop, hnext2]

end Lemmas

section Link

variable {α : Type} [LinearOrderedCommRing α]

theorem macStep_eq_gMac (rev loc : List α) (oBuff ri li : Int) (output : List α) :
    macStep rev loc oBuff ri li output =
      gMac (fun a b => a + b) (fun a b => a * b) rev loc oBuff ri li output := rfl

theorem macStepComp_eq_gMac (rev loc : List (complex α)) (oBuff ri li : Int)
    (output : List (complex α)) :
    macStepComp rev loc oBuff ri li output = gMac addComp mulComp rev loc oBuff ri li output :=
  rfl

theorem corrWindow_eq_gWindow (rev : List α) (len_rev : Int) (loc : List α) (len_local : Int)
    (oBuff : Int) (output : List α) :
    corrWindow rev len_rev loc len_local oBuff output =
      gWindow (fun a b => a + b) (fun a b => a * b) rev len_rev loc len_local oBuff output := by
  unfold corrWindow gWindow winBound winRev winLoc
  split_ifs <;> rfl

theorem corrWindowComp_eq_gWindow (rev : List (complex α)) (len_rev : Int)
    (loc : List (complex α)) (len_local : Int) (oBuff : Int) (output : List (complex α)) :
    corrWindowComp rev len_rev loc len_local oBuff output =
      gWindow addComp mulComp rev len_rev loc len_local oBuff output := by
  unfold corrWindowComp gWindow winBound winRev winLoc
  split_ifs <;> rfl

theorem xcorr_loop_eq_gLoop (rev : List α) (len_rev : Int) (loc : List α) (len_local : Int)
    (max_threshold min_threshold : α) :
    ∀ (r : Nat) (oBuff : Int) (output : List α),
      xcorr_loop rev len_rev loc len_local max_threshold min_threshold r oBuff output =
        gLoop 0 (fun a b => a + b) (fun a b => a * b) (stopReal max_threshold min_threshold)
          rev len_rev loc len_local r oBuff output := by
  intro r
  induction r with
  | zero => intro _ _; rfl
  | succ r ih =>
    intro oBuff output
    simp only [xcorr_loop, gLoop, ih, corrWindow_eq_gWindow, stopReal, decide_eq_true_eq]

theorem xcorr_loopComp_eq_gLoop (sqrt : α → α) (rev : List (complex α)) (len_rev : Int)
    (loc : List (complex α)) (len_local : Int) (max_threshold : α) :
    ∀ (r : Nat) (oBuff : Int) (output : List (complex α)),
      xcorr_loopComp sqrt rev len_rev loc len_local max_threshold r oBuff output =
        gLoop (genComp 0 0) addComp mulComp (stopComp sqrt max_threshold)
          rev len_rev loc len_local r oBuff output := by
  intro r
  induction r with
  | zero => intro _ _; rfl
  | succ r ih =>
    intro oBuff output
    simp only [xcorr_loopComp, gLoop, ih, corrWindowComp_eq_gWindow, stopComp,
      decide_eq_true_eq]

end Link

/-! ## The conjugated copy of `local` -/

section Conj
variable {β : Type}

theorem foldlM_copy (f : β → β) (loc : List β) :
    ∀ (i : Nat) (cl : List β), i ≤ loc.length → cl.length = loc.length →
      (List.range i).foldlM
          (fun st (j : Nat) => (readAt loc (j : Int)).bind
            (fun l => writeAt st (j : Int) (f l))) cl =
        some ((loc.take i).map f ++ cl.drop i) := by
  intro i
  induction i with
  | zero => intro cl _ _; simp
  | succ i ih =>
    intro cl h1 h2
    have hi : i < loc.length := by omega
    have hic : i < cl.length := by omega
    rw [List.range_succ, List.foldlM_append, ih cl (by omega) h2]
    have hlen : i < ((List.take i loc).map f ++ List.drop i cl).length := by
      simp; omega
    have htake : (List.take i loc).length = i := by simp; omega
    simp only [List.foldlM_cons, List.foldlM_nil, Option.some_bind, Option.bind_eq_bind,
      readAt_natCast, List.get?_eq_getElem?, List.getElem?_eq_getElem hi,
      writeAt_natCast _ _ _ hlen, bind_pure, Option.some.injEq]
    rw [List.take_succ, List.getElem?_eq_getElem hi]
    simp only [Option.toList, List.map_append, List.map_cons, List.map_nil,
      List.append_assoc, List.singleton_append]
    rw [List.set_append]
    simp only [List.length_map, htake, lt_self_iff_false, if_false, Nat.sub_self]
    rw [List.drop_eq_getElem_cons hic, List.set_cons_zero]

end Conj

section ConjComp
variable {α : Type} [LinearOrderedCommRing α]

theorem conjLocal_eq (loc : List (complex α)) :
    conjLocal loc loc.length = some (loc.map conjComp) := by
  unfold conjLocal forLoop
  have h := foldlM_copy conjComp loc loc.length
    (List.replicate loc.length (genComp 0 0)) le_rfl (by simp)
  simpa using h

end ConjComp

/-! ## Properties of the reference loop -/

section Ref
variable {β : Type}

theorem refLoop_length (zero : β) (add mul : β → β → β) (stop : β → Bool) (rev loc : List β) :
    ∀ (r k : Nat) (out : List β),
      (refLoop zero add mul stop rev loc r k out).output.length = out.length := by
  intro r
  induction r with
  | zero => intro _ _; rfl
  | succ r ih =>
    intro k out
    unfold refLoop
    split_ifs
    · simp
    · rw [ih]; simp

theorem refLoop_untouched (zero : β) (add mul : β → β → β) (stop : β → Bool)
    (rev loc : List β) :
    ∀ (r k : Nat) (out : List β) (j : Nat),
      (j < k ∨ k + r ≤ j ∨ ∃ i, k ≤ i ∧ i < j ∧ stopAt zero add mul stop rev loc i = true) →
      (refLoop zero add mul stop rev loc r k out).output[j]? = out[j]? := by
  intro r
  induction r with
  | zero => intro _ _ _ _; rfl
  | succ r ih =>
    intro k out j h
    have hjk : k ≠ j := by
      rcases h with h | h | ⟨i, h1, h2, _⟩ <;> omega
    unfold refLoop
    by_cases hs : stopAt zero add mul stop rev loc k = true
    · simp [hs, List.getElem?_set_ne hjk]
    · have hs2 : stopAt zero add mul stop rev loc k = false := by simpa using hs
      simp only [hs2, Bool.false_eq_true, if_false]
      rw [ih (k + 1) _ j, List.getElem?_set_ne hjk]
      rcases h with h | h | ⟨i, h1, h2, h3⟩
      · exact Or.inl (by omega)
      · exact Or.inr (Or.inl (by omega))
      · refine Or.inr (Or.inr ⟨i, ?_, h2, h3⟩)
        rcases Nat.eq_or_lt_of_le h1 with h4 | h4
        · subst h4; exact absurd h3 hs
        · exact h4

theorem refLoop_written (zero : β) (add mul : β → β → β) (stop : β → Bool)
    (rev loc : List β) :
    ∀ (r k : Nat) (out : List β) (j : Nat), k ≤ j → j < k + r → j < out.length →
      (∀ i, k ≤ i → i < j → stopAt zero add mul stop rev loc i = false) →
      (refLoop zero add mul stop rev loc r k out).output[j]? =
        some (posVal zero add mul rev loc j) := by
  intro r
  induction r with
  | zero => intro k out j h1 h2; omega
  | succ r ih =>
    intro k out j h1 h2 h3 h4
    unfold refLoop
    rcases Nat.eq_or_lt_of_le h1 with h5 | h5
    · subst h5
      by_cases hs : stopAt zero add mul stop rev loc k = true
      · simp [hs, h3]
      · have hs2 : stopAt zero add mul stop rev loc k = false := by simpa using hs
        simp only [hs2, Bool.false_eq_true, if_false]
        rw [refLoop_untouched zero add mul stop rev loc r (k + 1) _ k (Or.inl (by omega))]
        simp [h3]
    · have hs : stopAt zero add mul stop rev loc k = false := h4 k le_rfl h5
      simp only [hs, Bool.false_eq_true, if_false]
      exact ih (k + 1) _ j h5 (by omega) (by simpa using h3)
        (fun i hi1 hi2 => h4 i (by omega) hi2)

theorem refLoop_completed (zero : β) (add mul : β → β → β) (stop : β → Bool)
    (rev loc : List β) :
    ∀ (r k : Nat) (out : List β),
      (∀ i, k ≤ i → i < k + r → stopAt zero add mul stop rev loc i = false) →
      (refLoop zero add mul stop rev loc r k out).exit = Exit.completed := by
  intro r
  induction r with
  | zero => intro _ _ _; rfl
  | succ r ih =>
    intro k out h
    unfold refLoop
    have hs : stopAt zero add mul stop rev loc k = false := h k le_rfl (by omega)
    simp only [hs, Bool.false_eq_true, if_false]
    exact ih (k + 1) _ (fun i h1 h2 => h i (by omega) (by omega))

theorem refLoop_stopped (zero : β) (add mul : β → β → β) (stop : β → Bool)
    (rev loc : List β) :
    ∀ (r k : Nat) (out : List β) (t : Nat), k ≤ t → t < k + r →
      stopAt zero add mul stop rev loc t = true →
      (∀ i, k ≤ i → i < t → stopAt zero add mul stop rev loc i = false) →
      (refLoop zero add mul stop rev loc r k out).exit = Exit.stopped t := by
  intro r
  induction r with
  | zero => intro k out t h1 h2; omega
  | succ r ih =>
    intro k out t h1 h2 h3 h4
    unfold refLoop
    rcases Nat.eq_or_lt_of_le h1 with h5 | h5
    · subst h5
      simp [h3]
    · have hs : stopAt zero add mul stop rev loc k = false := h4 k le_rfl h5
      simp only [hs, Bool.false_eq_true, if_false]
      exact ih (k + 1) _ t h5 (by omega) h3 (fun i hi1 hi2 => h4 i (by omega) hi2)

/-- Either no position of the range stops, or there is a first one that does. -/
theorem stopAt_first_or_none (p : Nat → Bool) (k r : Nat) :
    (∀ i, k ≤ i → i < k + r → p i = false) ∨
      ∃ t, k ≤ t ∧ t < k + r ∧ p t = true ∧ ∀ i, k ≤ i → i < t → p i = false := by
  induction r with
  | zero => left; intro i h1 h2; omega
  | succ r ih =>
    rcases ih with h | ⟨t, h1, h2, h3, h4⟩
    · by_cases hp : p (k + r) = true
      · right
        exact ⟨k + r, by omega, by omega, hp, fun i hi1 hi2 => h i hi1 hi2⟩
      · left
        intro i hi1 hi2
        rcases Nat.eq_or_lt_of_le (Nat.le_of_lt_succ (by omega : i < k + r + 1)) with h5 | h5
        · subst h5; simpa using hp
        · exact h i hi1 h5
    · right
      exact ⟨t, h1, by omega, h3, h4⟩

end Ref

/-! ## The engines as reference loops -/

section Runs
variable {α : Type} [LinearOrderedCommRing α]

theorem xcorr_range_eq_refLoop (output : List α) (len_output : Int) (rev loc : List α)
    (max_threshold min_threshold : α) (hbuf : len_output ≤ (output.length : Int)) :
    xcorr_range output len_output rev rev.length loc loc.length max_threshold min_threshold =
      some (refLoop 0 (fun a b => a + b) (fun a b => a * b)
        (stopReal max_threshold min_threshold) rev loc len_output.toNat 0 output) := by
  unfold xcorr_range
  rw [xcorr_loop_eq_gLoop]
  have h := gLoop_eq_refLoop (0 : α) (fun a b => a + b) (fun a b => a * b)
    (stopReal max_threshold min_threshold) rev loc len_output.toNat 0 output (by omega)
  simpa using h

theorem xcorr_rangeComp_eq_refLoop (sqrt : α → α) (output : List (complex α))
    (len_output : Int) (rev loc : List (complex α)) (max_threshold min_threshold : α)
    (hbuf : len_output ≤ (output.length : Int)) :
    xcorr_rangeComp sqrt output len_output rev rev.length loc loc.length
        max_threshold min_threshold =
      some (refLoop (genComp 0 0) addComp mulComp (stopComp sqrt max_threshold) rev
        (loc.map conjComp) len_output.toNat 0 output) := by
  unfold xcorr_rangeComp
  rw [conjLocal_eq]
  simp only [Option.bind_eq_bind, Option.some_bind]
  rw [xcorr_loopComp_eq_gLoop]
  have h := gLoop_eq_refLoop (genComp (0 : α) 0) addComp mulComp (stopComp sqrt max_threshold)
    rev (loc.map conjComp) len_output.toNat 0 output (by omega)
  simpa using h

theorem stopReal_disabled (v : α) : stopReal MAX_MAGIC MIN_MAGIC v = false := by
  simp [stopReal]

theorem stopComp_disabled (sqrt : α → α) (v : complex α) :
    stopComp sqrt MAX_MAGIC v = false := by
  simp [stopComp]

end Runs

section Values
variable {β : Type}

theorem stopAt_of_never (zero : β) (add mul : β → β → β) (stop : β → Bool) (rev loc : List β)
    (h : ∀ v, stop v = false) (k : Nat) : stopAt zero add mul stop rev loc k = false := by
  simp [stopAt, h]

theorem posVal_of_natural_le (zero : β) (add mul : β → β → β) (rev loc : List β)
    (hm : 1 ≤ rev.length) (hn : 1 ≤ loc.length) (k : Nat)
    (hk : rev.length + loc.length - 1 ≤ k) : posVal zero add mul rev loc k = zero := by
  unfold posVal
  split_ifs with h
  · rfl
  · have hb : (winBound rev.length loc.length k).toNat = 0 := by
      unfold winBound
      split_ifs <;> omega
    simp [winVal, hb]

end Values

/-! ## Stop positions -/

section StopFacts
variable {β : Type}

theorem stopAt_imp_stop (zero : β) (add mul : β → β → β) (stop : β → Bool) (rev loc : List β)
    (k : Nat) (h : stopAt zero add mul stop rev loc k = true) :
    (k : Int) ≤ (rev.length : Int) + (loc.length : Int) - 1 ∧
      stop (posVal zero add mul rev loc k) = true := by
  simp only [stopAt, Bool.and_eq_true, decide_eq_true_eq] at h
  have hn : ¬ ((k : Int) > (rev.length : Int) + (loc.length : Int) - 1) := by omega
  exact ⟨h.1, by simpa [posVal, hn] using h.2⟩

theorem stopAt_of_stop (zero : β) (add mul : β → β → β) (stop : β → Bool) (rev loc : List β)
    (k : Nat) (hk : (k : Int) ≤ (rev.length : Int) + (loc.length : Int) - 1)
    (h : stop (posVal zero add mul rev loc k) = true) :
    stopAt zero add mul stop rev loc k = true := by
  have hn : ¬ ((k : Int) > (rev.length : Int) + (loc.length : Int) - 1) := by omega
  simp only [posVal, hn, if_false] at h
  simp [stopAt, hk, h]

theorem refLoop_never_written (zero : β) (add mul : β → β → β) (stop : β → Bool)
    (rev loc : List β) (hnever : ∀ v, stop v = false) (r k : Nat) (out : List β) (j : Nat)
    (h1 : k ≤ j) (h2 : j < k + r) (h3 : j < out.length) :
    (refLoop zero add mul stop rev loc r k out).output[j]? =
      some (posVal zero add mul rev loc j) :=
  refLoop_written zero add mul stop rev loc r k out j h1 h2 h3
    (fun i _ _ => stopAt_of_never zero add mul stop rev loc hnever i)

theorem refLoop_never_completed (zero : β) (add mul : β → β → β) (stop : β → Bool)
    (rev loc : List β) (hnever : ∀ v, stop v = false) (r k : Nat) (out : List β) :
    (refLoop zero add mul stop rev loc r k out).exit = Exit.completed :=
  refLoop_completed zero add mul stop rev loc r k out
    (fun i _ _ => stopAt_of_never zero add mul stop rev loc hnever i)

/-- A stop at the first position of the padding is forced by any later position
whose value would stop: with both inputs non-empty every position from
`len_rev + len_local - 1` on holds zero. -/
theorem stop_padding_first (zero : β) (add mul : β → β → β) (stop : β → Bool)
    (rev loc : List β) (hm : 1 ≤ rev.length) (hn : 1 ≤ loc.length) (k : Nat)
    (hk : (k : Int) > (rev.length : Int) + (loc.length : Int) - 1)
    (h : stop (posVal zero add mul rev loc k) = true) :
    rev.length + loc.length - 1 < k ∧
      stopAt zero add mul stop rev loc (rev.length + loc.length - 1) = true := by
  have hlt : rev.length + loc.length - 1 < k := by omega
  refine ⟨hlt, ?_⟩
  have h0 := posVal_of_natural_le zero add mul rev loc hm hn k (by omega)
  have h1 := posVal_of_natural_le zero add mul rev loc hm hn (rev.length + loc.length - 1)
    le_rfl
  apply stopAt_of_stop
  · omega
  · rw [h1, ← h0]; exact h

end StopFacts

section RealFacts
variable {α : Type} [LinearOrderedCommRing α]

theorem violating_iff (max_threshold min_threshold : α) (v : List α) (k : Nat) (x : α)
    (h : v[k]? = some x) :
    violating max_threshold min_threshold v k ↔ stopReal max_threshold min_threshold x = true := by
  simp [violating, stopReal, h]

end RealFacts

/-! ## Claims -/

section Claims
variable {α : Type} [LinearOrderedCommRing α]

/-- C1 (evaluation at the failing input). With `rev = [1, 1, 1]`, `local = [1, 2, 3]` and the
natural output length 5, `xcorr` leaves `[3, 5, 6, 3, 2]`, while the bounded sum of the
specification is `[3, 5, 6, 3, 1]`: position 4 holds `rev[2] * local[1]` instead of
`rev[2] * local[0]`. -/
theorem xcorr_falling_edge_mismatch :
    xcorr (α := Int) [0, 0, 0, 0, 0] 5 [1, 1, 1] 3 [1, 2, 3] 3 =
        some { output := [3, 5, 6, 3, 2], exit := Exit.completed } ∧
      (List.range 5).map (corrSum (α := Int) [1, 1, 1] [1, 2, 3]) = [3, 5, 6, 3, 1] := by
  decide

/-- C2. For `rev` and `local` of length at least 1 and any thresholds, let `v` be the output
of `xcorr` (thresholds disabled). If `k < len_output` is the least violating index of `v`,
then `xcorr_range` stops at `k`, returns `k`, and has written `output[k] = v[k]`; if no index
below `len_output` is violating, `xcorr_range` runs to completion and returns 0. -/
theorem xcorr_range_least_violating (output : List α) (len_output : Int) (rev loc : List α)
    (max_threshold min_threshold : α) (hm : 1 ≤ rev.length) (hn : 1 ≤ loc.length)
    (hbuf : len_output ≤ (output.length : Int)) :
    ∃ v r, xcorr output len_output rev rev.length loc loc.length = some v ∧
      xcorr_range output len_output rev rev.length loc loc.length
        max_threshold min_threshold = some r ∧
      (∀ k : Nat, (k : Int) < len_output →
        violating max_threshold min_threshold v.output k →
        (∀ j : Nat, j < k → ¬ violating max_threshold min_threshold v.output j) →
        r.exit = Exit.stopped k ∧ r.ret = k ∧ r.output[k]? = v.output[k]?) ∧
      ((∀ k : Nat, (k : Int) < len_output →
          ¬ violating max_threshold min_threshold v.output k) →
        r.exit = Exit.completed ∧ r.ret = 0) := by
  refine ⟨_, _, xcorr_range_eq_refLoop output len_output rev loc MAX_MAGIC MIN_MAGIC hbuf,
    xcorr_range_eq_refLoop output len_output rev loc max_threshold min_threshold hbuf, ?_, ?_⟩
  · intro k hk hviol hleast
    have hv : ∀ j : Nat, (j : Int) < len_output →
        (refLoop 0 (fun a b => a + b) (fun a b => a * b) (stopReal MAX_MAGIC MIN_MAGIC)
          rev loc len_output.toNat 0 output).output[j]? =
          some (posVal 0 (fun a b => a + b) (fun a b => a * b) rev loc j) := fun j hj =>
      refLoop_never_written 0 _ _ _ rev loc stopReal_disabled _ 0 output j (Nat.zero_le j)
        (by omega) (by omega)
    have hsk := (violating_iff max_threshold min_threshold _ k _ (hv k hk)).mp hviol
    have hnat : (k : Int) ≤ (rev.length : Int) + (loc.length : Int) - 1 := by
      by_contra hc
      have hp := stop_padding_first 0 (fun a b => a + b) (fun a b => a * b)
        (stopReal max_threshold min_threshold) rev loc hm hn k (by omega) hsk
      exact hleast _ hp.1 ((violating_iff max_threshold min_threshold _ _ _
        (hv _ (by omega))).mpr (stopAt_imp_stop _ _ _ _ _ _ _ hp.2).2)
    have hstop := stopAt_of_stop 0 (fun a b => a + b) (fun a b => a * b)
      (stopReal max_threshold min_threshold) rev loc k hnat hsk
    have hbefore : ∀ i, 0 ≤ i → i < k → stopAt 0 (fun a b => a + b) (fun a b => a * b)
        (stopReal max_threshold min_threshold) rev loc i = false := by
      intro i _ hi
      by_contra hc
      have hc2 := stopAt_imp_stop _ _ _ _ _ _ _ (by simpa using hc)
      exact hleast i hi ((violating_iff max_threshold min_threshold _ _ _
        (hv i (by omega))).mpr hc2.2)
    have hexit := refLoop_stopped 0 (fun a b => a + b) (fun a b => a * b)
      (stopReal max_threshold min_threshold) rev loc len_output.toNat 0 output k
      (Nat.zero_le k) (by omega) hstop hbefore
    refine ⟨hexit, ?_, ?_⟩
    · simp [Result.ret, hexit]
    · rw [hv k hk]
      exact refLoop_written 0 _ _ _ rev loc _ 0 output k (Nat.zero_le k) (by omega)
        (by omega) hbefore
  · intro hnone
    have hexit := refLoop_completed 0 (fun a b => a + b) (fun a b => a * b)
      (stopReal max_threshold min_threshold) rev loc len_output.toNat 0 output
      (by
        intro i _ hi
        by_contra hc
        have hc2 := stopAt_imp_stop _ _ _ _ _ _ _ (by simpa using hc)
        have hv := refLoop_never_written 0 (fun a b => a + b) (fun a b => a * b)
          (stopReal MAX_MAGIC MIN_MAGIC) rev loc stopReal_disabled len_output.toNat 0 output i
          (Nat.zero_le i) hi (by omega)
        exact hnone i (by omega) ((violating_iff max_threshold min_threshold _ _ _ hv).mpr
          hc2.2))
    exact ⟨hexit, by simp [Result.ret, hexit]⟩

/-- C2 at `rev = [1, 2, 3]`, `local = [1, 1]`, `len_output = 4`, `max_threshold = 4` and the
lower bound disabled. -/
theorem xcorr_range_least_violating_witness :
    1 ≤ ([1, 2, 3] : List Int).length ∧ 1 ≤ ([1, 1] : List Int).length ∧
      (4 : Int) ≤ (([0, 0, 0, 0] : List Int).length : Int) ∧
      ∃ v r, xcorr (α := Int) [0, 0, 0, 0] 4 [1, 2, 3] ([1, 2, 3] : List Int).length [1, 1]
          ([1, 1] : List Int).length = some v ∧
        xcorr_range (α := Int) [0, 0, 0, 0] 4 [1, 2, 3] ([1, 2, 3] : List Int).length [1, 1]
          ([1, 1] : List Int).length 4 MIN_MAGIC = some r ∧
        (∀ k : Nat, (k : Int) < 4 →
          violating (4 : Int) MIN_MAGIC v.output k →
          (∀ j : Nat, j < k → ¬ violating (4 : Int) MIN_MAGIC v.output j) →
          r.exit = Exit.stopped k ∧ r.ret = k ∧ r.output[k]? = v.output[k]?) ∧
        ((∀ k : Nat, (k : Int) < 4 → ¬ violating (4 : Int) MIN_MAGIC v.output k) →
          r.exit = Exit.completed ∧ r.ret = 0) :=
  ⟨by decide, by decide, by decide,
    xcorr_range_least_violating (α := Int) [0, 0, 0, 0] 4 [1, 2, 3] [1, 1] 4 MIN_MAGIC
      (by decide) (by decide) (by decide)⟩

/-- C3 (evaluation at the failing input). With `rev = [5, 1]`, `local = [1]`,
`len_output = 2` and `max_threshold = 1`, `xcorr_range` stops at index 0, before position 1
is computed, and the value it returns is 0, the value documented for a complete run; the
unbounded run writes both positions and also returns 0. -/
theorem xcorr_range_stop_at_zero_returns_zero :
    xcorr_range (α := Int) [0, 0] 2 [5, 1] 2 [1] 1 1 MIN_MAGIC =
        some { output := [5, 0], exit := Exit.stopped 0 } ∧
      (xcorr_range (α := Int) [0, 0] 2 [5, 1] 2 [1] 1 1 MIN_MAGIC).map Result.ret = some 0 ∧
      xcorr (α := Int) [0, 0] 2 [5, 1] 2 [1] 1 =
        some { output := [5, 1], exit := Exit.completed } ∧
      (xcorr (α := Int) [0, 0] 2 [5, 1] 2 [1] 1).map Result.ret = some 0 := by
  decide

/-- C4. If `xcorr_range` stops early at index `k`, then every position `j` with
`0 ≤ j ≤ k` of its output holds the value that `xcorr` (both thresholds disabled) leaves there
on the same `rev`, `local` and `len_output`, whatever the two buffers held before. -/
theorem xcorr_range_stop_agrees_with_xcorr (out1 out2 : List α) (len_output : Int)
    (rev loc : List α) (max_threshold min_threshold : α)
    (hbuf1 : len_output ≤ (out1.length : Int)) (hbuf2 : len_output ≤ (out2.length : Int))
    (r : Result α) (k : Int)
    (hr : xcorr_range out1 len_output rev rev.length loc loc.length
      max_threshold min_threshold = some r)
    (hk : r.exit = Exit.stopped k) :
    ∃ v, xcorr out2 len_output rev rev.length loc loc.length = some v ∧
      ∀ j : Nat, (j : Int) ≤ k → ∃ x, r.output[j]? = some x ∧ v.output[j]? = some x := by
  refine ⟨_, xcorr_range_eq_refLoop out2 len_output rev loc MAX_MAGIC MIN_MAGIC hbuf2, ?_⟩
  rw [xcorr_range_eq_refLoop out1 len_output rev loc max_threshold min_threshold hbuf1] at hr
  have hr2 := Option.some.inj hr
  subst hr2
  rcases stopAt_first_or_none (stopAt 0 (fun a b => a + b) (fun a b => a * b)
    (stopReal max_threshold min_threshold) rev loc) 0 len_output.toNat with
    hnone | ⟨t, h1, h2, h3, h4⟩
  · rw [refLoop_completed _ _ _ _ _ _ _ _ _ hnone] at hk
    exact absurd hk (by simp)
  · rw [refLoop_stopped _ _ _ _ _ _ _ _ _ t h1 h2 h3 h4] at hk
    have hkt : (t : Int) = k := by simpa using hk
    intro j hj
    have hjt : j ≤ t := by omega
    refine ⟨posVal 0 (fun a b => a + b) (fun a b => a * b) rev loc j, ?_, ?_⟩
    · exact refLoop_written _ _ _ _ _ _ _ _ _ j (Nat.zero_le j) (by omega) (by omega)
        (fun i hi1 hi2 => h4 i hi1 (by omega))
    · exact refLoop_never_written _ _ _ _ _ _ stopReal_disabled _ _ _ j (Nat.zero_le j)
        (by omega) (by omega)

/-- C4 at `rev = [1, 2, 3]`, `local = [1, 1]`, `len_output = 4`, `max_threshold = 4`: the
unbounded values are `1, 3, 5, 3`, the call stops at index 2. -/
theorem xcorr_range_stop_agrees_with_xcorr_witness :
    (4 : Int) ≤ (([9, 9, 9, 9] : List Int).length : Int) ∧
      (4 : Int) ≤ (([0, 0, 0, 0] : List Int).length : Int) ∧
      xcorr_range (α := Int) [9, 9, 9, 9] 4 [1, 2, 3] ([1, 2, 3] : List Int).length [1, 1]
        ([1, 1] : List Int).length 4 MIN_MAGIC =
          some { output := [1, 3, 5, 9], exit := Exit.stopped 2 } ∧
      ∃ v, xcorr (α := Int) [0, 0, 0, 0] 4 [1, 2, 3] ([1, 2, 3] : List Int).length [1, 1]
          ([1, 1] : List Int).length = some v ∧
        ∀ j : Nat, (j : Int) ≤ 2 →
          ∃ x, ([1, 3, 5, 9] : List Int)[j]? = some x ∧ v.output[j]? = some x :=
  ⟨by decide, by decide, by decide,
    xcorr_range_stop_agrees_with_xcorr (α := Int) [9, 9, 9, 9] [0, 0, 0, 0] 4 [1, 2, 3] [1, 1]
      4 MIN_MAGIC (by decide) (by decide) { output := [1, 3, 5, 9], exit := Exit.stopped 2 } 2
      (by decide) rfl⟩

/-- C5. With both thresholds at their sentinels `xcorr_range` runs to completion and returns
0, for all signals, lengths and sample values; so do `xcorr` and `autocorr`; and
`xcorr_rangeComp` runs to completion and returns 0 whenever `max_threshold = MAX_MAGIC`,
whatever `min_threshold` is. -/
theorem disabled_thresholds_return_zero (output rev loc : List α) (len_output : Int)
    (sqrt : α → α) (coutput crev cloc : List (complex α)) (clen_output : Int)
    (min_threshold : α) (hbuf : len_output ≤ (output.length : Int))
    (hcbuf : clen_output ≤ (coutput.length : Int)) :
    (∃ r, xcorr_range output len_output rev rev.length loc loc.length MAX_MAGIC MIN_MAGIC =
        some r ∧ r.exit = Exit.completed ∧ r.ret = 0) ∧
      (∃ r, xcorr output len_output rev rev.length loc loc.length = some r ∧
        r.exit = Exit.completed ∧ r.ret = 0) ∧
      (∃ r, autocorr output len_output rev rev.length = some r ∧
        r.exit = Exit.completed ∧ r.ret = 0) ∧
      (∃ r, xcorr_rangeComp sqrt coutput clen_output crev crev.length cloc cloc.length
        MAX_MAGIC min_threshold = some r ∧ r.exit = Exit.completed ∧ r.ret = 0) := by
  have hreal : ∀ (a b : List α), ∃ r, xcorr_range output len_output a a.length b b.length
      MAX_MAGIC MIN_MAGIC = some r ∧ r.exit = Exit.completed ∧ r.ret = 0 := by
    intro a b
    have hexit := refLoop_never_completed (0 : α) (fun a b => a + b) (fun a b => a * b)
      (stopReal MAX_MAGIC MIN_MAGIC) a b stopReal_disabled len_output.toNat 0 output
    exact ⟨_, xcorr_range_eq_refLoop output len_output a b MAX_MAGIC MIN_MAGIC hbuf, hexit,
      by simp [Result.ret, hexit]⟩
  refine ⟨hreal rev loc, hreal rev loc, hreal rev rev, ?_⟩
  have hexit := refLoop_never_completed (genComp (0 : α) 0) addComp mulComp
    (stopComp sqrt MAX_MAGIC) crev (cloc.map conjComp) (stopComp_disabled sqrt)
    clen_output.toNat 0 coutput
  exact ⟨_, xcorr_rangeComp_eq_refLoop sqrt coutput clen_output crev cloc MAX_MAGIC
    min_threshold hcbuf, hexit, by simp [Result.ret, hexit]⟩

/-- C5 at the real signals `[70000, -70000]`, `[70000]` and the complex signals
`[70000 + 0i]`, `[0 + 70000i]`, with samples far beyond both sentinels. -/
theorem disabled_thresholds_return_zero_witness :
    (3 : Int) ≤ (([0, 0, 0] : List Int).length : Int) ∧
      (2 : Int) ≤ (([⟨0, 0⟩, ⟨0, 0⟩] : List (complex Int)).length : Int) ∧
      ((∃ r, xcorr_range (α := Int) [0, 0, 0] 3 [70000, -70000]
          ([70000, -70000] : List Int).length [70000] ([70000] : List Int).length
          MAX_MAGIC MIN_MAGIC = some r ∧ r.exit = Exit.completed ∧ r.ret = 0) ∧
        (∃ r, xcorr (α := Int) [0, 0, 0] 3 [70000, -70000]
          ([70000, -70000] : List Int).length [70000] ([70000] : List Int).length = some r ∧
          r.exit = Exit.completed ∧ r.ret = 0) ∧
        (∃ r, autocorr (α := Int) [0, 0, 0] 3 [70000, -70000]
          ([70000, -70000] : List Int).length = some r ∧
          r.exit = Exit.completed ∧ r.ret = 0) ∧
        (∃ r, xcorr_rangeComp (α := Int) (fun x => x) [⟨0, 0⟩, ⟨0, 0⟩] 2 [⟨70000, 0⟩]
          ([⟨70000, 0⟩] : List (complex Int)).length [⟨0, 70000⟩]
          ([⟨0, 70000⟩] : List (complex Int)).length MAX_MAGIC 5 = some r ∧
          r.exit = Exit.completed ∧ r.ret = 0)) :=
  ⟨by decide, by decide,
    disabled_thresholds_return_zero (α := Int) [0, 0, 0] [70000, -70000] [70000] 3
      (fun x => x) [⟨0, 0⟩, ⟨0, 0⟩] [⟨70000, 0⟩] [⟨0, 70000⟩] 2 5 (by decide) (by decide)⟩

/-- C6. For `rev` and `local` of length `m, n ≥ 1` and thresholds disabled, `xcorr_range`
leaves 0 at every position `k` with `m + n - 1 ≤ k < len_output`, the boundary position
`m + n - 1` included, and `xcorr_rangeComp` leaves `0 + 0i` there. -/
theorem zero_padding_from_natural_length (output rev loc : List α) (len_output : Int)
    (sqrt : α → α) (coutput crev cloc : List (complex α)) (clen_output : Int)
    (min_threshold : α) (hm : 1 ≤ rev.length) (hn : 1 ≤ loc.length)
    (hbuf : len_output ≤ (output.length : Int)) (hcm : 1 ≤ crev.length)
    (hcn : 1 ≤ cloc.length) (hcbuf : clen_output ≤ (coutput.length : Int)) :
    (∃ r, xcorr_range output len_output rev rev.length loc loc.length MAX_MAGIC MIN_MAGIC =
        some r ∧
        ∀ k : Nat, rev.length + loc.length - 1 ≤ k → (k : Int) < len_output →
          r.output[k]? = some 0) ∧
      (∃ r, xcorr_rangeComp sqrt coutput clen_output crev crev.length cloc cloc.length
          MAX_MAGIC min_threshold = some r ∧
        ∀ k : Nat, crev.length + cloc.length - 1 ≤ k → (k : Int) < clen_output →
          r.output[k]? = some (genComp 0 0)) := by
  constructor
  · refine ⟨_, xcorr_range_eq_refLoop output len_output rev loc MAX_MAGIC MIN_MAGIC hbuf, ?_⟩
    intro k hk1 hk2
    rw [refLoop_never_written _ _ _ _ _ _ stopReal_disabled _ _ _ k (Nat.zero_le k)
      (by omega) (by omega), posVal_of_natural_le _ _ _ rev loc hm hn k hk1]
  · refine ⟨_, xcorr_rangeComp_eq_refLoop sqrt coutput clen_output crev cloc MAX_MAGIC
      min_threshold hcbuf, ?_⟩
    intro k hk1 hk2
    rw [refLoop_never_written _ _ _ _ _ _ (stopComp_disabled sqrt) _ _ _ k (Nat.zero_le k)
      (by omega) (by omega), posVal_of_natural_le _ _ _ crev (cloc.map conjComp) hcm
        (by simpa using hcn) k (by simpa using hk1)]

/-- C6 at `rev = [1, 2, 3]`, `local = [1, 1]` with `len_output = 6` (natural length 4) and
at one-sample complex signals with `len_output = 3`. -/
theorem zero_padding_from_natural_length_witness :
    1 ≤ ([1, 2, 3] : List Int).length ∧ 1 ≤ ([1, 1] : List Int).length ∧
      (6 : Int) ≤ (([9, 9, 9, 9, 9, 9] : List Int).length : Int) ∧
      1 ≤ ([⟨1, 2⟩] : List (complex Int)).length ∧
      1 ≤ ([⟨3, 4⟩] : List (complex Int)).length ∧
      (3 : Int) ≤ (([⟨9, 9⟩, ⟨9, 9⟩, ⟨9, 9⟩] : List (complex Int)).length : Int) ∧
      ((∃ r, xcorr_range (α := Int) [9, 9, 9, 9, 9, 9] 6 [1, 2, 3]
          ([1, 2, 3] : List Int).length [1, 1] ([1, 1] : List Int).length
          MAX_MAGIC MIN_MAGIC = some r ∧
          ∀ k : Nat, ([1, 2, 3] : List Int).length + ([1, 1] : List Int).length - 1 ≤ k →
            (k : Int) < 6 → r.output[k]? = some 0) ∧
        (∃ r, xcorr_rangeComp (α := Int) (fun x => x) [⟨9, 9⟩, ⟨9, 9⟩, ⟨9, 9⟩] 3 [⟨1, 2⟩]
            ([⟨1, 2⟩] : List (complex Int)).length [⟨3, 4⟩]
            ([⟨3, 4⟩] : List (complex Int)).length MAX_MAGIC 0 = some r ∧
          ∀ k : Nat, ([⟨1, 2⟩] : List (complex Int)).length +
              ([⟨3, 4⟩] : List (complex Int)).length - 1 ≤ k →
            (k : Int) < 3 → r.output[k]? = some (genComp 0 0))) :=
  ⟨by decide, by decide, by decide, by decide, by decide, by decide,
    zero_padding_from_natural_length (α := Int) [9, 9, 9, 9, 9, 9] [1, 2, 3] [1, 1] 6
      (fun x => x) [⟨9, 9⟩, ⟨9, 9⟩, ⟨9, 9⟩] [⟨1, 2⟩] [⟨3, 4⟩] 3 0
      (by decide) (by decide) (by decide) (by decide) (by decide) (by decide)⟩

/-- C7. For arrays `rev` and `local` of any lengths `m, n ≥ 0`, any `len_output` and any
thresholds, no access of `xcorr_range` is out of bounds: the run never faults, and in every
window branch each iteration `i` of the inner loop at a position `k ≤ m + n - 1` reads
`rev` at an index in `[0, m)` and `local` at an index in `[0, n)`. -/
theorem xcorr_range_reads_in_bounds (output : List α) (len_output : Int) (rev loc : List α)
    (max_threshold min_threshold : α) (hbuf : len_output ≤ (output.length : Int)) :
    (xcorr_range output len_output rev rev.length loc loc.length
        max_threshold min_threshold).isSome = true ∧
      ∀ k i : Nat, (k : Int) ≤ (rev.length : Int) + (loc.length : Int) - 1 →
        (i : Int) < winBound rev.length loc.length k →
        (0 ≤ winRev rev.length loc.length k i ∧
          winRev rev.length loc.length k i < (rev.length : Int)) ∧
        (0 ≤ winLoc rev.length loc.length k i ∧
          winLoc rev.length loc.length k i < (loc.length : Int)) := by
  constructor
  · rw [xcorr_range_eq_refLoop output len_output rev loc max_threshold min_threshold hbuf]
    rfl
  · intro k i hk hi
    have h := win_inBounds rev.length loc.length k hk i (by omega)
    exact ⟨⟨h.1, h.2.1⟩, h.2.2.1, h.2.2.2⟩

/-- C7 at `rev = [1, 2, 3]`, `local = [4, 5, 6, 7]`, `len_output = 8`, both bounds
enabled. -/
theorem xcorr_range_reads_in_bounds_witness :
    (8 : Int) ≤ (([0, 0, 0, 0, 0, 0, 0, 0] : List Int).length : Int) ∧
      ((xcorr_range (α := Int) [0, 0, 0, 0, 0, 0, 0, 0] 8 [1, 2, 3]
          ([1, 2, 3] : List Int).length [4, 5, 6, 7] ([4, 5, 6, 7] : List Int).length
          1000 (-1000)).isSome = true ∧
        ∀ k i : Nat, (k : Int) ≤ (([1, 2, 3] : List Int).length : Int) +
            (([4, 5, 6, 7] : List Int).length : Int) - 1 →
          (i : Int) < winBound ([1, 2, 3] : List Int).length
            ([4, 5, 6, 7] : List Int).length k →
          (0 ≤ winRev ([1, 2, 3] : List Int).length ([4, 5, 6, 7] : List Int).length k i ∧
            winRev ([1, 2, 3] : List Int).length ([4, 5, 6, 7] : List Int).length k i <
              (([1, 2, 3] : List Int).length : Int)) ∧
          (0 ≤ winLoc ([1, 2, 3] : List Int).length ([4, 5, 6, 7] : List Int).length k i ∧
            winLoc ([1, 2, 3] : List Int).length ([4, 5, 6, 7] : List Int).length k i <
              (([4, 5, 6, 7] : List Int).length : Int))) :=
  ⟨by decide,
    xcorr_range_reads_in_bounds (α := Int) [0, 0, 0, 0, 0, 0, 0, 0] 8 [1, 2, 3] [4, 5, 6, 7]
      1000 (-1000) (by decide)⟩

/-- C8 (counterexample). With `rev = [5, 1]`, `local = [1]`, `len_output = 2` and
`max_threshold = 1` the call stops at index 0, and position 1 of the output still holds
what the buffer held before: 9 in one run, 7 in the other. -/
theorem xcorr_range_tail_depends_on_buffer :
    ∃ r1 r2, xcorr_range (α := Int) [9, 9] 2 [5, 1] 2 [1] 1 1 MIN_MAGIC = some r1 ∧
      xcorr_range (α := Int) [7, 7] 2 [5, 1] 2 [1] 1 1 MIN_MAGIC = some r2 ∧
      r1.output[1]? = some 9 ∧ r2.output[1]? = some 7 ∧ r1.output[1]? ≠ r2.output[1]? :=
  ⟨{ output := [5, 9], exit := Exit.stopped 0 }, { output := [5, 7], exit := Exit.stopped 0 },
    by decide, by decide, by decide, by decide, by decide⟩

/-- C8 (amended). Two runs of `xcorr_range` that differ only in the initial contents of the
buffer return in the same way, and agree on every position `j < len_output` when the run
completes, and on every position `j ≤ s` when it stops early at index `s`: the positions
written by the call do not depend on what the buffer held before. -/
theorem xcorr_range_written_positions_independent (out1 out2 : List α) (len_output : Int)
    (rev loc : List α) (max_threshold min_threshold : α)
    (hbuf1 : len_output ≤ (out1.length : Int)) (hbuf2 : len_output ≤ (out2.length : Int)) :
    ∃ r1 r2, xcorr_range out1 len_output rev rev.length loc loc.length
          max_threshold min_threshold = some r1 ∧
      xcorr_range out2 len_output rev rev.length loc loc.length
          max_threshold min_threshold = some r2 ∧
      r1.exit = r2.exit ∧ r1.ret = r2.ret ∧
      ∀ j : Nat, (j : Int) < len_output →
        (r1.exit = Exit.completed ∨ ∃ s : Int, r1.exit = Exit.stopped s ∧ (j : Int) ≤ s) →
        ∃ x, r1.output[j]? = some x ∧ r2.output[j]? = some x := by
  refine ⟨_, _,
    xcorr_range_eq_refLoop out1 len_output rev loc max_threshold min_threshold hbuf1,
    xcorr_range_eq_refLoop out2 len_output rev loc max_threshold min_threshold hbuf2, ?_⟩
  rcases stopAt_first_or_none (stopAt 0 (fun a b => a + b) (fun a b => a * b)
    (stopReal max_threshold min_threshold) rev loc) 0 len_output.toNat with
    hnone | ⟨t, h1, h2, h3, h4⟩
  · have e1 := refLoop_completed _ _ _ _ _ _ len_output.toNat 0 out1 hnone
    have e2 := refLoop_completed _ _ _ _ _ _ len_output.toNat 0 out2 hnone
    refine ⟨by rw [e1, e2], by simp [Result.ret, e1, e2], ?_⟩
    intro j hj _
    exact ⟨_, refLoop_written _ _ _ _ _ _ _ _ out1 j (Nat.zero_le j) (by omega) (by omega)
        (fun i hi1 hi2 => hnone i hi1 (by omega)),
      refLoop_written _ _ _ _ _ _ _ _ out2 j (Nat.zero_le j) (by omega) (by omega)
        (fun i hi1 hi2 => hnone i hi1 (by omega))⟩
  · have e1 := refLoop_stopped _ _ _ _ _ _ len_output.toNat 0 out1 t h1 h2 h3 h4
    have e2 := refLoop_stopped _ _ _ _ _ _ len_output.toNat 0 out2 t h1 h2 h3 h4
    refine ⟨by rw [e1, e2], by simp [Result.ret, e1, e2], ?_⟩
    intro j hj hw
    have hjt : j ≤ t := by
      rcases hw with hw | ⟨s, hs1, hs2⟩
      · rw [e1] at hw; exact absurd hw (by simp)
      · rw [e1] at hs1
        have : (t : Int) = s := by simpa using hs1
        omega
    exact ⟨_, refLoop_written _ _ _ _ _ _ _ _ out1 j (Nat.zero_le j) (by omega) (by omega)
        (fun i hi1 hi2 => h4 i hi1 (by omega)),
      refLoop_written _ _ _ _ _ _ _ _ out2 j (Nat.zero_le j) (by omega) (by omega)
        (fun i hi1 hi2 => h4 i hi1 (by omega))⟩

/-- C8 (amended) at `rev = [1, 2, 3]`, `local = [1, 1]`, `len_output = 4`,
`max_threshold = 4`, from the buffers `[9, 9, 9, 9]` and `[7, 7, 7, 7]`. -/
theorem xcorr_range_written_positions_independent_witness :
    (4 : Int) ≤ (([9, 9, 9, 9] : List Int).length : Int) ∧
      (4 : Int) ≤ (([7, 7, 7, 7] : List Int).length : Int) ∧
      ∃ r1 r2, xcorr_range (α := Int) [9, 9, 9, 9] 4 [1, 2, 3] ([1, 2, 3] : List Int).length
            [1, 1] ([1, 1] : List Int).length 4 MIN_MAGIC = some r1 ∧
        xcorr_range (α := Int) [7, 7, 7, 7] 4 [1, 2, 3] ([1, 2, 3] : List Int).length
            [1, 1] ([1, 1] : List Int).length 4 MIN_MAGIC = some r2 ∧
        r1.exit = r2.exit ∧ r1.ret = r2.ret ∧
        ∀ j : Nat, (j : Int) < 4 →
          (r1.exit = Exit.completed ∨ ∃ s : Int, r1.exit = Exit.stopped s ∧ (j : Int) ≤ s) →
          ∃ x, r1.output[j]? = some x ∧ r2.output[j]? = some x :=
  ⟨by decide, by decide,
    xcorr_range_written_positions_independent (α := Int) [9, 9, 9, 9] [7, 7, 7, 7] 4
      [1, 2, 3] [1, 1] 4 MIN_MAGIC (by decide) (by decide)⟩

/-- C9. `xcorr_range` and `xcorr_rangeComp` never write the output buffer at an index
`≥ len_output`: for any signals and thresholds the buffer keeps its length and every element
at an index `j ≥ len_output` has the same value after the call as before. -/
theorem output_beyond_len_output_unchanged (output rev loc : List α) (len_output : Int)
    (max_threshold min_threshold : α) (sqrt : α → α) (coutput crev cloc : List (complex α))
    (clen_output : Int) (cmax_threshold cmin_threshold : α)
    (hbuf : len_output ≤ (output.length : Int))
    (hcbuf : clen_output ≤ (coutput.length : Int)) :
    (∃ r, xcorr_range output len_output rev rev.length loc loc.length
          max_threshold min_threshold = some r ∧
        r.output.length = output.length ∧
        ∀ j : Nat, len_output ≤ (j : Int) → r.output[j]? = output[j]?) ∧
      (∃ r, xcorr_rangeComp sqrt coutput clen_output crev crev.length cloc cloc.length
          cmax_threshold cmin_threshold = some r ∧
        r.output.length = coutput.length ∧
        ∀ j : Nat, clen_output ≤ (j : Int) → r.output[j]? = coutput[j]?) := by
  constructor
  · refine ⟨_, xcorr_range_eq_refLoop output len_output rev loc max_threshold min_threshold
      hbuf, refLoop_length _ _ _ _ _ _ _ _ _, ?_⟩
    intro j hj
    exact refLoop_untouched _ _ _ _ _ _ _ _ _ j (Or.inr (Or.inl (by omega)))
  · refine ⟨_, xcorr_rangeComp_eq_refLoop sqrt coutput clen_output crev cloc cmax_threshold
      cmin_threshold hcbuf, refLoop_length _ _ _ _ _ _ _ _ _, ?_⟩
    intro j hj
    exact refLoop_untouched _ _ _ _ _ _ _ _ _ j (Or.inr (Or.inl (by omega)))

/-- C9 at buffers two elements longer than `len_output`, with an upper bound that stops the
real run at index 2 and the complex run at index 0. -/
theorem output_beyond_len_output_unchanged_witness :
    (4 : Int) ≤ (([9, 9, 9, 9, 8, 7] : List Int).length : Int) ∧
      (1 : Int) ≤ (([⟨9, 9⟩, ⟨8, 8⟩, ⟨7, 7⟩] : List (complex Int)).length : Int) ∧
      ((∃ r, xcorr_range (α := Int) [9, 9, 9, 9, 8, 7] 4 [1, 2, 3]
            ([1, 2, 3] : List Int).length [1, 1] ([1, 1] : List Int).length 4 MIN_MAGIC =
              some r ∧
          r.output.length = ([9, 9, 9, 9, 8, 7] : List Int).length ∧
          ∀ j : Nat, (4 : Int) ≤ (j : Int) →
            r.output[j]? = ([9, 9, 9, 9, 8, 7] : List Int)[j]?) ∧
        (∃ r, xcorr_rangeComp (α := Int) (fun x => x) [⟨9, 9⟩, ⟨8, 8⟩, ⟨7, 7⟩] 1 [⟨1, 2⟩]
            ([⟨1, 2⟩] : List (complex Int)).length [⟨3, 4⟩]
            ([⟨3, 4⟩] : List (complex Int)).length 1 0 = some r ∧
          r.output.length = ([⟨9, 9⟩, ⟨8, 8⟩, ⟨7, 7⟩] : List (complex Int)).length ∧
          ∀ j : Nat, (1 : Int) ≤ (j : Int) →
            r.output[j]? = ([⟨9, 9⟩, ⟨8, 8⟩, ⟨7, 7⟩] : List (complex Int))[j]?)) :=
  ⟨by decide, by decide,
    output_beyond_len_output_unchanged (α := Int) [9, 9, 9, 9, 8, 7] [1, 2, 3] [1, 1] 4 4
      MIN_MAGIC (fun x => x) [⟨9, 9⟩, ⟨8, 8⟩, ⟨7, 7⟩] [⟨1, 2⟩] [⟨3, 4⟩] 1 1 0
      (by decide) (by decide)⟩

/-- C10 (evaluation at the failing input). For `x = [1, -1, 1]` and the natural length
`len_output = 5`, `autocorr` leaves `[1, -2, 3, -2, -1]`: position 4 holds `x[2] * x[1] = -1`
while position 0 holds `x[0] * x[2] = 1`, so the output is not a palindrome. -/
theorem autocorr_not_palindromic :
    autocorr (α := Int) [0, 0, 0, 0, 0] 5 [1, -1, 1] 3 =
        some { output := [1, -2, 3, -2, -1], exit := Exit.completed } ∧
      ([1, -2, 3, -2, -1] : List Int)[4]? ≠ ([1, -2, 3, -2, -1] : List Int)[0]? := by
  decide

end Claims

/-! ## Window sums of the real engine -/

section Sums
variable {α : Type} [LinearOrderedCommRing α]

theorem foldl_add_eq_sum (f : Nat → α) (n : Nat) (a : α) :
    (List.range n).foldl (fun acc (i : Nat) => acc + f i) a =
      a + ∑ i in Finset.range n, f i := by
  induction n with
  | zero => simp
  | succ n ih =>
    rw [List.range_succ, List.foldl_append, ih, Finset.sum_range_succ]
    simp [add_assoc]

theorem winVal_real_eq_sum (rev loc : List α) (k : Nat) :
    winVal 0 (fun a b => a + b) (fun a b => a * b) rev loc k =
      ∑ i in Finset.range (winBound rev.length loc.length k).toNat,
        rev.getD (winRev rev.length loc.length k (i : Int)).toNat 0 *
          loc.getD (winLoc rev.length loc.length k (i : Int)).toNat 0 := by
  unfold winVal
  rw [foldl_add_eq_sum]
  simp

end Sums

section Claims2
variable {α : Type} [LinearOrderedCommRing α]

end Claims2

/-! ## First stop of the reference loop -/

section LeastStop
variable {β : Type}

theorem refLoop_least_stop (zero : β) (add mul : β → β → β) (stop : β → Bool)
    (rev loc : List β) (hm : 1 ≤ rev.length) (hn : 1 ≤ loc.length) (n : Nat) (out : List β)
    (hbuf : n ≤ out.length) (k : Nat) (hk : k < n)
    (hs : stop (posVal zero add mul rev loc k) = true)
    (hleast : ∀ j, j < k → stop (posVal zero add mul rev loc j) = false) :
    (refLoop zero add mul stop rev loc n 0 out).exit = Exit.stopped k ∧
      (refLoop zero add mul stop rev loc n 0 out).output[k]? =
        some (posVal zero add mul rev loc k) := by
  have hnat : (k : Int) ≤ (rev.length : Int) + (loc.length : Int) - 1 := by
    by_contra hc
    have hp := stop_padding_first zero add mul stop rev loc hm hn k (by omega) hs
    have h1 := (stopAt_imp_stop _ _ _ _ _ _ _ hp.2).2
    rw [hleast _ hp.1] at h1
    exact absurd h1 (by simp)
  have hstop := stopAt_of_stop zero add mul stop rev loc k hnat hs
  have hbefore : ∀ i, 0 ≤ i → i < k → stopAt zero add mul stop rev loc i = false := by
    intro i _ hi
    by_contra hc
    have h1 := (stopAt_imp_stop _ _ _ _ _ _ _ (by simpa using hc)).2
    rw [hleast i hi] at h1
    exact absurd h1 (by simp)
  exact ⟨refLoop_stopped zero add mul stop rev loc n 0 out k (Nat.zero_le k) (by omega)
      hstop hbefore,
    refLoop_written zero add mul stop rev loc n 0 out k (Nat.zero_le k) (by omega) (by omega)
      hbefore⟩

theorem refLoop_no_stop (zero : β) (add mul : β → β → β) (stop : β → Bool)
    (rev loc : List β) (n : Nat) (out : List β)
    (h : ∀ k, k < n → stop (posVal zero add mul rev loc k) = false) :
    (refLoop zero add mul stop rev loc n 0 out).exit = Exit.completed := by
  apply refLoop_completed
  intro i _ hi
  by_contra hc
  have h1 := (stopAt_imp_stop _ _ _ _ _ _ _ (by simpa using hc)).2
  rw [h i (by omega)] at h1
  exact absurd h1 (by simp)

end LeastStop

section Claims3
variable {α : Type} [LinearOrderedCommRing α]

theorem violatingComp_iff (sqrt : α → α) (max_threshold : α) (v : List (complex α)) (k : Nat)
    (x : complex α) (h : v[k]? = some x) :
    violatingComp sqrt max_threshold v k ↔ stopComp sqrt max_threshold x = true := by
  simp [violatingComp, stopComp, h]

/-- C12 (evaluation at the failing input). With `a = [i, 1, 1]`, `b = [1, 2, 3]` and
`len_output = 5`, `xcorr_rangeComp(a, b)` leaves `[3i, 3+2i, 5+i, 3, 2]` and
`xcorr_rangeComp(b, a)` leaves `[1, 3, 5-i, 3-2i, 3]`: `out_ab[4] = 2` is not the conjugate
of `out_ba[0] = 1`, and `out_ab[0] = 3i` is not the conjugate of `out_ba[4] = 3`. -/
theorem xcorr_rangeComp_not_conjugate_reversed :
    xcorr_rangeComp (α := Int) (fun x => x) [⟨0, 0⟩, ⟨0, 0⟩, ⟨0, 0⟩, ⟨0, 0⟩, ⟨0, 0⟩] 5
        [⟨0, 1⟩, ⟨1, 0⟩, ⟨1, 0⟩] 3 [⟨1, 0⟩, ⟨2, 0⟩, ⟨3, 0⟩] 3 MAX_MAGIC MIN_MAGIC =
        some { output := [⟨0, 3⟩, ⟨3, 2⟩, ⟨5, 1⟩, ⟨3, 0⟩, ⟨2, 0⟩], exit := Exit.completed } ∧
      xcorr_rangeComp (α := Int) (fun x => x) [⟨0, 0⟩, ⟨0, 0⟩, ⟨0, 0⟩, ⟨0, 0⟩, ⟨0, 0⟩] 5
        [⟨1, 0⟩, ⟨2, 0⟩, ⟨3, 0⟩] 3 [⟨0, 1⟩, ⟨1, 0⟩, ⟨1, 0⟩] 3 MAX_MAGIC MIN_MAGIC =
        some { output := [⟨1, 0⟩, ⟨3, 0⟩, ⟨5, -1⟩, ⟨3, -2⟩, ⟨3, 0⟩], exit := Exit.completed } ∧
      (⟨2, 0⟩ : complex Int) ≠ conjComp ⟨1, 0⟩ ∧ (⟨0, 3⟩ : complex Int) ≠ conjComp ⟨3, 0⟩ := by
  decide

/-- C13. For `rev` and `local` of length at least 1, let `v` be the output of
`xcorr_rangeComp` with the upper bound disabled. If `k < len_output` is the least index with
`max_threshold ≠ MAX_MAGIC` and `absComp(v[k]) > max_threshold`, then `xcorr_rangeComp` stops
at `k`, returns `k` and has written `output[k] = v[k]`; if there is no such index it runs to
completion and returns 0; and the result is the same for any other value of
`min_threshold`. -/
theorem xcorr_rangeComp_upper_bound_only (sqrt : α → α) (output rev loc : List (complex α))
    (len_output : Int) (max_threshold min_threshold min_threshold2 : α)
    (hm : 1 ≤ rev.length) (hn : 1 ≤ loc.length)
    (hbuf : len_output ≤ (output.length : Int)) :
    ∃ v r, xcorr_rangeComp sqrt output len_output rev rev.length loc loc.length
          MAX_MAGIC min_threshold = some v ∧
      xcorr_rangeComp sqrt output len_output rev rev.length loc loc.length
          max_threshold min_threshold = some r ∧
      (∀ k : Nat, (k : Int) < len_output →
        violatingComp sqrt max_threshold v.output k →
        (∀ j : Nat, j < k → ¬ violatingComp sqrt max_threshold v.output j) →
        r.exit = Exit.stopped k ∧ r.ret = k ∧ r.output[k]? = v.output[k]?) ∧
      ((∀ k : Nat, (k : Int) < len_output →
          ¬ violatingComp sqrt max_threshold v.output k) →
        r.exit = Exit.completed ∧ r.ret = 0) ∧
      xcorr_rangeComp sqrt output len_output rev rev.length loc loc.length
          max_threshold min_threshold2 = some r := by
  refine ⟨_, _,
    xcorr_rangeComp_eq_refLoop sqrt output len_output rev loc MAX_MAGIC min_threshold hbuf,
    xcorr_rangeComp_eq_refLoop sqrt output len_output rev loc max_threshold min_threshold hbuf,
    ?_, ?_,
    xcorr_rangeComp_eq_refLoop sqrt output len_output rev loc max_threshold min_threshold2
      hbuf⟩
  · intro k hk hviol hleast
    have hv : ∀ j : Nat, (j : Int) < len_output →
        (refLoop (genComp 0 0) addComp mulComp (stopComp sqrt MAX_MAGIC) rev
          (loc.map conjComp) len_output.toNat 0 output).output[j]? =
          some (posVal (genComp 0 0) addComp mulComp rev (loc.map conjComp) j) := fun j hj =>
      refLoop_never_written _ _ _ _ rev _ (stopComp_disabled sqrt) _ 0 output j
        (Nat.zero_le j) (by omega) (by omega)
    have h := refLoop_least_stop (genComp (0 : α) 0) addComp mulComp
      (stopComp sqrt max_threshold) rev (loc.map conjComp) hm (by simpa using hn)
      len_output.toNat output (by omega) k (by omega)
      ((violatingComp_iff sqrt max_threshold _ k _ (hv k hk)).mp hviol)
      (fun j hj => by
        have := hleast j hj
        rw [violatingComp_iff sqrt max_threshold _ j _ (hv j (by omega))] at this
        simpa using this)
    exact ⟨h.1, by simp [Result.ret, h.1], by rw [h.2, hv k hk]⟩
  · intro hnone
    have hexit := refLoop_no_stop (genComp (0 : α) 0) addComp mulComp
      (stopComp sqrt max_threshold) rev (loc.map conjComp) len_output.toNat output
      (fun k hk => by
        have hv := refLoop_never_written (genComp (0 : α) 0) addComp mulComp
          (stopComp sqrt MAX_MAGIC) rev (loc.map conjComp) (stopComp_disabled sqrt)
          len_output.toNat 0 output k (Nat.zero_le k) (by omega) (by omega)
        have := hnone k (by omega)
        rw [violatingComp_iff sqrt max_threshold _ k _ hv] at this
        simpa using this)
    exact ⟨hexit, by simp [Result.ret, hexit]⟩

/-- C13 at `rev = [1, 2, 3]`, `local = [1, 1]` (zero imaginary parts), `len_output = 4`,
`max_threshold = 16`, with the identity standing in for `sqrt`. -/
theorem xcorr_rangeComp_upper_bound_only_witness :
    1 ≤ ([⟨1, 0⟩, ⟨2, 0⟩, ⟨3, 0⟩] : List (complex Int)).length ∧
      1 ≤ ([⟨1, 0⟩, ⟨1, 0⟩] : List (complex Int)).length ∧
      (4 : Int) ≤ (([⟨0, 0⟩, ⟨0, 0⟩, ⟨0, 0⟩, ⟨0, 0⟩] : List (complex Int)).length : Int) ∧
      ∃ v r, xcorr_rangeComp (α := Int) (fun x => x) [⟨0, 0⟩, ⟨0, 0⟩, ⟨0, 0⟩, ⟨0, 0⟩] 4
            [⟨1, 0⟩, ⟨2, 0⟩, ⟨3, 0⟩] ([⟨1, 0⟩, ⟨2, 0⟩, ⟨3, 0⟩] : List (complex Int)).length
            [⟨1, 0⟩, ⟨1, 0⟩] ([⟨1, 0⟩, ⟨1, 0⟩] : List (complex Int)).length
            MAX_MAGIC 0 = some v ∧
        xcorr_rangeComp (α := Int) (fun x => x) [⟨0, 0⟩, ⟨0, 0⟩, ⟨0, 0⟩, ⟨0, 0⟩] 4
            [⟨1, 0⟩, ⟨2, 0⟩, ⟨3, 0⟩] ([⟨1, 0⟩, ⟨2, 0⟩, ⟨3, 0⟩] : List (complex Int)).length
            [⟨1, 0⟩, ⟨1, 0⟩] ([⟨1, 0⟩, ⟨1, 0⟩] : List (complex Int)).length
            16 0 = some r ∧
        (∀ k : Nat, (k : Int) < 4 →
          violatingComp (fun x => x) (16 : Int) v.output k →
          (∀ j : Nat, j < k → ¬ violatingComp (fun x => x) (16 : Int) v.output j) →
          r.exit = Exit.stopped k ∧ r.ret = k ∧ r.output[k]? = v.output[k]?) ∧
        ((∀ k : Nat, (k : Int) < 4 →
            ¬ violatingComp (fun x => x) (16 : Int) v.output k) →
          r.exit = Exit.completed ∧ r.ret = 0) ∧
        xcorr_rangeComp (α := Int) (fun x => x) [⟨0, 0⟩, ⟨0, 0⟩, ⟨0, 0⟩, ⟨0, 0⟩] 4
            [⟨1, 0⟩, ⟨2, 0⟩, ⟨3, 0⟩] ([⟨1, 0⟩, ⟨2, 0⟩, ⟨3, 0⟩] : List (complex Int)).length
            [⟨1, 0⟩, ⟨1, 0⟩] ([⟨1, 0⟩, ⟨1, 0⟩] : List (complex Int)).length
            16 7 = some r :=
  ⟨by decide, by decide, by decide,
    xcorr_rangeComp_upper_bound_only (α := Int) (fun x => x) [⟨0, 0⟩, ⟨0, 0⟩, ⟨0, 0⟩, ⟨0, 0⟩]
      [⟨1, 0⟩, ⟨2, 0⟩, ⟨3, 0⟩] [⟨1, 0⟩, ⟨1, 0⟩] 4 16 0 7 (by decide) (by decide) (by decide)⟩

/-- C15. The length verification of `xcorr_range` and `xcorr_rangeComp` prints exactly one
of: the truncation message iff `len_output < len_rev + len_local - 1`; the padding message,
carrying the count `len_output - (len_rev + len_local - 1)`, iff
`len_output > len_rev + len_local - 1`; nothing iff the two are equal. The result of the
call is the one computed without the diagnostics. -/
theorem length_diagnostics (output : List α) (len_output : Int) (rev : List α) (len_rev : Int)
    (loc : List α) (len_local : Int) (max_threshold min_threshold : α) (sqrt : α → α)
    (coutput crev cloc : List (complex α)) :
    ((xcorr_range_printed output len_output rev len_rev loc len_local
          max_threshold min_threshold).1 = [Diag.shorter] ↔
        len_output < len_rev + len_local - 1) ∧
      (∀ c, (xcorr_range_printed output len_output rev len_rev loc len_local
          max_threshold min_threshold).1 = [Diag.dummy c] ↔
        (len_output > len_rev + len_local - 1 ∧
          c = len_output - (len_rev + len_local - 1))) ∧
      ((xcorr_range_printed output len_output rev len_rev loc len_local
          max_threshold min_threshold).1 = [] ↔
        len_output = len_rev + len_local - 1) ∧
      (xcorr_range_printed output len_output rev len_rev loc len_local
          max_threshold min_threshold).2 =
        xcorr_range output len_output rev len_rev loc len_local
          max_threshold min_threshold ∧
      (xcorr_rangeComp_printed sqrt coutput len_output crev len_rev cloc len_local
          max_threshold min_threshold).1 =
        (xcorr_range_printed output len_output rev len_rev loc len_local
          max_threshold min_threshold).1 ∧
      (xcorr_rangeComp_printed sqrt coutput len_output crev len_rev cloc len_local
          max_threshold min_threshold).2 =
        xcorr_rangeComp sqrt coutput len_output crev len_rev cloc len_local
          max_threshold min_threshold := by
  refine ⟨?_, ?_, ?_, rfl, rfl, rfl⟩
  · simp only [xcorr_range_printed, lengthCheck]
    split_ifs <;> simp <;> omega
  · intro c
    simp only [xcorr_range_printed, lengthCheck]
    split_ifs <;> simp <;> omega
  · simp only [xcorr_range_printed, lengthCheck]
    split_ifs <;> simp <;> omega

end Claims3

/-! ## Components of the complex window sum -/

section Components
variable {α : Type} [LinearOrderedCommRing α]

theorem foldl_comp_components (p q : Nat → complex α) (n : Nat) :
    (List.range n).foldl (fun acc (i : Nat) => addComp acc (mulComp (p i) (q i)))
        (genComp 0 0) =
      { re := ∑ i in Finset.range n, ((p i).re * (q i).re - (p i).im * (q i).im),
        im := ∑ i in Finset.range n, ((p i).re * (q i).im + (p i).im * (q i).re) } := by
  induction n with
  | zero => simp [genComp]
  | succ n ih =>
    rw [List.range_succ, List.foldl_append, ih]
    simp only [addComp, mulComp, genComp, List.foldl_cons, List.foldl_nil,
      Finset.sum_range_succ]

theorem getD_map_re (l : List (complex α)) (i : Nat) :
    (l.map complex.re).getD i 0 = (l.getD i (genComp 0 0)).re := by
  have h := List.getD_map (l := l) (d := (genComp (0 : α) 0)) (n := i) complex.re
  simpa [genComp] using h

theorem getD_map_im (l : List (complex α)) (i : Nat) :
    (l.map complex.im).getD i 0 = (l.getD i (genComp 0 0)).im := by
  have h := List.getD_map (l := l) (d := (genComp (0 : α) 0)) (n := i) complex.im
  simpa [genComp] using h

theorem getD_map_conj (l : List (complex α)) (i : Nat) :
    (l.map conjComp).getD i (genComp 0 0) = conjComp (l.getD i (genComp 0 0)) := by
  have h := List.getD_map (l := l) (d := (genComp (0 : α) 0)) (n := i) conjComp
  simpa [genComp, conjComp] using h

theorem posVal_comp_components (rev loc : List (complex α)) (k : Nat) :
    posVal (genComp 0 0) addComp mulComp rev (loc.map conjComp) k =
      { re := posVal 0 (fun a b => a + b) (fun a b => a * b) (rev.map complex.re)
            (loc.map complex.re) k +
          posVal 0 (fun a b => a + b) (fun a b => a * b) (rev.map complex.im)
            (loc.map complex.im) k,
        im := posVal 0 (fun a b => a + b) (fun a b => a * b) (rev.map complex.im)
            (loc.map complex.re) k -
          posVal 0 (fun a b => a + b) (fun a b => a * b) (rev.map complex.re)
            (loc.map complex.im) k } := by
  unfold posVal
  simp only [List.length_map]
  split_ifs with h
  · simp [genComp]
  · simp only [winVal_real_eq_sum, List.length_map, getD_map_re, getD_map_im]
    unfold winVal
    simp only [List.length_map, getD_map_conj]
    rw [foldl_comp_components (fun i => rev.getD
        (winRev rev.length loc.length k (i : Int)).toNat (genComp 0 0))
      (fun i => conjComp (loc.getD
        (winLoc rev.length loc.length k (i : Int)).toNat (genComp 0 0)))]
    simp only [conjComp, ← Finset.sum_add_distrib, ← Finset.sum_sub_distrib]
    congr 1
    · apply Finset.sum_congr rfl
      intro i _
      ring
    · apply Finset.sum_congr rfl
      intro i _
      ring

theorem posVal_real_zero_left (rev loc : List α) (k : Nat) (h : ∀ i, rev.getD i 0 = 0) :
    posVal 0 (fun a b => a + b) (fun a b => a * b) rev loc k = 0 := by
  unfold posVal
  split_ifs
  · rfl
  · rw [winVal_real_eq_sum]
    apply Finset.sum_eq_zero
    intro i _
    rw [h]
    ring

theorem posVal_real_zero_right (rev loc : List α) (k : Nat) (h : ∀ i, loc.getD i 0 = 0) :
    posVal 0 (fun a b => a + b) (fun a b => a * b) rev loc k = 0 := by
  unfold posVal
  split_ifs
  · rfl
  · rw [winVal_real_eq_sum]
    apply Finset.sum_eq_zero
    intro i _
    rw [h]
    ring

theorem getD_map_im_zero (l : List (complex α)) (h : ∀ z ∈ l, z.im = 0) (i : Nat) :
    (l.map complex.im).getD i 0 = 0 := by
  rw [getD_map_im]
  by_cases hi : i < l.length
  · rw [List.getD_eq_getElem _ _ hi]
    exact h _ (List.getElem_mem _)
  · rw [List.getD_eq_default _ _ (by omega)]
    rfl

end Components

/-! ## Fixed-point range -/

section Fxp

theorem wrap32_of_range (v : Int) (h1 : -2147483648 ≤ v) (h2 : v ≤ 2147483647) :
    wrap32 v = v := by
  unfold wrap32
  omega

theorem pow_wl_bounds (WL : Int) (h1 : 1 ≤ WL) (h2 : WL ≤ 31) :
    (1 : Int) ≤ 2 ^ (WL - 1).toNat ∧ (2 : Int) ^ (WL - 1).toNat ≤ 1073741824 := by
  constructor
  · exact one_le_pow₀ (by norm_num)
  · have h : (2 : Int) ^ (WL - 1).toNat ≤ 2 ^ 30 :=
      pow_le_pow_right₀ (by norm_num) (by omega)
    simpa using h

theorem MAX_SFXP_eq (WL : Int) (h1 : 1 ≤ WL) (h2 : WL ≤ 31) :
    MAX_SFXP WL = 2 ^ (WL - 1).toNat - 1 := by
  have hp := pow_wl_bounds WL h1 h2
  have hw : wrap32 (2 ^ (WL - 1).toNat) = 2 ^ (WL - 1).toNat :=
    wrap32_of_range _ (by omega) (by omega)
  unfold MAX_SFXP
  rw [one_mul, hw]
  exact wrap32_of_range _ (by omega) (by omega)

theorem MIN_SFXP_eq (WL : Int) (h1 : 1 ≤ WL) (h2 : WL ≤ 31) :
    MIN_SFXP WL = -2 ^ (WL - 1).toNat := by
  have hp := pow_wl_bounds WL h1 h2
  have hw : wrap32 (2 ^ (WL - 1).toNat) = 2 ^ (WL - 1).toNat :=
    wrap32_of_range _ (by omega) (by omega)
  unfold MIN_SFXP
  rw [one_mul, hw]
  exact wrap32_of_range _ (by omega) (by omega)

theorem RANGECHECK_range (I WL : Int) (h : MIN_SFXP WL ≤ MAX_SFXP WL) :
    MIN_SFXP WL ≤ RANGECHECK I WL ∧ RANGECHECK I WL ≤ MAX_SFXP WL := by
  unfold RANGECHECK
  split_ifs <;> omega

theorem RANGECHECK_eq_clamp (I WL : Int) (h : MIN_SFXP WL ≤ MAX_SFXP WL) :
    RANGECHECK I WL = max (MIN_SFXP WL) (min (MAX_SFXP WL) I) := by
  unfold RANGECHECK
  split_ifs <;> omega

end Fxp

section Claims6

/-- C20. For `1 ≤ WL ≤ 31` and all operands `A`, `B` and `FL` (in particular `0 ≤ FL ≤ 31`
and 32-bit `A`, `B`),
`MIN_SFXP(WL) = -2^(WL-1)`, `MAX_SFXP(WL) = 2^(WL-1) - 1`, the results of `fxpAdd`,
`fxpSub`, `fxpMul` and (for `B ≠ 0`) `fxpDiv` lie in `[MIN_SFXP(WL), MAX_SFXP(WL)]`, and when
`A` and `B` lie in that range `fxpAdd(A, B, WL)` is `A + B` clamped to it. -/
theorem fxp_results_in_range (A B WL FL : Int) (hWL1 : 1 ≤ WL) (hWL2 : WL ≤ 31) :
    MIN_SFXP WL = -2 ^ (WL - 1).toNat ∧ MAX_SFXP WL = 2 ^ (WL - 1).toNat - 1 ∧
      (MIN_SFXP WL ≤ fxpAdd A B WL ∧ fxpAdd A B WL ≤ MAX_SFXP WL) ∧
      (MIN_SFXP WL ≤ fxpSub A B WL ∧ fxpSub A B WL ≤ MAX_SFXP WL) ∧
      (MIN_SFXP WL ≤ fxpMul A B WL FL ∧ fxpMul A B WL FL ≤ MAX_SFXP WL) ∧
      (B ≠ 0 → ∃ r, fxpDiv A B WL FL = some r ∧ MIN_SFXP WL ≤ r ∧ r ≤ MAX_SFXP WL) ∧
      (MIN_SFXP WL ≤ A → A ≤ MAX_SFXP WL → MIN_SFXP WL ≤ B → B ≤ MAX_SFXP WL →
        fxpAdd A B WL = max (MIN_SFXP WL) (min (MAX_SFXP WL) (A + B))) := by
  have hp := pow_wl_bounds WL hWL1 hWL2
  have hmin := MIN_SFXP_eq WL hWL1 hWL2
  have hmax := MAX_SFXP_eq WL hWL1 hWL2
  have hle : MIN_SFXP WL ≤ MAX_SFXP WL := by omega
  refine ⟨hmin, hmax, RANGECHECK_range _ _ hle, RANGECHECK_range _ _ hle,
    RANGECHECK_range _ _ hle, ?_, ?_⟩
  · intro hB
    exact ⟨RANGECHECK (wrap32 (wrap64 (Int.tdiv (wrap64 (A * 2 ^ FL.toNat)) B))) WL,
      by simp [fxpDiv, hB], RANGECHECK_range _ _ hle⟩
  · intro _ _ _ _
    unfold fxpAdd
    rw [wrap32_of_range _ (by omega) (by omega)]
    exact RANGECHECK_eq_clamp _ _ hle

/-- C20 at `WL = 16`, `FL = 8`, `A = 2147483647`, `B = 3`. -/
theorem fxp_results_in_range_witness :
    (1 : Int) ≤ 16 ∧ (16 : Int) ≤ 31 ∧
      (MIN_SFXP 16 = -2 ^ ((16 : Int) - 1).toNat ∧
        MAX_SFXP 16 = 2 ^ ((16 : Int) - 1).toNat - 1 ∧
        (MIN_SFXP 16 ≤ fxpAdd 2147483647 3 16 ∧ fxpAdd 2147483647 3 16 ≤ MAX_SFXP 16) ∧
        (MIN_SFXP 16 ≤ fxpSub 2147483647 3 16 ∧ fxpSub 2147483647 3 16 ≤ MAX_SFXP 16) ∧
        (MIN_SFXP 16 ≤ fxpMul 2147483647 3 16 8 ∧
          fxpMul 2147483647 3 16 8 ≤ MAX_SFXP 16) ∧
        ((3 : Int) ≠ 0 → ∃ r, fxpDiv 2147483647 3 16 8 = some r ∧ MIN_SFXP 16 ≤ r ∧
          r ≤ MAX_SFXP 16) ∧
        (MIN_SFXP 16 ≤ 2147483647 → (2147483647 : Int) ≤ MAX_SFXP 16 →
          MIN_SFXP 16 ≤ 3 → (3 : Int) ≤ MAX_SFXP 16 →
          fxpAdd 2147483647 3 16 = max (MIN_SFXP 16) (min (MAX_SFXP 16) (2147483647 + 3)))) :=
  ⟨by decide, by decide, fxp_results_in_range 2147483647 3 16 8 (by decide) (by decide)⟩

end Claims6

/-! ## Loops that update one position per iteration -/

section Pointwise
variable {β : Type}

theorem foldlM_pointwise (body : Nat → List β → Option (List β)) (g : Nat → β → β)
    (off n : Nat)
    (hbody : ∀ (i : Nat) (st : List β) (v : β), i < n → st[off + i]? = some v →
      body i st = some (st.set (off + i) (g i v))) :
    ∀ (m : Nat) (cl : List β), m ≤ n → off + m ≤ cl.length →
      ∃ cl2, (List.range m).foldlM (fun st (i : Nat) => body i st) cl = some cl2 ∧
        cl2.length = cl.length ∧
        ∀ j, cl2[j]? =
          if off ≤ j ∧ j < off + m then (cl[j]?).map (g (j - off)) else cl[j]? := by
  intro m
  induction m with
  | zero =>
    intro cl _ _
    refine ⟨cl, by simp, rfl, ?_⟩
    intro j
    have : ¬ (off ≤ j ∧ j < off + 0) := by omega
    rw [if_neg this]
  | succ m ih =>
    intro cl hm hlen
    obtain ⟨cl1, h1, h2, h3⟩ := ih cl (by omega) (by omega)
    have hlt : off + m < cl.length := by omega
    have hv : cl1[off + m]? = some cl[off + m] := by
      rw [h3]
      have : ¬ (off ≤ off + m ∧ off + m < off + m) := by omega
      simp [this, List.getElem?_eq_getElem hlt]
    refine ⟨cl1.set (off + m) (g m cl[off + m]), ?_, by simp [h2], ?_⟩
    · rw [List.range_succ, List.foldlM_append, h1]
      simp [hbody m cl1 _ (by omega) hv]
    · intro j
      by_cases hj : off + m = j
      · subst hj
        have hc : off ≤ off + m ∧ off + m < off + (m + 1) := by omega
        simp [hc, List.getElem?_eq_getElem hlt, h2, hlt]
      · rw [List.getElem?_set_ne hj, h3]
        by_cases hc : off ≤ j ∧ j < off + m
        · have hc2 : off ≤ j ∧ j < off + (m + 1) := by omega
          simp [hc, hc2]
        · have hc2 : ¬ (off ≤ j ∧ j < off + (m + 1)) := by omega
          simp [hc, hc2]

end Pointwise

/-! ## BPSK mapping -/

section Bpsk
variable {α : Type} [LinearOrderedField α]

theorem bpsk_body (bitStream : List Int) (boost : α) (i : Nat) (hi : i < bitStream.length)
    (st : List (complex α)) (v : complex α) (hv : st[0 + i]? = some v) :
    ((readAt bitStream (i : Int)).bind fun b =>
        (writeRe st (i : Int) (boost * ((wrap32 (1 - wrap32 (2 * b)) : Int) : α))).bind
          fun sv => writeIm sv (i : Int) 0) =
      some (st.set (0 + i)
        { re := boost * ((wrap32 (1 - wrap32 (2 * bitStream.getD i 0)) : Int) : α),
          im := 0 }) := by
  rw [Nat.zero_add] at hv ⊢
  have hlt : i < st.length := by
    by_contra hc
    rw [List.getElem?_eq_none (by omega)] at hv
    exact absurd hv (by simp)
  have hr := readAt_of_lt (0 : Int) bitStream (i : Int) (by omega) (by omega)
  simp only [Int.toNat_ofNat] at hr
  rw [hr]
  simp [writeRe, writeIm, readAt_natCast, hv, writeAt_natCast, hlt]

theorem bpsk_level (b : Int) (hb : b = 0 ∨ b = 1) :
    wrap32 (1 - wrap32 (2 * b)) = 1 ∨ wrap32 (1 - wrap32 (2 * b)) = -1 := by
  rcases hb with hb | hb <;> subst hb <;> decide

/-- C19 (what the code does). For type `BPSK`, a bit stream of 0/1 values and any `avePow`,
`mapPsk` returns 0, stores `lenBit` to `*lenSym` and writes `symVec[i] = (± avePow, 0)` for
every `i < lenBit`: the power `re² + im²` of each symbol is the square of `avePow`, which is
`avePow` only for `avePow = 0` and `avePow = 1`. -/
theorem mapPsk_bpsk (log2 : α → α) (toInt : α → Int) (lenSym : Int)
    (symVec : List (complex α)) (bitStream : List Int) (avePow : α)
    (hlog : log2 2 = 1) (htoInt : ∀ n : Int, toInt (n : α) = n)
    (hbits : ∀ b ∈ bitStream, b = 0 ∨ b = 1) (hlen : bitStream.length ≤ symVec.length) :
    ∃ r, mapPsk log2 toInt lenSym symVec bitStream.length bitStream BPSK avePow = some r ∧
      r.lenSym = bitStream.length ∧ r.ret = 0 ∧
      ∀ i, i < bitStream.length →
        ∃ c, r.symVec[i]? = some c ∧ (c.re = avePow ∨ c.re = -avePow) ∧ c.im = 0 ∧
          c.re ^ 2 + c.im ^ 2 = avePow ^ 2 := by
  have hsym : (if (lenSym : α) ≠ ((bitStream.length : Int) : α) / log2 ((BPSK : Int) : α) then
      toInt (((bitStream.length : Int) : α) / log2 ((BPSK : Int) : α)) else lenSym) =
      (bitStream.length : Int) := by
    have h2 : log2 ((BPSK : Int) : α) = 1 := by simpa [BPSK] using hlog
    rw [h2, div_one]
    split_ifs with h
    · exact htoInt _
    · exact Int.cast_injective (not_not.mp h)
  obtain ⟨sv, h1, h2, h3⟩ := foldlM_pointwise
    (fun (i : Nat) (st : List (complex α)) =>
      (readAt bitStream (i : Int)).bind fun b =>
        (writeRe st (i : Int) ((avePow * 1) * ((wrap32 (1 - wrap32 (2 * b)) : Int) : α))).bind
          fun sv => writeIm sv (i : Int) 0)
    (fun i _ => { re := (avePow * 1) * ((wrap32 (1 - wrap32 (2 * bitStream.getD i 0)) : Int) : α),
                  im := 0 })
    0 bitStream.length
    (fun i st v hi hv => bpsk_body bitStream (avePow * 1) i hi st v hv)
    bitStream.length symVec le_rfl (by omega)
  refine ⟨{ lenSym := bitStream.length, symVec := sv, ret := 0 }, ?_, rfl, rfl, ?_⟩
  · unfold mapPsk
    simp only [if_true, hsym, forLoop, Int.toNat_ofNat, Option.bind_eq_bind]
    rw [h1]
    rfl
  · intro i hi
    have hc : 0 ≤ i ∧ i < 0 + bitStream.length := by omega
    have hsome : symVec[i]? = some symVec[i] := List.getElem?_eq_getElem (by omega)
    refine ⟨_, by rw [h3 i, if_pos hc, hsome]; rfl, ?_, rfl, ?_⟩
    · have hb := bpsk_level (bitStream.getD i 0)
        (hbits _ (by rw [List.getD_eq_getElem _ _ hi]; exact List.getElem_mem _))
      rcases hb with hb | hb <;> simp only [Nat.sub_zero, hb] <;> simp
    · have hb := bpsk_level (bitStream.getD i 0)
        (hbits _ (by rw [List.getD_eq_getElem _ _ hi]; exact List.getElem_mem _))
      rcases hb with hb | hb <;> simp only [Nat.sub_zero, hb] <;> simp

/-- C19 at `avePow = 2` and the bits `[0, 1]`: the symbols have power `4`, not `2`. -/
theorem mapPsk_bpsk_witness :
    (fun (_ : ℚ) => (1 : ℚ)) 2 = 1 ∧ (∀ n : Int, (fun (q : ℚ) => ⌊q⌋) (n : ℚ) = n) ∧
      (∀ b ∈ ([0, 1] : List Int), b = 0 ∨ b = 1) ∧
      ([0, 1] : List Int).length ≤ ([⟨0, 0⟩, ⟨0, 0⟩] : List (complex ℚ)).length ∧
      (∃ r, mapPsk (fun (_ : ℚ) => (1 : ℚ)) (fun (q : ℚ) => ⌊q⌋) 2 [⟨0, 0⟩, ⟨0, 0⟩]
          ([0, 1] : List Int).length [0, 1] BPSK 2 = some r ∧
        r.lenSym = ([0, 1] : List Int).length ∧ r.ret = 0 ∧
        ∀ i, i < ([0, 1] : List Int).length →
          ∃ c, r.symVec[i]? = some c ∧ (c.re = 2 ∨ c.re = -2) ∧ c.im = 0 ∧
            c.re ^ 2 + c.im ^ 2 = (2 : ℚ) ^ 2) ∧
      (2 : ℚ) ^ 2 ≠ 2 :=
  ⟨rfl, fun n => Int.floor_intCast n, by decide, by decide,
    mapPsk_bpsk (fun (_ : ℚ) => (1 : ℚ)) (fun (q : ℚ) => ⌊q⌋) 2 [⟨0, 0⟩, ⟨0, 0⟩] [0, 1] 2
      rfl (fun n => Int.floor_intCast n) (by decide) (by decide),
    by norm_num⟩

end Bpsk

/-! ## A write of the value already stored -/

section ConvLoops

theorem set_of_getElem? {β : Type} (l : List β) (i : Nat) (v : β) (h : l[i]? = some v) :
    l.set i v = l := by
  apply List.ext_getElem?
  intro j
  rw [List.getElem?_set]
  split_ifs with h1 h2
  · subst h1; exact h.symm
  · subst h1
    rw [List.getElem?_eq_none (by omega)] at h
    exact absurd h (by simp)
  · rfl

end ConvLoops

/-! ## The loops of `biA2decA` -/

section BiLoops

theorem foldlM_rmw {β : Type} (k : Nat) (step : Nat → β → β)
    (body : Nat → List β → Option (List β)) (n : Nat)
    (hbody : ∀ (j : Nat) (st : List β) (v : β), j < n → st[k]? = some v →
      body j st = some (st.set k (step j v))) :
    ∀ (m : Nat) (out : List β) (v : β), m ≤ n → out[k]? = some v →
      (List.range m).foldlM (fun st (j : Nat) => body j st) out =
        some (out.set k ((List.range m).foldl (fun acc (j : Nat) => step j acc) v)) := by
  intro m
  induction m with
  | zero =>
    intro out v _ hv
    simp [set_of_getElem? out k v hv]
  | succ m ih =>
    intro out v hm hv
    have hlt : k < out.length := by
      by_contra hc
      rw [List.getElem?_eq_none (by omega)] at hv
      exact absurd hv (by simp)
    rw [List.range_succ, List.foldlM_append, ih out v (by omega) hv, List.foldl_append]
    have hset : (out.set k ((List.range m).foldl (fun acc (j : Nat) => step j acc) v))[k]? =
        some ((List.range m).foldl (fun acc (j : Nat) => step j acc) v) := by
      simp [hlt]
    simp [hbody m _ _ (by omega) hset]

theorem biGroup_eq (input : List Int) (M c : Nat) (output : List Int) (v : Int)
    (hin : c * M + M ≤ input.length) (hv : output[c]? = some v) :
    biGroup input (c : Int) ((c : Int) * (M : Int)) (M : Int) output =
      some (output.set c (groupAcc input M c v)) := by
  unfold biGroup groupAcc
  rw [Int.toNat_ofNat]
  apply foldlM_rmw c
    (fun j acc => wrap32 (acc + wrap32 (wrap32 (1 * 2 ^ (M - 1 - j)) * input.getD (c * M + j) 0)))
    (fun j st => biStep input (c : Int) ((c : Int) * (M : Int)) (M : Int)
      ((M : Int) - 1 - (j : Int)) st) M _ M output v le_rfl hv
  intro j st w hj hw
  have hlt : c < st.length := by
    by_contra hc
    rw [List.getElem?_eq_none (by omega)] at hw
    exact absurd hw (by simp)
  have hidx : (c : Int) * (M : Int) + (M : Int) - 1 - ((M : Int) - 1 - (j : Int)) =
      ((c * M + j : Nat) : Int) := by
    push_cast
    ring
  have hcur : ((M : Int) - 1 - (j : Int)).toNat = M - 1 - j := by omega
  have hr := readAt_of_lt (0 : Int) input ((c * M + j : Nat) : Int) (by omega) (by omega)
  rw [Int.toNat_ofNat] at hr
  unfold biStep
  beta_reduce
  rw [hidx, hcur, hr]
  simp [readAt_natCast, hw, writeAt_natCast, hlt]

theorem biLoop_groups (input : List Int) (lenIn : Int) (M G : Nat)
    (hin : G * M ≤ input.length)
    (hrun : ∀ c : Nat, c < G → (c : Int) * (M : Int) < lenIn)
    (hend : lenIn ≤ (G : Int) * (M : Int)) :
    ∀ (r c fuel : Nat) (out : List Int), c + r = G → r ≤ fuel → G ≤ out.length →
      ∃ out2 : List Int, biLoop input lenIn M fuel ((c : Int) * (M : Int)) (c : Int) out =
          some (out2, (G : Int)) ∧
        out2.length = out.length ∧
        ∀ j, out2[j]? =
          if c ≤ j ∧ j < G then (out[j]?).map (groupAcc input M j) else out[j]? := by
  intro r
  induction r with
  | zero =>
    intro c fuel out hc _ _
    have hcG : c = G := by omega
    subst hcG
    have hn : ¬ ((c : Int) * (M : Int) < lenIn) := by omega
    refine ⟨out, ?_, rfl, ?_⟩
    · cases fuel <;> simp [biLoop, hn]
    · intro j
      have : ¬ (c ≤ j ∧ j < c) := by omega
      rw [if_neg this]
  | succ r ih =>
    intro c fuel out hc hfuel hout
    obtain ⟨f, rfl⟩ : ∃ f, fuel = f + 1 := ⟨fuel - 1, by omega⟩
    have hlt : c < out.length := by omega
    have hcond : (c : Int) * (M : Int) < lenIn := hrun c (by omega)
    have hinc : c * M + M ≤ input.length := by
      have : (c + 1) * M ≤ G * M := Nat.mul_le_mul_right M (by omega)
      rw [Nat.add_mul, Nat.one_mul] at this
      omega
    have hg := biGroup_eq input M c out out[c] hinc (List.getElem?_eq_getElem hlt)
    obtain ⟨out2, h1, h2, h3⟩ := ih (c + 1) f (out.set c (groupAcc input M c out[c]))
      (by omega) (by omega) (by simpa using hout)
    have hnext : (c : Int) * (M : Int) + (M : Int) = ((c + 1 : Nat) : Int) * (M : Int) := by
      push_cast
      ring
    refine ⟨out2, ?_, by simpa using h2, ?_⟩
    · rw [biLoop, if_pos hcond]
      simp only [Option.bind_eq_bind, hg, Option.some_bind, hnext]
      have hcast : ((c : Int) + 1) = ((c + 1 : Nat) : Int) := by push_cast; rfl
      rw [hcast]
      exact h1
    · intro j
      rw [h3 j]
      by_cases hj : c = j
      · subst hj
        have a1 : ¬ (c + 1 ≤ c ∧ c < G) := by omega
        have a2 : c ≤ c ∧ c < G := by omega
        rw [if_neg a1, if_pos a2]
        simp [hlt, List.getElem?_eq_getElem hlt]
      · rw [List.getElem?_set_ne hj]
        by_cases hc2 : c + 1 ≤ j ∧ j < G
        · have a2 : c ≤ j ∧ j < G := by omega
          rw [if_pos hc2, if_pos a2]
        · have a2 : ¬ (c ≤ j ∧ j < G) := by omega
          rw [if_neg hc2, if_neg a2]

theorem groupAcc_upto (bitIn : List Int) (M c : Nat) (hM : M ≤ 31)
    (hbits : ∀ j, j < M → bitIn.getD (c * M + j) 0 = 0 ∨ bitIn.getD (c * M + j) 0 = 1) :
    ∀ m, m ≤ M →
      (List.range m).foldl
          (fun acc (j : Nat) =>
            wrap32 (acc + wrap32 (wrap32 (1 * 2 ^ (M - 1 - j)) * bitIn.getD (c * M + j) 0)))
          0 =
        ∑ b in Finset.range m, 2 ^ (M - 1 - b) * bitIn.getD (c * M + b) 0 ∧
      0 ≤ ∑ b in Finset.range m, 2 ^ (M - 1 - b) * bitIn.getD (c * M + b) 0 ∧
      ∑ b in Finset.range m, 2 ^ (M - 1 - b) * bitIn.getD (c * M + b) 0 + 2 ^ (M - m) ≤
        (2 : Int) ^ M := by
  have hP : (2 : Int) ^ M ≤ 2147483648 := by
    have h : (2 : Int) ^ M ≤ 2 ^ 31 := pow_le_pow_right₀ (by norm_num) hM
    simpa using h
  intro m
  induction m with
  | zero =>
    intro _
    simp
  | succ m ih =>
    intro hm
    obtain ⟨h1, h2, h3⟩ := ih (by omega)
    have hpow : (2 : Int) ^ (M - m) = 2 * 2 ^ (M - 1 - m) := by
      rw [← pow_succ']
      congr 1
      omega
    have hp1 : (1 : Int) ≤ 2 ^ (M - 1 - m) := one_le_pow₀ (by norm_num)
    have hexp : M - (m + 1) = M - 1 - m := by omega
    rw [List.range_succ, List.foldl_append, h1, Finset.sum_range_succ, hexp]
    simp only [List.foldl_cons, List.foldl_nil, one_mul]
    have hw1 : wrap32 (2 ^ (M - 1 - m)) = 2 ^ (M - 1 - m) :=
      wrap32_of_range _ (by omega) (by omega)
    rw [hw1]
    rcases hbits m (by omega) with hb | hb
    · rw [hb, mul_zero, add_zero]
      have hw2 : wrap32 0 = 0 := by decide
      rw [hw2, add_zero, wrap32_of_range _ (by omega) (by omega)]
      exact ⟨rfl, h2, by omega⟩
    · rw [hb, mul_one, hw1, wrap32_of_range _ (by omega) (by omega)]
      exact ⟨rfl, by omega, by omega⟩

theorem groupAcc_eq_groupSum (bitIn : List Int) (M c : Nat) (hM : M ≤ 31)
    (hbits : ∀ j, j < M → bitIn.getD (c * M + j) 0 = 0 ∨ bitIn.getD (c * M + j) 0 = 1) :
    groupAcc bitIn M c 0 = groupSum bitIn M c :=
  (groupAcc_upto bitIn M c hM hbits M le_rfl).1

theorem biA2decA_run (fuel : Nat) (decOut bitIn : List Int) (lenIn : Int) (M G : Nat)
    (hM : 1 ≤ M) (hin : G * M ≤ bitIn.length) (hout : G ≤ decOut.length) (hfuel : G ≤ fuel)
    (hlast : (G : Int) * (M : Int) - (M : Int) < lenIn) (hend : lenIn ≤ (G : Int) * (M : Int))
    (hpos : 0 ≤ lenIn) :
    ∃ out2 : List Int, biLoop bitIn lenIn M fuel 0 0 decOut = some (out2, (G : Int)) ∧
      out2.length = decOut.length ∧
      (∀ j, out2[j]? =
        if j < G then (decOut[j]?).map (groupAcc bitIn M j) else decOut[j]?) ∧
      biA2decA fuel decOut bitIn lenIn M =
        if lenIn % (M : Int) ≠ 0 then some (out2.set (G - 1) 0, 1) else some (out2, 0) := by
  have hrun : ∀ c : Nat, c < G → (c : Int) * (M : Int) < lenIn := by
    intro c hc
    have h1 : (c : Int) * (M : Int) ≤ ((G : Int) - 1) * (M : Int) :=
      Int.mul_le_mul_of_nonneg_right (by omega) (by omega)
    have h2 : ((G : Int) - 1) * (M : Int) = (G : Int) * (M : Int) - (M : Int) := by ring
    omega
  obtain ⟨out2, h1, h2, h3⟩ := biLoop_groups bitIn lenIn M G hin hrun hend G 0 fuel decOut
    (by omega) hfuel hout
  have h1b : biLoop bitIn lenIn M fuel 0 0 decOut = some (out2, (G : Int)) := by
    simpa using h1
  refine ⟨out2, h1b, h2, ?_, ?_⟩
  · intro j
    rw [h3 j]
    by_cases hj : j < G
    · rw [if_pos hj, if_pos ⟨Nat.zero_le j, hj⟩]
    · have : ¬ (0 ≤ j ∧ j < G) := by omega
      rw [if_neg hj, if_neg this]
  · have hM0 : ¬ ((M : Int) = 0) := by omega
    have hmod : Int.tmod lenIn (M : Int) = lenIn % (M : Int) :=
      Int.tmod_eq_emod hpos (by omega)
    unfold biA2decA
    rw [h1b]
    simp only [Option.bind_eq_bind, Option.some_bind, hM0, if_false, hmod]
    split_ifs with hne
    · have hG : 1 ≤ G := by
        by_contra hc
        have hG0 : G = 0 := by omega
        subst hG0
        have : lenIn = 0 := by omega
        subst this
        simp at hne
      have hcast : ((G : Int) - 1) = ((G - 1 : Nat) : Int) := by omega
      rw [hcast, writeAt_natCast _ _ _ (by omega)]
      rfl
    · rfl

theorem getD_bit (bitIn : List Int) (hbits : ∀ b ∈ bitIn, b = 0 ∨ b = 1) (i : Nat) :
    bitIn.getD i 0 = 0 ∨ bitIn.getD i 0 = 1 := by
  by_cases hi : i < bitIn.length
  · rw [List.getD_eq_getElem _ _ hi]
    exact hbits _ (List.getElem_mem _)
  · rw [List.getD_eq_default _ _ (by omega)]
    exact Or.inl rfl

end BiLoops

section Claims8

set_option maxRecDepth 100000 in
/-- C18 (counterexample). With `M = 32`, `lenIn = 32` and 32 one-bits, `biA2decA` returns 0
and leaves `decOut[0] = -1`, while the sum of `2^(31-b) * bitIn[b]` over `b < 32` is
`4294967295`, which no `int` holds. -/
theorem biA2decA_word_overflow :
    biA2decA 1 [0] (List.replicate 32 1) 32 32 = some ([-1], 0) ∧
      groupSum (List.replicate 32 1) 32 0 = 4294967295 := by
  constructor
  · decide
  · decide

/-- C18 (amended). For `1 ≤ M ≤ 31`, `lenIn` a non-negative multiple of `M`, `bitIn` of
length `lenIn` with entries 0 or 1 and a zero-initialised `decOut`, `biA2decA` returns 0 and
sets `decOut[c]` to the sum over `b < M` of `2^(M-1-b) * bitIn[c*M + b]` for every group
`c < lenIn / M`, writing no other entry; and for any `lenIn ≥ 1`, with arrays that hold the
last group, it returns 1 exactly when `lenIn` is not a multiple of `M`. -/
theorem biA2decA_groups (fuel : Nat) (decOut bitIn : List Int) (M G : Nat)
    (fuel2 : Nat) (decOut2 bitIn2 : List Int) (lenIn2 : Int) (G2 : Nat)
    (hM1 : 1 ≤ M) (hM31 : M ≤ 31) (hlen : bitIn.length = G * M)
    (hbits : ∀ b ∈ bitIn, b = 0 ∨ b = 1) (hzero : ∀ v ∈ decOut, v = 0)
    (hout : G ≤ decOut.length) (hfuel : G ≤ fuel)
    (hlen2 : 1 ≤ lenIn2) (hlast2 : (G2 : Int) * (M : Int) - (M : Int) < lenIn2)
    (hend2 : lenIn2 ≤ (G2 : Int) * (M : Int)) (hin2 : G2 * M ≤ bitIn2.length)
    (hout2 : G2 ≤ decOut2.length) (hfuel2 : G2 ≤ fuel2) :
    (∃ out, biA2decA fuel decOut bitIn bitIn.length M = some (out, 0) ∧
        out.length = decOut.length ∧
        (∀ c, c < G → out[c]? = some (groupSum bitIn M c)) ∧
        (∀ j, G ≤ j → out[j]? = decOut[j]?)) ∧
      (∃ out ret, biA2decA fuel2 decOut2 bitIn2 lenIn2 M = some (out, ret) ∧
        (ret = 1 ↔ lenIn2 % (M : Int) ≠ 0)) := by
  constructor
  · have hcast : (bitIn.length : Int) = (G : Int) * (M : Int) := by
      rw [hlen]
      push_cast
      rfl
    obtain ⟨out2, _, h2, h3, h4⟩ := biA2decA_run fuel decOut bitIn bitIn.length M G hM1
      (by omega) hout hfuel (by omega) (by omega) (by omega)
    have hmod : (bitIn.length : Int) % (M : Int) = 0 := by
      rw [hcast]
      exact Int.mul_emod_left _ _
    rw [hmod] at h4
    refine ⟨out2, by simpa using h4, h2, ?_, ?_⟩
    · intro c hc
      have hlt : c < decOut.length := by omega
      rw [h3 c, if_pos hc, List.getElem?_eq_getElem hlt, Option.map_some',
        hzero _ (List.getElem_mem _),
        groupAcc_eq_groupSum bitIn M c hM31 (fun j _ => getD_bit bitIn hbits _)]
    · intro j hj
      rw [h3 j, if_neg (by omega)]
  · obtain ⟨out2, _, _, _, h4⟩ := biA2decA_run fuel2 decOut2 bitIn2 lenIn2 M G2 hM1 hin2
      hout2 hfuel2 hlast2 hend2 (by omega)
    by_cases hne : lenIn2 % (M : Int) ≠ 0
    · rw [if_pos hne] at h4
      exact ⟨_, 1, h4, by simp [hne]⟩
    · rw [if_neg hne] at h4
      exact ⟨_, 0, h4, by simp [hne]⟩

/-- C18 (amended) at `M = 3` with the bits `[1, 0, 1, 0, 1, 1]` (two groups, values 5 and
3), and at `lenIn = 4` with `M = 3` (two groups, the second one incomplete). -/
theorem biA2decA_groups_witness :
    1 ≤ 3 ∧ 3 ≤ 31 ∧ ([1, 0, 1, 0, 1, 1] : List Int).length = 2 * 3 ∧
      (∀ b ∈ ([1, 0, 1, 0, 1, 1] : List Int), b = 0 ∨ b = 1) ∧
      (∀ v ∈ ([0, 0, 0] : List Int), v = 0) ∧ 2 ≤ ([0, 0, 0] : List Int).length ∧ 2 ≤ 2 ∧
      (1 : Int) ≤ 4 ∧ ((2 : Nat) : Int) * ((3 : Nat) : Int) - ((3 : Nat) : Int) < 4 ∧
      (4 : Int) ≤ ((2 : Nat) : Int) * ((3 : Nat) : Int) ∧
      2 * 3 ≤ ([1, 1, 1, 1, 0, 0] : List Int).length ∧ 2 ≤ ([0, 0] : List Int).length ∧
      2 ≤ 5 ∧
      ((∃ out, biA2decA 2 [0, 0, 0] [1, 0, 1, 0, 1, 1]
            ([1, 0, 1, 0, 1, 1] : List Int).length (3 : Nat) = some (out, 0) ∧
          out.length = ([0, 0, 0] : List Int).length ∧
          (∀ c, c < 2 → out[c]? = some (groupSum [1, 0, 1, 0, 1, 1] 3 c)) ∧
          (∀ j, 2 ≤ j → out[j]? = ([0, 0, 0] : List Int)[j]?)) ∧
        (∃ out ret, biA2decA 5 [0, 0] [1, 1, 1, 1, 0, 0] 4 (3 : Nat) = some (out, ret) ∧
          (ret = 1 ↔ (4 : Int) % ((3 : Nat) : Int) ≠ 0))) :=
  ⟨by decide, by decide, by decide, by decide, by decide, by decide, by decide, by decide,
    by decide, by decide, by decide, by decide, by decide,
    biA2decA_groups 2 [0, 0, 0] [1, 0, 1, 0, 1, 1] 3 2 5 [0, 0] [1, 1, 1, 1, 0, 0] 4 2
      (by decide) (by decide) (by decide) (by decide) (by decide) (by decide) (by decide)
      (by decide) (by decide) (by decide) (by decide) (by decide) (by decide)⟩

end Claims8

/-! ## The three window regimes of the real engine -/

section Regimes
variable {α : Type} [LinearOrderedCommRing α]

end Regimes

section Claims9
variable {α : Type} [LinearOrderedCommRing α]

/-- C23 (evaluation at the failing input). With `rev = [1, 2, 3, 4]`, `local = [1, 2, 3]` and
the natural length 6, `xcorr` leaves `[3, 8, 14, 20, 11, 8]`: the window at the last position
`k = 5` has one product, but it is `rev[3] * local[1] = 8` and not `rev[3] * local[0] = 4`.
With the lengths swapped, `rev = [1, 2, 3]` and `local = [1, 2, 3, 4]`, the last position
does hold `rev[2] * local[0] = 3`. -/
theorem xcorr_falling_regime_last_tap :
    xcorr (α := Int) [0, 0, 0, 0, 0, 0] 6 [1, 2, 3, 4] 4 [1, 2, 3] 3 =
        some { output := [3, 8, 14, 20, 11, 8], exit := Exit.completed } ∧
      winBound 4 3 5 = 1 ∧ winRev 4 3 5 0 = 3 ∧ winLoc 4 3 5 0 = 1 ∧
      ([1, 2, 3, 4] : List Int).getD 3 0 * ([1, 2, 3] : List Int).getD 0 0 = 4 ∧
      xcorr (α := Int) [0, 0, 0, 0, 0, 0] 6 [1, 2, 3] 3 [1, 2, 3, 4] 4 =
        some { output := [4, 11, 20, 14, 8, 3], exit := Exit.completed } := by
  decide

/-- C24. When `xcorr_range` or `xcorr_rangeComp` stops early at index `k`, every position
`j > k` of the output buffer, in particular every `j` with `k < j < len_output`, holds what
it held before the call. -/
theorem tail_after_stop_unchanged (output rev loc : List α) (len_output : Int)
    (max_threshold min_threshold : α) (sqrt : α → α) (coutput crev cloc : List (complex α))
    (clen_output : Int) (cmax_threshold cmin_threshold : α)
    (hbuf : len_output ≤ (output.length : Int))
    (hcbuf : clen_output ≤ (coutput.length : Int)) :
    (∃ r, xcorr_range output len_output rev rev.length loc loc.length
          max_threshold min_threshold = some r ∧
        ∀ k : Int, r.exit = Exit.stopped k →
          ∀ j : Nat, k < (j : Int) → r.output[j]? = output[j]?) ∧
      (∃ r, xcorr_rangeComp sqrt coutput clen_output crev crev.length cloc cloc.length
          cmax_threshold cmin_threshold = some r ∧
        ∀ k : Int, r.exit = Exit.stopped k →
          ∀ j : Nat, k < (j : Int) → r.output[j]? = coutput[j]?) := by
  have key : ∀ {β : Type} (zero : β) (add mul : β → β → β) (stop : β → Bool)
      (a b out : List β) (n : Nat) (k : Int),
      (refLoop zero add mul stop a b n 0 out).exit = Exit.stopped k →
      ∀ j : Nat, k < (j : Int) → (refLoop zero add mul stop a b n 0 out).output[j]? = out[j]? := by
    intro β zero add mul stop a b out n k hk j hj
    rcases stopAt_first_or_none (stopAt zero add mul stop a b) 0 n with
      hnone | ⟨t, h1, h2, h3, h4⟩
    · rw [refLoop_completed _ _ _ _ _ _ _ _ _ hnone] at hk
      exact absurd hk (by simp)
    · rw [refLoop_stopped _ _ _ _ _ _ _ _ _ t h1 h2 h3 h4] at hk
      have hkt : (t : Int) = k := by simpa using hk
      exact refLoop_untouched _ _ _ _ _ _ _ _ _ j (Or.inr (Or.inr ⟨t, h1, by omega, h3⟩))
  exact ⟨⟨_, xcorr_range_eq_refLoop output len_output rev loc max_threshold min_threshold hbuf,
      key _ _ _ _ _ _ _ _⟩,
    ⟨_, xcorr_rangeComp_eq_refLoop sqrt coutput clen_output crev cloc cmax_threshold
      cmin_threshold hcbuf, key _ _ _ _ _ _ _ _⟩⟩

/-- C24 at buffers holding 9 and 7: the real run stops at index 2, the complex run at index
0 (the identity stands in for `sqrt`). -/
theorem tail_after_stop_unchanged_witness :
    (4 : Int) ≤ (([9, 9, 9, 9] : List Int).length : Int) ∧
      (2 : Int) ≤ (([⟨7, 7⟩, ⟨7, 7⟩] : List (complex Int)).length : Int) ∧
      ((∃ r, xcorr_range (α := Int) [9, 9, 9, 9] 4 [1, 2, 3] ([1, 2, 3] : List Int).length
            [1, 1] ([1, 1] : List Int).length 4 MIN_MAGIC = some r ∧
          ∀ k : Int, r.exit = Exit.stopped k →
            ∀ j : Nat, k < (j : Int) → r.output[j]? = ([9, 9, 9, 9] : List Int)[j]?) ∧
        (∃ r, xcorr_rangeComp (α := Int) (fun x => x) [⟨7, 7⟩, ⟨7, 7⟩] 2 [⟨1, 2⟩, ⟨1, 0⟩]
            ([⟨1, 2⟩, ⟨1, 0⟩] : List (complex Int)).length [⟨3, 4⟩]
            ([⟨3, 4⟩] : List (complex Int)).length 1 0 = some r ∧
          ∀ k : Int, r.exit = Exit.stopped k →
            ∀ j : Nat, k < (j : Int) →
              r.output[j]? = ([⟨7, 7⟩, ⟨7, 7⟩] : List (complex Int))[j]?)) :=
  ⟨by decide, by decide,
    tail_after_stop_unchanged (α := Int) [9, 9, 9, 9] [1, 2, 3] [1, 1] 4 4 MIN_MAGIC
      (fun x => x) [⟨7, 7⟩, ⟨7, 7⟩] [⟨1, 2⟩, ⟨1, 0⟩] [⟨3, 4⟩] 2 1 0 (by decide) (by decide)⟩

/-- C26. `xcorr_range` and `xcorr_rangeComp` never return a negative value: for any signals,
`len_output` and thresholds the returned `r` is 0, or `0 < r < len_output` and
`r ≤ len_rev + len_local - 1`. -/
theorem return_value_range (output rev loc : List α) (len_output : Int)
    (max_threshold min_threshold : α) (sqrt : α → α) (coutput crev cloc : List (complex α))
    (clen_output : Int) (cmax_threshold cmin_threshold : α)
    (hbuf : len_output ≤ (output.length : Int))
    (hcbuf : clen_output ≤ (coutput.length : Int)) :
    (∃ r, xcorr_range output len_output rev rev.length loc loc.length
          max_threshold min_threshold = some r ∧
        (r.ret = 0 ∨ (0 < r.ret ∧ r.ret < len_output ∧
          r.ret ≤ (rev.length : Int) + (loc.length : Int) - 1))) ∧
      (∃ r, xcorr_rangeComp sqrt coutput clen_output crev crev.length cloc cloc.length
          cmax_threshold cmin_threshold = some r ∧
        (r.ret = 0 ∨ (0 < r.ret ∧ r.ret < clen_output ∧
          r.ret ≤ (crev.length : Int) + (cloc.length : Int) - 1))) := by
  have key : ∀ {β : Type} (zero : β) (add mul : β → β → β) (stop : β → Bool)
      (a b out : List β) (n : Nat),
      (refLoop zero add mul stop a b n 0 out).ret = 0 ∨
        (0 < (refLoop zero add mul stop a b n 0 out).ret ∧
          (refLoop zero add mul stop a b n 0 out).ret < (n : Int) ∧
          (refLoop zero add mul stop a b n 0 out).ret ≤
            (a.length : Int) + (b.length : Int) - 1) := by
    intro β zero add mul stop a b out n
    rcases stopAt_first_or_none (stopAt zero add mul stop a b) 0 n with
      hnone | ⟨t, h1, h2, h3, h4⟩
    · left
      simp [Result.ret, refLoop_completed _ _ _ _ _ _ _ _ _ hnone]
    · have he := refLoop_stopped _ _ _ _ _ _ n 0 out t h1 h2 h3 h4
      have hle := (stopAt_imp_stop _ _ _ _ _ _ _ h3).1
      have hret : (refLoop zero add mul stop a b n 0 out).ret = (t : Int) := by
        simp [Result.ret, he]
      rw [hret]
      omega
  constructor
  · refine ⟨_, xcorr_range_eq_refLoop output len_output rev loc max_threshold min_threshold
      hbuf, ?_⟩
    have h := key (0 : α) (fun a b => a + b) (fun a b => a * b)
      (stopReal max_threshold min_threshold) rev loc output len_output.toNat
    omega
  · refine ⟨_, xcorr_rangeComp_eq_refLoop sqrt coutput clen_output crev cloc cmax_threshold
      cmin_threshold hcbuf, ?_⟩
    have h := key (genComp (0 : α) 0) addComp mulComp (stopComp sqrt cmax_threshold) crev
      (cloc.map conjComp) coutput clen_output.toNat
    rw [List.length_map] at h
    omega

/-- C26 at `rev = [1, 2, 3]`, `local = [1, 1]`, `len_output = 4`, `max_threshold = 4` (the
real run returns 2) and at a complex run with the bound disabled. -/
theorem return_value_range_witness :
    (4 : Int) ≤ (([0, 0, 0, 0] : List Int).length : Int) ∧
      (2 : Int) ≤ (([⟨0, 0⟩, ⟨0, 0⟩] : List (complex Int)).length : Int) ∧
      ((∃ r, xcorr_range (α := Int) [0, 0, 0, 0] 4 [1, 2, 3] ([1, 2, 3] : List Int).length
            [1, 1] ([1, 1] : List Int).length 4 MIN_MAGIC = some r ∧
          (r.ret = 0 ∨ (0 < r.ret ∧ r.ret < 4 ∧
            r.ret ≤ (([1, 2, 3] : List Int).length : Int) +
              (([1, 1] : List Int).length : Int) - 1))) ∧
        (∃ r, xcorr_rangeComp (α := Int) (fun x => x) [⟨0, 0⟩, ⟨0, 0⟩] 2 [⟨1, 2⟩, ⟨1, 0⟩]
            ([⟨1, 2⟩, ⟨1, 0⟩] : List (complex Int)).length [⟨3, 4⟩]
            ([⟨3, 4⟩] : List (complex Int)).length MAX_MAGIC 0 = some r ∧
          (r.ret = 0 ∨ (0 < r.ret ∧ r.ret < 2 ∧
            r.ret ≤ (([⟨1, 2⟩, ⟨1, 0⟩] : List (complex Int)).length : Int) +
              (([⟨3, 4⟩] : List (complex Int)).length : Int) - 1)))) :=
  ⟨by decide, by decide,
    return_value_range (α := Int) [0, 0, 0, 0] [1, 2, 3] [1, 1] 4 4 MIN_MAGIC
      (fun x => x) [⟨0, 0⟩, ⟨0, 0⟩] [⟨1, 2⟩, ⟨1, 0⟩] [⟨3, 4⟩] 2 MAX_MAGIC 0 (by decide)
      (by decide)⟩

end Claims9

/-! ## Linearity of the real window sums -/

section Linear
variable {α : Type} [LinearOrderedCommRing α]

theorem getD_zipWith_lin (c : α) (a b : List α) (h : a.length = b.length) (i : Nat) :
    (List.zipWith (fun x y => x + c * y) a b).getD i 0 = a.getD i 0 + c * b.getD i 0 := by
  by_cases hi : i < a.length
  · have hb : i < b.length := by omega
    have hz : i < (List.zipWith (fun x y => x + c * y) a b).length := by
      simp [List.length_zipWith]
      omega
    rw [List.getD_eq_getElem _ _ hz, List.getD_eq_getElem _ _ hi, List.getD_eq_getElem _ _ hb,
      List.getElem_zipWith]
  · have hz : (List.zipWith (fun x y => x + c * y) a b).length ≤ i := by
      simp [List.length_zipWith]
      omega
    rw [List.getD_eq_default _ _ hz, List.getD_eq_default _ _ (by omega),
      List.getD_eq_default _ _ (by omega)]
    ring

theorem posVal_lin_left (c : α) (r1 r2 l : List α) (h : r1.length = r2.length) (k : Nat) :
    posVal 0 (fun a b => a + b) (fun a b => a * b)
        (List.zipWith (fun x y => x + c * y) r1 r2) l k =
      posVal 0 (fun a b => a + b) (fun a b => a * b) r1 l k +
        c * posVal 0 (fun a b => a + b) (fun a b => a * b) r2 l k := by
  have hz : (List.zipWith (fun x y => x + c * y) r1 r2).length = r1.length := by
    simp [List.length_zipWith, h]
  unfold posVal
  rw [hz, ← h]
  split_ifs
  · ring
  · simp only [winVal_real_eq_sum, hz, ← h, getD_zipWith_lin c r1 r2 h, Finset.mul_sum,
      ← Finset.sum_add_distrib]
    apply Finset.sum_congr rfl
    intro i _
    ring

theorem posVal_lin_right (c : α) (r l1 l2 : List α) (h : l1.length = l2.length) (k : Nat) :
    posVal 0 (fun a b => a + b) (fun a b => a * b) r
        (List.zipWith (fun x y => x + c * y) l1 l2) k =
      posVal 0 (fun a b => a + b) (fun a b => a * b) r l1 k +
        c * posVal 0 (fun a b => a + b) (fun a b => a * b) r l2 k := by
  have hz : (List.zipWith (fun x y => x + c * y) l1 l2).length = l1.length := by
    simp [List.length_zipWith, h]
  unfold posVal
  rw [hz, ← h]
  split_ifs
  · ring
  · simp only [winVal_real_eq_sum, hz, ← h, getD_zipWith_lin c l1 l2 h, Finset.mul_sum,
      ← Finset.sum_add_distrib]
    apply Finset.sum_congr rfl
    intro i _
    ring

end Linear

section Claims11

/-- C25 (evaluation at the failing input). For `A = B = 65536`, `WL = 31`, `FL = 0` the
product `2^32` is narrowed to the 32-bit value 0 before the range check, so `fxpMul` returns
0, while `floor(A*B / 2^FL)` clamped to `[MIN_SFXP(31), MAX_SFXP(31)]` is
`MAX_SFXP(31) = 1073741823`. For `A = B = 70000`, `WL = 31`, `FL = 1` the narrowed value is
negative and `fxpMul` returns `MIN_SFXP(31)` for a product that is too large. -/
theorem fxpMul_narrows_before_clamping :
    fxpMul 65536 65536 31 0 = 0 ∧
      max (MIN_SFXP 31) (min (MAX_SFXP 31) (65536 * 65536 / 2 ^ (0 : Int).toNat)) =
        1073741823 ∧
      MAX_SFXP 31 = 1073741823 ∧
      fxpMul 70000 70000 31 1 = MIN_SFXP 31 ∧
      max (MIN_SFXP 31) (min (MAX_SFXP 31) (70000 * 70000 / 2 ^ (1 : Int).toNat)) =
        MAX_SFXP 31 := by
  decide

end Claims11

/-! ## Loops that write one block per iteration -/

section Blocks

theorem foldlM_blocks {β : Type} (q : Nat) (body : Nat → List β → Option (List β))
    (val : Nat → Nat → β) (n : Nat)
    (hbody : ∀ (i : Nat) (st : List β), i < n → q * i + q ≤ st.length →
      ∃ st2, body i st = some st2 ∧ st2.length = st.length ∧
        (∀ t, t < q → st2[q * i + t]? = some (val i t)) ∧
        (∀ j, (j < q * i ∨ q * i + q ≤ j) → st2[j]? = st[j]?)) :
    ∀ (m : Nat) (cl : List β), m ≤ n → q * m ≤ cl.length →
      ∃ cl2, (List.range m).foldlM (fun st (i : Nat) => body i st) cl = some cl2 ∧
        cl2.length = cl.length ∧
        (∀ i t, i < m → t < q → cl2[q * i + t]? = some (val i t)) ∧
        (∀ j, q * m ≤ j → cl2[j]? = cl[j]?) := by
  intro m
  induction m with
  | zero =>
    intro cl _ _
    exact ⟨cl, by simp, rfl, fun i t hi _ => absurd hi (by omega), fun j _ => rfl⟩
  | succ m ih =>
    intro cl hm hlen
    have hmul : q * (m + 1) = q * m + q := by ring
    obtain ⟨cl1, h1, h2, h3, h4⟩ := ih cl (by omega) (by omega)
    obtain ⟨cl2, b1, b2, b3, b4⟩ := hbody m cl1 (by omega) (by omega)
    refine ⟨cl2, ?_, by omega, ?_, ?_⟩
    · rw [List.range_succ, List.foldlM_append, h1]
      simp [b1]
    · intro i t hi ht
      by_cases him : i = m
      · subst him
        exact b3 t ht
      · have hlt : q * i + t < q * m := by
          have : q * (i + 1) ≤ q * m := Nat.mul_le_mul_left q (by omega)
          rw [Nat.mul_add, Nat.mul_one] at this
          omega
        rw [b4 _ (Or.inl hlt)]
        exact h3 i t (by omega) ht
    · intro j hj
      rw [b4 j (Or.inr (by omega)), h4 j (by omega)]

end Blocks

/-! ## Hard decisions on mapped levels -/

section Decisions
variable {α : Type} [LinearOrderedField α]

theorem hdPos_level (sq : α) (hsq : 0 < sq) (l : Int) :
    hdPos ((l : α) / sq) = if l > 0 then 1 else 0 := by
  unfold hdPos
  have h : (l : α) / sq > 0 ↔ l > 0 := by
    rw [gt_iff_lt, div_pos_iff_of_pos_right hsq]
    exact Int.cast_pos
  simp only [h]

theorem abs_level_gt (sq : α) (hsq : 0 < sq) (l c : Int) :
    |(l : α) / sq| > (c : α) / sq ↔ |l| > c := by
  rw [abs_div, abs_of_pos hsq, gt_iff_lt, div_lt_div_iff_of_pos_right hsq, ← Int.cast_abs, Int.cast_lt]

theorem abs_level_lt (sq : α) (hsq : 0 < sq) (l c : Int) :
    |(l : α) / sq| < (c : α) / sq ↔ |l| < c := by
  rw [abs_div, abs_of_pos hsq, div_lt_div_iff_of_pos_right hsq, ← Int.cast_abs, Int.cast_lt]

theorem hdAbove_level (sqrt : α → α) (n : α) (hsq : 0 < sqrt n) (l c : Int) :
    hdAbove sqrt (c : α) n ((l : α) / sqrt n) = if |l| > c then 1 else 0 := by
  unfold hdAbove
  simp only [abs_level_gt (sqrt n) hsq]

theorem hdOutside_level (sqrt : α → α) (n : α) (hsq : 0 < sqrt n) (l lo hi : Int) :
    hdOutside sqrt (lo : α) (hi : α) n ((l : α) / sqrt n) =
      if |l| > lo ∧ |l| < hi then 0 else 1 := by
  unfold hdOutside
  simp only [abs_level_gt (sqrt n) hsq, abs_level_lt (sqrt n) hsq]

theorem hdBandOrTop_level (sqrt : α → α) (n : α) (hsq : 0 < sqrt n) (l lo hi top : Int) :
    hdBandOrTop sqrt (lo : α) (hi : α) (top : α) n ((l : α) / sqrt n) =
      if (|l| > lo ∧ |l| < hi) ∨ |l| > top then 1 else 0 := by
  unfold hdBandOrTop
  simp only [abs_level_gt (sqrt n) hsq, abs_level_lt (sqrt n) hsq]

theorem hdTwoBands_level (sqrt : α → α) (n : α) (hsq : 0 < sqrt n) (l a b c d : Int) :
    hdTwoBands sqrt (a : α) (b : α) (c : α) (d : α) n ((l : α) / sqrt n) =
      if (|l| > a ∧ |l| < b) ∨ (|l| > c ∧ |l| < d) then 0 else 1 := by
  unfold hdTwoBands
  simp only [abs_level_gt (sqrt n) hsq, abs_level_lt (sqrt n) hsq]

theorem qam16_axis (sqrt : α → α) (hsq : 0 < sqrt 10) (b0 b1 : Int)
    (h0 : b0 = 0 ∨ b0 = 1) (h1 : b1 = 0 ∨ b1 = 1) :
    hdPos ((lvl16 b0 b1 : α) / sqrt 10) = b0 ∧
      hdAbove sqrt 2 10 ((lvl16 b0 b1 : α) / sqrt 10) = b1 := by
  have e2 : (2 : α) = ((2 : Int) : α) := by norm_num
  rw [e2, hdPos_level _ hsq, hdAbove_level sqrt 10 hsq]
  rcases h0 with h0 | h0 <;> rcases h1 with h1 | h1 <;> subst h0 <;> subst h1 <;> decide

theorem qam64_axis (sqrt : α → α) (hsq : 0 < sqrt 42) (b0 b1 b2 : Int)
    (h0 : b0 = 0 ∨ b0 = 1) (h1 : b1 = 0 ∨ b1 = 1) (h2 : b2 = 0 ∨ b2 = 1) :
    hdPos ((lvl64 b0 b1 b2 : α) / sqrt 42) = b0 ∧
      hdAbove sqrt 4 42 ((lvl64 b0 b1 b2 : α) / sqrt 42) = b1 ∧
      hdOutside sqrt 2 6 42 ((lvl64 b0 b1 b2 : α) / sqrt 42) = b2 := by
  have e2 : (2 : α) = ((2 : Int) : α) := by norm_num
  have e4 : (4 : α) = ((4 : Int) : α) := by norm_num
  have e6 : (6 : α) = ((6 : Int) : α) := by norm_num
  rw [e2, e4, e6, hdPos_level _ hsq, hdAbove_level sqrt 42 hsq, hdOutside_level sqrt 42 hsq]
  rcases h0 with h0 | h0 <;> rcases h1 with h1 | h1 <;> rcases h2 with h2 | h2 <;>
    subst h0 <;> subst h1 <;> subst h2 <;> decide

theorem qam256_axis (sqrt : α → α) (hsq : 0 < sqrt 170) (b0 b1 b2 b3 : Int)
    (h0 : b0 = 0 ∨ b0 = 1) (h1 : b1 = 0 ∨ b1 = 1) (h2 : b2 = 0 ∨ b2 = 1)
    (h3 : b3 = 0 ∨ b3 = 1) :
    hdPos ((lvl256 b0 b1 b2 b3 : α) / sqrt 170) = b0 ∧
      hdAbove sqrt 8 170 ((lvl256 b0 b1 b2 b3 : α) / sqrt 170) = b1 ∧
      hdBandOrTop sqrt 4 8 12 170 ((lvl256 b0 b1 b2 b3 : α) / sqrt 170) = b2 ∧
      hdTwoBands sqrt 2 6 10 14 170 ((lvl256 b0 b1 b2 b3 : α) / sqrt 170) = b3 := by
  have e2 : (2 : α) = ((2 : Int) : α) := by norm_num
  have e4 : (4 : α) = ((4 : Int) : α) := by norm_num
  have e6 : (6 : α) = ((6 : Int) : α) := by norm_num
  have e8 : (8 : α) = ((8 : Int) : α) := by norm_num
  have e10 : (10 : α) = ((10 : Int) : α) := by norm_num
  have e12 : (12 : α) = ((12 : Int) : α) := by norm_num
  have e14 : (14 : α) = ((14 : Int) : α) := by norm_num
  rw [hdPos_level _ hsq, e8, hdAbove_level sqrt 170 hsq, e4, e12,
    hdBandOrTop_level sqrt 170 hsq, e2, e6, e10, e14, hdTwoBands_level sqrt 170 hsq]
  rcases h0 with h0 | h0 <;> rcases h1 with h1 | h1 <;> rcases h2 with h2 | h2 <;>
    rcases h3 with h3 | h3 <;> subst h0 <;> subst h1 <;> subst h2 <;> subst h3 <;> decide

end Decisions

/-! ## The loop bodies of `mapQam` and `QamHd` -/

section QamSteps
variable {α : Type} [LinearOrderedField α]

theorem readAt_int {β : Type} (d : β) (a : List β) (z : Int) (k : Nat) (hz : z = (k : Int))
    (h : k < a.length) : readAt a z = some (a.getD k d) := by
  subst hz
  have hr := readAt_of_lt d a (k : Int) (by omega) (by omega)
  rwa [Int.toNat_ofNat] at hr

theorem writeAt_int {β : Type} (a : List β) (z : Int) (k : Nat) (v : β) (hz : z = (k : Int))
    (h : k < a.length) : writeAt a z v = some (a.set k v) := by
  subst hz
  exact writeAt_natCast a k v h

theorem lt_length_of_getElem? {β : Type} (st : List β) (i : Nat) (v : β)
    (hv : st[i]? = some v) : i < st.length := by
  by_contra hc
  rw [List.getElem?_eq_none (by omega)] at hv
  exact absurd hv (by simp)

theorem mapStep16_eq (sqrt : α → α) (b : List Int) (i : Nat) (hi : 4 * i + 4 ≤ b.length)
    (st : List (complex α)) (v : complex α) (hv : st[0 + i]? = some v) :
    mapStep16 sqrt b (i : Int) st = some (st.set (0 + i) (sym16 sqrt b i)) := by
  rw [Nat.zero_add] at hv ⊢
  have hlt := lt_length_of_getElem? st i v hv
  unfold mapStep16 sym16
  simp only [Option.bind_eq_bind,
    readAt_int 0 b (4 * (i : Int)) (4 * i) (by omega) (by omega),
    readAt_int 0 b (4 * (i : Int) + 1) (4 * i + 1) (by omega) (by omega),
    readAt_int 0 b (4 * (i : Int) + 2) (4 * i + 2) (by omega) (by omega),
    readAt_int 0 b (4 * (i : Int) + 3) (4 * i + 3) (by omega) (by omega),
    Option.some_bind]
  simp [writeRe, writeIm, readAt_natCast, hv, writeAt_natCast, hlt]

theorem mapStep64_eq (sqrt : α → α) (b : List Int) (i : Nat) (hi : 6 * i + 6 ≤ b.length)
    (st : List (complex α)) (v : complex α) (hv : st[0 + i]? = some v) :
    mapStep64 sqrt b (i : Int) st = some (st.set (0 + i) (sym64 sqrt b i)) := by
  rw [Nat.zero_add] at hv ⊢
  have hlt := lt_length_of_getElem? st i v hv
  unfold mapStep64 sym64
  simp only [Option.bind_eq_bind,
    readAt_int 0 b (6 * (i : Int)) (6 * i) (by omega) (by omega),
    readAt_int 0 b (6 * (i : Int) + 1) (6 * i + 1) (by omega) (by omega),
    readAt_int 0 b (6 * (i : Int) + 2) (6 * i + 2) (by omega) (by omega),
    readAt_int 0 b (6 * (i : Int) + 3) (6 * i + 3) (by omega) (by omega),
    readAt_int 0 b (6 * (i : Int) + 4) (6 * i + 4) (by omega) (by omega),
    readAt_int 0 b (6 * (i : Int) + 5) (6 * i + 5) (by omega) (by omega),
    Option.some_bind]
  simp [writeRe, writeIm, readAt_natCast, hv, writeAt_natCast, hlt]

theorem mapStep256_eq (sqrt : α → α) (b : List Int) (i : Nat) (hi : 8 * i + 8 ≤ b.length)
    (st : List (complex α)) (v : complex α) (hv : st[0 + i]? = some v) :
    mapStep256 sqrt b (i : Int) st = some (st.set (0 + i) (sym256 sqrt b i)) := by
  rw [Nat.zero_add] at hv ⊢
  have hlt := lt_length_of_getElem? st i v hv
  unfold mapStep256 sym256
  simp only [Option.bind_eq_bind,
    readAt_int 0 b (8 * (i : Int)) (8 * i) (by omega) (by omega),
    readAt_int 0 b (8 * (i : Int) + 1) (8 * i + 1) (by omega) (by omega),
    readAt_int 0 b (8 * (i : Int) + 2) (8 * i + 2) (by omega) (by omega),
    readAt_int 0 b (8 * (i : Int) + 3) (8 * i + 3) (by omega) (by omega),
    readAt_int 0 b (8 * (i : Int) + 4) (8 * i + 4) (by omega) (by omega),
    readAt_int 0 b (8 * (i : Int) + 5) (8 * i + 5) (by omega) (by omega),
    readAt_int 0 b (8 * (i : Int) + 6) (8 * i + 6) (by omega) (by omega),
    readAt_int 0 b (8 * (i : Int) + 7) (8 * i + 7) (by omega) (by omega),
    Option.some_bind]
  simp [writeRe, writeIm, readAt_natCast, hv, writeAt_natCast, hlt]

theorem hdStep16_block (sqrt : α → α) (symVec : List (complex α)) (idx : Nat) (s : complex α)
    (hs : symVec[idx]? = some s) (st : List Int) (hlen : 4 * idx + 4 ≤ st.length) :
    ∃ st2, hdStep16 sqrt symVec (idx : Int) st = some st2 ∧ st2.length = st.length ∧
      (∀ t, t < 4 → st2[4 * idx + t]? = some ((hdBits16 sqrt s).getD t 0)) ∧
      (∀ j, (j < 4 * idx ∨ 4 * idx + 4 ≤ j) → st2[j]? = st[j]?) := by
  have h0 : 4 * idx < st.length := by omega
  have h1 : 4 * idx + 1 < st.length := by omega
  have h2 : 4 * idx + 2 < st.length := by omega
  have h3 : 4 * idx + 3 < st.length := by omega
  refine ⟨(((st.set (4 * idx) (hdPos s.re)).set (4 * idx + 1) (hdAbove sqrt 2 10 s.re)).set
    (4 * idx + 2) (hdPos s.im)).set (4 * idx + 3) (hdAbove sqrt 2 10 s.im), ?_, by simp, ?_, ?_⟩
  · unfold hdStep16
    simp only [Option.bind_eq_bind, readAt_natCast, List.get?_eq_getElem?, hs, Option.some_bind]
    rw [writeAt_int st _ (4 * idx) _ (by omega) (by omega), Option.some_bind,
      writeAt_int _ _ (4 * idx + 1) _ (by omega) (by simp; omega), Option.some_bind,
      writeAt_int _ _ (4 * idx + 2) _ (by omega) (by simp; omega), Option.some_bind,
      writeAt_int _ _ (4 * idx + 3) _ (by omega) (by simp; omega)]
  · intro t ht
    interval_cases t <;> simp [hdBits16, List.getElem?_set, h0, h1, h2, h3]
  · intro j hj
    rw [List.getElem?_set_ne (by omega), List.getElem?_set_ne (by omega),
      List.getElem?_set_ne (by omega), List.getElem?_set_ne (by omega)]

theorem hdStep64_block (sqrt : α → α) (symVec : List (complex α)) (idx : Nat) (s : complex α)
    (hs : symVec[idx]? = some s) (st : List Int) (hlen : 6 * idx + 6 ≤ st.length) :
    ∃ st2, hdStep64 sqrt symVec (idx : Int) st = some st2 ∧ st2.length = st.length ∧
      (∀ t, t < 6 → st2[6 * idx + t]? = some ((hdBits64 sqrt s).getD t 0)) ∧
      (∀ j, (j < 6 * idx ∨ 6 * idx + 6 ≤ j) → st2[j]? = st[j]?) := by
  have h0 : 6 * idx < st.length := by omega
  have h1 : 6 * idx + 1 < st.length := by omega
  have h2 : 6 * idx + 2 < st.length := by omega
  have h3 : 6 * idx + 3 < st.length := by omega
  have h4 : 6 * idx + 4 < st.length := by omega
  have h5 : 6 * idx + 5 < st.length := by omega
  refine ⟨(((((st.set (6 * idx) (hdPos s.re)).set (6 * idx + 1) (hdAbove sqrt 4 42 s.re)).set
    (6 * idx + 2) (hdOutside sqrt 2 6 42 s.re)).set (6 * idx + 3) (hdPos s.im)).set
    (6 * idx + 4) (hdAbove sqrt 4 42 s.im)).set (6 * idx + 5) (hdOutside sqrt 2 6 42 s.im),
    ?_, by simp, ?_, ?_⟩
  · unfold hdStep64
    simp only [Option.bind_eq_bind, readAt_natCast, List.get?_eq_getElem?, hs, Option.some_bind]
    rw [writeAt_int st _ (6 * idx) _ (by omega) (by omega), Option.some_bind,
      writeAt_int _ _ (6 * idx + 1) _ (by omega) (by simp; omega), Option.some_bind,
      writeAt_int _ _ (6 * idx + 2) _ (by omega) (by simp; omega), Option.some_bind,
      writeAt_int _ _ (6 * idx + 3) _ (by omega) (by simp; omega), Option.some_bind,
      writeAt_int _ _ (6 * idx + 4) _ (by omega) (by simp; omega), Option.some_bind,
      writeAt_int _ _ (6 * idx + 5) _ (by omega) (by simp; omega)]
  · intro t ht
    interval_cases t <;> simp [hdBits64, List.getElem?_set, h0, h1, h2, h3, h4, h5]
  · intro j hj
    rw [List.getElem?_set_ne (by omega), List.getElem?_set_ne (by omega),
      List.getElem?_set_ne (by omega), List.getElem?_set_ne (by omega),
      List.getElem?_set_ne (by omega), List.getElem?_set_ne (by omega)]

theorem hdStep256_block (sqrt : α → α) (symVec : List (complex α)) (idx : Nat) (s : complex α)
    (hs : symVec[idx]? = some s) (st : List Int) (hlen : 8 * idx + 8 ≤ st.length) :
    ∃ st2, hdStep256 sqrt symVec (idx : Int) st = some st2 ∧ st2.length = st.length ∧
      (∀ t, t < 8 → st2[8 * idx + t]? = some ((hdBits256 sqrt s).getD t 0)) ∧
      (∀ j, (j < 8 * idx ∨ 8 * idx + 8 ≤ j) → st2[j]? = st[j]?) := by
  have h0 : 8 * idx < st.length := by omega
  have h1 : 8 * idx + 1 < st.length := by omega
  have h2 : 8 * idx + 2 < st.length := by omega
  have h3 : 8 * idx + 3 < st.length := by omega
  have h4 : 8 * idx + 4 < st.length := by omega
  have h5 : 8 * idx + 5 < st.length := by omega
  have h6 : 8 * idx + 6 < st.length := by omega
  have h7 : 8 * idx + 7 < st.length := by omega
  refine ⟨(((((((st.set (8 * idx) (hdPos s.re)).set (8 * idx + 1)
    (hdAbove sqrt 8 170 s.re)).set (8 * idx + 2) (hdBandOrTop sqrt 4 8 12 170 s.re)).set
    (8 * idx + 3) (hdTwoBands sqrt 2 6 10 14 170 s.re)).set (8 * idx + 4) (hdPos s.im)).set
    (8 * idx + 5) (hdAbove sqrt 8 170 s.im)).set (8 * idx + 6)
    (hdBandOrTop sqrt 4 8 12 170 s.im)).set (8 * idx + 7)
    (hdTwoBands sqrt 2 6 10 14 170 s.im), ?_, by simp, ?_, ?_⟩
  · unfold hdStep256
    simp only [Option.bind_eq_bind, readAt_natCast, List.get?_eq_getElem?, hs, Option.some_bind]
    rw [writeAt_int st _ (8 * idx) _ (by omega) (by omega), Option.some_bind,
      writeAt_int _ _ (8 * idx + 1) _ (by omega) (by simp; omega), Option.some_bind,
      writeAt_int _ _ (8 * idx + 2) _ (by omega) (by simp; omega), Option.some_bind,
      writeAt_int _ _ (8 * idx + 3) _ (by omega) (by simp; omega), Option.some_bind,
      writeAt_int _ _ (8 * idx + 4) _ (by omega) (by simp; omega), Option.some_bind,
      writeAt_int _ _ (8 * idx + 5) _ (by omega) (by simp; omega), Option.some_bind,
      writeAt_int _ _ (8 * idx + 6) _ (by omega) (by simp; omega), Option.some_bind,
      writeAt_int _ _ (8 * idx + 7) _ (by omega) (by simp; omega)]
  · intro t ht
    interval_cases t <;>
      simp [hdBits256, List.getElem?_set, h0, h1, h2, h3, h4, h5, h6, h7]
  · intro j hj
    rw [List.getElem?_set_ne (by omega), List.getElem?_set_ne (by omega),
      List.getElem?_set_ne (by omega), List.getElem?_set_ne (by omega),
      List.getElem?_set_ne (by omega), List.getElem?_set_ne (by omega),
      List.getElem?_set_ne (by omega), List.getElem?_set_ne (by omega)]

end QamSteps

section Chain
variable {α : Type}

theorem qam_chain (q : Nat) (hq : 0 < q)
    (mapStep : Int → List (complex α) → Option (List (complex α)))
    (hdStep : List (complex α) → Int → List Int → Option (List Int))
    (sym : Nat → complex α) (bits : complex α → List Int) (b : List Int) (s : Nat)
    (hmap : ∀ (i : Nat) (st : List (complex α)) (v : complex α), i < s →
      st[0 + i]? = some v → mapStep (i : Int) st = some (st.set (0 + i) (sym i)))
    (hhd : ∀ (symVec : List (complex α)) (idx : Nat) (c : complex α),
      symVec[idx]? = some c → ∀ st : List Int, q * idx + q ≤ st.length →
        ∃ st2, hdStep symVec (idx : Int) st = some st2 ∧ st2.length = st.length ∧
          (∀ t, t < q → st2[q * idx + t]? = some ((bits c).getD t 0)) ∧
          (∀ j, (j < q * idx ∨ q * idx + q ≤ j) → st2[j]? = st[j]?))
    (hbit : ∀ i t, i < s → t < q → (bits (sym i)).getD t 0 = b.getD (q * i + t) 0)
    (symVec : List (complex α)) (hsym : s ≤ symVec.length) (bitOut : List Int)
    (hout : q * s ≤ bitOut.length) (hlen : b.length = q * s) :
    ∃ sv out, forLoop (s : Int) mapStep symVec = some sv ∧
      forLoop (s : Int) (hdStep sv) bitOut = some out ∧ out.length = bitOut.length ∧
      (∀ j, j < q * s → out[j]? = b[j]?) ∧ (∀ j, q * s ≤ j → out[j]? = bitOut[j]?) := by
  obtain ⟨sv, m1, m2, m3⟩ := foldlM_pointwise (fun (i : Nat) st => mapStep (i : Int) st)
    (fun i _ => sym i) 0 s hmap s symVec le_rfl (by omega)
  have hsv : ∀ i, i < s → sv[i]? = some (sym i) := by
    intro i hi
    rw [m3 i, if_pos ⟨Nat.zero_le i, by omega⟩, List.getElem?_eq_getElem (by omega)]
    rfl
  obtain ⟨out, o1, o2, o3, o4⟩ := foldlM_blocks q (fun (i : Nat) st => hdStep sv (i : Int) st)
    (fun i t => b.getD (q * i + t) 0) s
    (fun i st hi hst => by
      obtain ⟨st2, a1, a2, a3, a4⟩ := hhd sv i (sym i) (hsv i hi) st hst
      exact ⟨st2, a1, a2, fun t ht => by rw [a3 t ht, hbit i t hi ht], a4⟩)
    s bitOut le_rfl hout
  refine ⟨sv, out, by simpa [forLoop] using m1, by simpa [forLoop] using o1, o2, ?_, o4⟩
  intro j hj
  have hdm : q * (j / q) + j % q = j := Nat.div_add_mod j q
  have hdiv : j / q < s := Nat.div_lt_of_lt_mul hj
  have hmod : j % q < q := Nat.mod_lt j hq
  have h := o3 (j / q) (j % q) hdiv hmod
  rw [hdm] at h
  rw [h, List.getD_eq_getElem _ _ (by omega), List.getElem?_eq_getElem (by omega)]

end Chain

section Claims13
variable {α : Type} [LinearOrderedField α]

theorem qam_symLen (log2 : α → α) (toInt : α → Int) (htoInt : ∀ n : Int, toInt (n : α) = n)
    (type lenSym : Int) (q s : Nat) (hq : 0 < q) (hlog : log2 (type : α) = (q : α))
    (lenBit : Nat) (hlen : lenBit = q * s) :
    (if (lenSym : α) ≠ ((lenBit : Int) : α) / log2 (type : α) then
      toInt (((lenBit : Int) : α) / log2 (type : α)) else lenSym) = (s : Int) := by
  have hq0 : (q : α) ≠ 0 := Nat.cast_ne_zero.mpr (by omega)
  have hdiv : ((lenBit : Int) : α) / log2 (type : α) = ((s : Int) : α) := by
    rw [hlog, hlen]
    push_cast
    rw [mul_div_cancel_left₀ _ hq0]
  rw [hdiv]
  split_ifs with h
  · exact htoInt _
  · exact Int.cast_injective (not_not.mp h)

/-- C29. For `type` one of `QAM16`, `QAM64`, `QAM256` with `q` = 4, 6, 8 bits per symbol,
an exact `log2` at `type`, an exact conversion to `int`, positive values of `sqrt` at 10, 42
and 170, a stream `b` of `q*s` bits that are 0 or 1, and arrays that are long enough:
`mapQam` returns with `*lenSym = s`, then `QamHd` on the `s` symbols returns 0 with
`bitStream[j] = b[j]` for every `j < q*s`, and `PskHd` gives the same result as `QamHd`. -/
theorem qam_hard_decision_inverts_mapping (log2 : α → α) (toInt : α → Int) (sqrt : α → α)
    (type lenSym : Int) (q s : Nat) (b : List Int) (symVec : List (complex α))
    (bitStream : List Int) (avePow : α)
    (htype : (type = QAM16 ∧ q = 4) ∨ (type = QAM64 ∧ q = 6) ∨ (type = QAM256 ∧ q = 8))
    (hlog : log2 (type : α) = (q : α)) (htoInt : ∀ n : Int, toInt (n : α) = n)
    (hsqrt : 0 < sqrt 10 ∧ 0 < sqrt 42 ∧ 0 < sqrt 170)
    (hbits : ∀ x ∈ b, x = 0 ∨ x = 1) (hlen : b.length = q * s)
    (hsym : s ≤ symVec.length) (hout : q * s ≤ bitStream.length) :
    ∃ r out, mapQam log2 toInt sqrt lenSym symVec (b.length : Int) b type avePow = some r ∧
      r.lenSym = (s : Int) ∧ r.ret = 0 ∧
      QamHd sqrt bitStream r.lenSym r.symVec type = some (out, 0) ∧
      PskHd sqrt bitStream r.lenSym r.symVec type = some (out, 0) ∧
      ∀ j, j < q * s → out[j]? = b[j]? := by
  have hB := getD_bit b hbits
  rcases htype with ⟨ht, hq⟩ | ⟨ht, hq⟩ | ⟨ht, hq⟩
  · subst hq
    have hsl := qam_symLen log2 toInt htoInt type lenSym 4 s (by omega) hlog b.length hlen
    subst ht
    obtain ⟨sv, out, c1, c2, _, c4, _⟩ := qam_chain 4 (by omega) (mapStep16 sqrt b)
      (hdStep16 sqrt) (sym16 sqrt b) (hdBits16 sqrt) b s
      (fun i st v hi hv => mapStep16_eq sqrt b i (by omega) st v hv)
      (fun sv idx c hc st hst => hdStep16_block sqrt sv idx c hc st hst)
      (fun i t _ ht => by
        have a1 := qam16_axis sqrt hsqrt.1 _ _ (hB (4 * i)) (hB (4 * i + 1))
        have a2 := qam16_axis sqrt hsqrt.1 _ _ (hB (4 * i + 2)) (hB (4 * i + 3))
        interval_cases t
        · exact a1.1
        · exact a1.2
        · exact a2.1
        · exact a2.2)
      symVec hsym bitStream hout hlen
    refine ⟨{ lenSym := s, symVec := sv, ret := 0 }, out, ?_, rfl, rfl, ?_, ?_, c4⟩
    · unfold mapQam
      simp only [hsl, if_true, c1, Option.map_some']
    · unfold QamHd
      simp only [if_true, c2, Option.map_some']
    · unfold PskHd
      simp only [show ¬ QAM16 = BPSK by decide, show ¬ QAM16 = QPSK by decide,
        show ¬ QAM16 = PSK8 by decide, if_false, if_true, c2, Option.map_some']
  · subst hq
    have hsl := qam_symLen log2 toInt htoInt type lenSym 6 s (by omega) hlog b.length hlen
    subst ht
    obtain ⟨sv, out, c1, c2, _, c4, _⟩ := qam_chain 6 (by omega) (mapStep64 sqrt b)
      (hdStep64 sqrt) (sym64 sqrt b) (hdBits64 sqrt) b s
      (fun i st v hi hv => mapStep64_eq sqrt b i (by omega) st v hv)
      (fun sv idx c hc st hst => hdStep64_block sqrt sv idx c hc st hst)
      (fun i t _ ht => by
        have a1 := qam64_axis sqrt hsqrt.2.1 _ _ _ (hB (6 * i)) (hB (6 * i + 1))
          (hB (6 * i + 2))
        have a2 := qam64_axis sqrt hsqrt.2.1 _ _ _ (hB (6 * i + 3)) (hB (6 * i + 4))
          (hB (6 * i + 5))
        interval_cases t
        · exact a1.1
        · exact a1.2.1
        · exact a1.2.2
        · exact a2.1
        · exact a2.2.1
        · exact a2.2.2)
      symVec hsym bitStream hout hlen
    refine ⟨{ lenSym := s, symVec := sv, ret := 0 }, out, ?_, rfl, rfl, ?_, ?_, c4⟩
    · unfold mapQam
      simp only [hsl, show ¬ QAM64 = QAM16 by decide, if_false, if_true, c1, Option.map_some']
    · unfold QamHd
      simp only [show ¬ QAM64 = QAM16 by decide, if_false, if_true, c2, Option.map_some']
    · unfold PskHd
      simp only [show ¬ QAM64 = BPSK by decide, show ¬ QAM64 = QPSK by decide,
        show ¬ QAM64 = PSK8 by decide, show ¬ QAM64 = QAM16 by decide, if_false, if_true, c2,
        Option.map_some']
  · subst hq
    have hsl := qam_symLen log2 toInt htoInt type lenSym 8 s (by omega) hlog b.length hlen
    subst ht
    obtain ⟨sv, out, c1, c2, _, c4, _⟩ := qam_chain 8 (by omega) (mapStep256 sqrt b)
      (hdStep256 sqrt) (sym256 sqrt b) (hdBits256 sqrt) b s
      (fun i st v hi hv => mapStep256_eq sqrt b i (by omega) st v hv)
      (fun sv idx c hc st hst => hdStep256_block sqrt sv idx c hc st hst)
      (fun i t _ ht => by
        have a1 := qam256_axis sqrt hsqrt.2.2 _ _ _ _ (hB (8 * i)) (hB (8 * i + 1))
          (hB (8 * i + 2)) (hB (8 * i + 3))
        have a2 := qam256_axis sqrt hsqrt.2.2 _ _ _ _ (hB (8 * i + 4)) (hB (8 * i + 5))
          (hB (8 * i + 6)) (hB (8 * i + 7))
        interval_cases t
        · exact a1.1
        · exact a1.2.1
        · exact a1.2.2.1
        · exact a1.2.2.2
        · exact a2.1
        · exact a2.2.1
        · exact a2.2.2.1
        · exact a2.2.2.2)
      symVec hsym bitStream hout hlen
    refine ⟨{ lenSym := s, symVec := sv, ret := 0 }, out, ?_, rfl, rfl, ?_, ?_, c4⟩
    · unfold mapQam
      simp only [hsl, show ¬ QAM256 = QAM16 by decide, show ¬ QAM256 = QAM64 by decide,
        if_false, if_true, c1, Option.map_some']
    · unfold QamHd
      simp only [show ¬ QAM256 = QAM16 by decide, show ¬ QAM256 = QAM64 by decide, if_false,
        if_true, c2, Option.map_some']
    · unfold PskHd
      simp only [show ¬ QAM256 = BPSK by decide, show ¬ QAM256 = QPSK by decide,
        show ¬ QAM256 = PSK8 by decide, show ¬ QAM256 = QAM16 by decide,
        show ¬ QAM256 = QAM64 by decide, if_false, if_true, c2, Option.map_some']

/-- C29 at `QAM16`, one symbol, the bits `[1, 0, 0, 1]`, with `sqrt` constantly 3 and
`log2 16 = 4` over the rationals. -/
theorem qam_hard_decision_inverts_mapping_witness :
    (fun (_ : ℚ) => (4 : ℚ)) ((QAM16 : Int) : ℚ) = ((4 : Nat) : ℚ) ∧
      (∀ n : Int, (fun (x : ℚ) => ⌊x⌋) (n : ℚ) = n) ∧
      (∀ x ∈ ([1, 0, 0, 1] : List Int), x = 0 ∨ x = 1) ∧
      ([1, 0, 0, 1] : List Int).length = 4 * 1 ∧
      (∃ r out, mapQam (fun (_ : ℚ) => (4 : ℚ)) (fun (x : ℚ) => ⌊x⌋) (fun (_ : ℚ) => (3 : ℚ)) 0
          [⟨0, 0⟩] (([1, 0, 0, 1] : List Int).length : Int) [1, 0, 0, 1] QAM16 1 = some r ∧
        r.lenSym = ((1 : Nat) : Int) ∧ r.ret = 0 ∧
        QamHd (fun (_ : ℚ) => (3 : ℚ)) [7, 7, 7, 7, 7] r.lenSym r.symVec QAM16 =
          some (out, 0) ∧
        PskHd (fun (_ : ℚ) => (3 : ℚ)) [7, 7, 7, 7, 7] r.lenSym r.symVec QAM16 =
          some (out, 0) ∧
        ∀ j, j < 4 * 1 → out[j]? = ([1, 0, 0, 1] : List Int)[j]?) :=
  ⟨by norm_num, fun n => Int.floor_intCast n, by decide, by decide,
    qam_hard_decision_inverts_mapping (fun (_ : ℚ) => (4 : ℚ)) (fun (x : ℚ) => ⌊x⌋)
      (fun (_ : ℚ) => (3 : ℚ)) QAM16 0 4 1 [1, 0, 0, 1] [⟨0, 0⟩] [7, 7, 7, 7, 7] 1
      (Or.inl ⟨rfl, rfl⟩) (by norm_num) (fun n => Int.floor_intCast n)
      ⟨by norm_num, by norm_num, by norm_num⟩ (by decide) (by decide) (by decide)
      (by decide)⟩

end Claims13

/-! ## Exact operations of `double` on integers -/

section Exact
open double
set_option exponentiation.threshold 5000

theorem log2Search_le (k n : Nat) : ∀ acc, 2 ^ acc ≤ n → 2 ^ log2Search k n acc ≤ n := by
  induction k with
  | zero => intro acc h; exact h
  | succ k ih =>
    intro acc h
    unfold log2Search
    split_ifs with hc
    · exact ih _ hc
    · exact ih _ h

theorem bitLen_le (n t : Nat) (h : n < 2 ^ t) : bitLen n ≤ t := by
  unfold bitLen
  split_ifs with h0
  · exact Nat.zero_le t
  · have h1 := log2Search_le 13 n 0 (by simpa using Nat.one_le_iff_ne_zero.mpr h0)
    have h2 : 2 ^ log2Search 13 n 0 < 2 ^ t := lt_of_le_of_lt h1 h
    have h3 := (Nat.pow_lt_pow_iff_right (by norm_num : 1 < 2)).mp h2
    omega

theorem roundMag_exact (K sh e : Nat) (hK : K < 2 ^ 53) :
    roundMag (K * 2 ^ (sh + e)) sh = K * 2 ^ e := by
  have hlt : K * 2 ^ (sh + e) < 2 ^ (53 + (sh + e)) := by
    rw [pow_add 2 53]
    exact Nat.mul_lt_mul_of_pos_right hK (Nat.two_pow_pos _)
  have hb := bitLen_le _ _ hlt
  unfold roundMag
  generalize hd : max sh (bitLen (K * 2 ^ (sh + e)) - 53) = d
  have hd1 : sh ≤ d := by rw [← hd]; exact le_max_left _ _
  have hd2 : d ≤ sh + e := by
    rw [← hd]
    exact max_le (by omega) (by omega)
  have hsplit : K * 2 ^ (sh + e) = K * 2 ^ (sh + e - d) * 2 ^ d := by
    rw [Nat.mul_assoc, ← pow_add]
    congr 2
    omega
  have hpos : 0 < 2 ^ d := Nat.two_pow_pos _
  simp only [hsplit, Nat.mul_mod_left, Nat.mul_div_cancel _ hpos, Nat.mul_zero]
  have hne : ¬ (2 ^ d < 0 ∨ (0 = 2 ^ d ∧ K * 2 ^ (sh + e - d) % 2 = 1)) := by
    rintro (h | ⟨h, _⟩) <;> omega
  rw [if_neg hne, Nat.mul_assoc, ← pow_add]
  congr 2
  omega

theorem unit_pos : 0 < unit := by
  unfold unit
  exact Nat.two_pow_pos 1074

theorem unit_lt_huge (K : Nat) (hK : K < 2 ^ 53) : K * unit < huge := by
  have h1 : K * unit < 2 ^ 53 * unit := Nat.mul_lt_mul_of_pos_right hK unit_pos
  have h2 : 2 ^ 53 * unit ≤ huge := by
    unfold unit huge
    calc 2 ^ 53 * 2 ^ 1074 = 2 ^ (53 + 1074) := (pow_add 2 53 1074).symm
      _ ≤ 2 ^ 2098 := Nat.pow_le_pow_right (by decide) (by decide)
  exact lt_of_lt_of_le h1 h2

theorem roundEven_exact (s : Bool) (K sh : Nat) (hK : K < 2 ^ 53) :
    roundEven s (K * 2 ^ sh * unit) sh = fin s (K * unit) := by
  have e : K * 2 ^ sh * unit = K * 2 ^ (sh + 1074) := by
    unfold unit
    rw [Nat.mul_assoc, ← pow_add]
  have e2 : K * 2 ^ 1074 = K * unit := rfl
  unfold roundEven
  rw [e, roundMag_exact K sh 1074 hK, e2, if_neg (Nat.not_le.mpr (unit_lt_huge K hK))]

theorem roundEven_units (s : Bool) (K : Nat) (hK : K < 2 ^ 53) :
    roundEven s (K * unit) 0 = fin s (K * unit) := by
  have h := roundEven_exact s K 0 hK
  rwa [pow_zero, Nat.mul_one] at h

theorem roundEven_product (s : Bool) (K : Nat) (hK : K < 2 ^ 53) :
    roundEven s (K * unit * unit) 1074 = fin s (K * unit) :=
  roundEven_exact s K 1074 hK

theorem ofInt_eq (n : Int) (h : n.natAbs < 2 ^ 53) :
    ofInt n = fin (decide (n < 0)) (n.natAbs * unit) :=
  roundEven_units _ _ h

theorem sval_natAbs (n : Int) (Q : Nat) :
    sval (decide (n < 0)) (n.natAbs * Q) = n * (Q : Int) := by
  unfold sval
  by_cases h : n < 0
  · simp only [h, decide_True, if_true]
    push_cast
    rw [abs_of_neg h]
    ring
  · simp only [h, decide_False, Bool.false_eq_true, if_false]
    push_cast
    rw [abs_of_nonneg (not_lt.mp h)]

theorem sval_zero (s : Bool) : sval s 0 = 0 := by
  cases s <;> simp [sval]

theorem sval_natAbs_eq (s : Bool) (m : Nat) : (sval s m).natAbs = m := by
  cases s <;> simp [sval]

theorem sval_sign (s : Bool) (m : Nat) (h : sval s m ≠ 0) : s = decide (sval s m < 0) := by
  unfold sval at h ⊢
  cases s
  · have : ¬ ((m : Int) < 0) := by omega
    simp [this]
  · simp only [if_true] at h ⊢
    have : (-(m : Int) < 0) := by omega
    simp [this]

theorem mul_unit_neg_iff (x : Int) : x * (unit : Int) < 0 ↔ x < 0 := by
  have hu : (0 : Int) < (unit : Int) := by exact_mod_cast unit_pos
  constructor
  · intro h
    by_contra hc
    have : 0 ≤ x * (unit : Int) := mul_nonneg (not_lt.mp hc) (le_of_lt hu)
    omega
  · intro h
    exact mul_neg_of_neg_of_pos h hu

theorem mul_unit_eq_zero_iff (x : Int) : x * (unit : Int) = 0 ↔ x = 0 := by
  have hu : (unit : Int) ≠ 0 := by
    have := unit_pos
    omega
  constructor
  · intro h
    rcases mul_eq_zero.mp h with h1 | h1
    · exact h1
    · exact absurd h1 hu
  · intro h
    rw [h, zero_mul]

theorem rep_ofInt (n : Int) (h : n.natAbs < 2 ^ 53) : rep (ofInt n) n :=
  ⟨decide (n < 0), n.natAbs * unit, ofInt_eq n h, sval_natAbs n unit⟩

theorem roundEven_zero (s : Bool) (sh : Nat) : roundEven s 0 sh = fin s 0 := by
  have h := roundEven_exact s 0 sh (Nat.two_pow_pos 53)
  simp only [Nat.zero_mul] at h
  exact h

/-- The sum of two finite values is the rounded exact sum; an exact zero is
negative only when both terms are. -/
theorem add_fin (s t : Bool) (a b : Nat) :
    double.add (fin s a) (fin t b) =
      if sval s a + sval t b = 0 then fin (s && t) 0
      else roundEven (decide (sval s a + sval t b < 0)) (sval s a + sval t b).natAbs 0 := by
  unfold double.add sval
  cases s <;> cases t <;> simp only [Bool.false_eq_true, if_false, if_true, Bool.and_self,
    Bool.and_false, Bool.false_and, Bool.true_and, Bool.and_true, reduceCtorEq]
  · by_cases h0 : (a : Int) + (b : Int) = 0
    · have ha : a = 0 := by omega
      have hb : b = 0 := by omega
      subst ha; subst hb
      simp [roundEven_zero]
    · have hn : ¬ ((a : Int) + (b : Int) < 0) := by omega
      have e : ((a : Int) + (b : Int)).natAbs = a + b := by omega
      simp [h0, hn, e]
  · by_cases h1 : b < a
    · have h0 : ¬ ((a : Int) + -(b : Int) = 0) := by omega
      have hn : ¬ ((a : Int) + -(b : Int) < 0) := by omega
      have e : ((a : Int) + -(b : Int)).natAbs = a - b := by omega
      simp [h1, h0, hn, e]
    · by_cases h2 : a < b
      · have h0 : ¬ ((a : Int) + -(b : Int) = 0) := by omega
        have hn : ((a : Int) + -(b : Int) < 0) := by omega
        have e : ((a : Int) + -(b : Int)).natAbs = b - a := by omega
        simp [h1, h2, h0, hn, e]
      · have h0 : ((a : Int) + -(b : Int) = 0) := by omega
        simp [h1, h2, h0]
  · by_cases h1 : b < a
    · have h0 : ¬ (-(a : Int) + (b : Int) = 0) := by omega
      have hn : (-(a : Int) + (b : Int) < 0) := by omega
      have e : (-(a : Int) + (b : Int)).natAbs = a - b := by omega
      simp [h1, h0, hn, e]
    · by_cases h2 : a < b
      · have h0 : ¬ (-(a : Int) + (b : Int) = 0) := by omega
        have hn : ¬ (-(a : Int) + (b : Int) < 0) := by omega
        have e : (-(a : Int) + (b : Int)).natAbs = b - a := by omega
        simp [h1, h2, h0, hn, e]
      · have h0 : (-(a : Int) + (b : Int) = 0) := by omega
        simp [h1, h2, h0]
  · by_cases h0 : -(a : Int) + -(b : Int) = 0
    · have ha : a = 0 := by omega
      have hb : b = 0 := by omega
      subst ha; subst hb
      simp [roundEven_zero]
    · have hn : (-(a : Int) + -(b : Int) < 0) := by omega
      have e : (-(a : Int) + -(b : Int)).natAbs = a + b := by omega
      simp [h0, hn, e]

/-- Rounding the signed number of units `z * unit` of an integer `z` below `2^53`
is exact. -/
theorem roundEven_int (z : Int) (hz : z.natAbs < 2 ^ 53) :
    roundEven (decide (z * (unit : Int) < 0)) (z * (unit : Int)).natAbs 0 =
      fin (decide (z < 0)) (z.natAbs * unit) := by
  have hab : (z * (unit : Int)).natAbs = z.natAbs * unit := by
    rw [Int.natAbs_mul, Int.natAbs_ofNat]
  have hsg : decide (z * (unit : Int) < 0) = decide (z < 0) := by
    congr 1
    exact propext (mul_unit_neg_iff z)
  rw [hab, hsg, roundEven_units _ _ hz]

theorem rep_add (a b : double) (x y : Int) (ha : rep a x) (hb : rep b y)
    (h : (x + y).natAbs < 2 ^ 53) : rep (a + b) (x + y) := by
  obtain ⟨s, m, rfl, hs⟩ := ha
  obtain ⟨t, k, rfl, ht⟩ := hb
  show rep (double.add (fin s m) (fin t k)) (x + y)
  rw [add_fin, hs, ht, ← add_mul]
  by_cases h0 : x + y = 0
  · rw [h0]
    simp only [zero_mul, if_true]
    exact ⟨_, _, rfl, by rw [sval_zero, zero_mul]⟩
  · rw [if_neg (fun hc => h0 ((mul_unit_eq_zero_iff _).mp hc)), roundEven_int _ h]
    exact ⟨_, _, rfl, sval_natAbs _ unit⟩

/-- Adding a value that holds the integer `n` to the converted integer `a` gives
the converted sum, also when the sum is zero. -/
theorem add_ofInt_rep (a n : Int) (d : double) (ha : a.natAbs < 2 ^ 53) (hd : rep d n)
    (h : (a + n).natAbs < 2 ^ 53) : ofInt a + d = ofInt (a + n) := by
  obtain ⟨t, k, rfl, ht⟩ := hd
  rw [ofInt_eq a ha, ofInt_eq (a + n) h]
  show double.add (fin (decide (a < 0)) (a.natAbs * unit)) (fin t k) = _
  rw [add_fin, sval_natAbs, ht, ← add_mul]
  by_cases h0 : a + n = 0
  · rw [h0]
    simp only [zero_mul, if_true, lt_self_iff_false, decide_False, Int.natAbs_zero]
    congr 1
    by_cases ha0 : a < 0
    · have hn : 0 < n := by omega
      have hk : sval t k ≠ 0 := by
        rw [ht]
        intro hc
        have := (mul_unit_eq_zero_iff n).mp hc
        omega
      have hsg := sval_sign t k hk
      rw [ht] at hsg
      have : ¬ (n * (unit : Int) < 0) := by
        rw [mul_unit_neg_iff]
        omega
      simp [hsg, this]
    · simp [ha0]
  · rw [if_neg (fun hc => h0 ((mul_unit_eq_zero_iff _).mp hc)), roundEven_int _ h]

theorem rep_neg (a : double) (x : Int) (ha : rep a x) : rep (-a) (-x) := by
  obtain ⟨s, m, rfl, hs⟩ := ha
  refine ⟨!s, m, rfl, ?_⟩
  rw [neg_mul, ← hs]
  cases s <;> simp [sval]

theorem rep_sub (a b : double) (x y : Int) (ha : rep a x) (hb : rep b y)
    (h : (x - y).natAbs < 2 ^ 53) : rep (a - b) (x - y) := by
  have h2 := rep_add a (-b) x (-y) ha (rep_neg b y hb) (by rwa [← sub_eq_add_neg])
  rwa [← sub_eq_add_neg] at h2

theorem rep_mul (a b : double) (x y : Int) (ha : rep a x) (hb : rep b y)
    (h : (x * y).natAbs < 2 ^ 53) : rep (a * b) (x * y) := by
  obtain ⟨s, m, rfl, hs⟩ := ha
  obtain ⟨t, k, rfl, ht⟩ := hb
  show rep (double.mul (fin s m) (fin t k)) (x * y)
  have hm : m = x.natAbs * unit := by
    have := congrArg Int.natAbs hs
    rwa [sval_natAbs_eq, Int.natAbs_mul, Int.natAbs_ofNat] at this
  have hk : k = y.natAbs * unit := by
    have := congrArg Int.natAbs ht
    rwa [sval_natAbs_eq, Int.natAbs_mul, Int.natAbs_ofNat] at this
  have hp : m * k = (x * y).natAbs * unit * unit := by
    rw [hm, hk, Int.natAbs_mul]
    ring
  unfold double.mul
  simp only
  rw [hp, roundEven_product _ _ h]
  refine ⟨_, _, rfl, ?_⟩
  by_cases h0 : x * y = 0
  · rw [h0]
    simp [sval_zero]
  · have hx : x ≠ 0 := fun hc => h0 (by rw [hc, zero_mul])
    have hy : y ≠ 0 := fun hc => h0 (by rw [hc, mul_zero])
    have hsx := sval_sign s m (by rw [hs]; exact fun hc => hx ((mul_unit_eq_zero_iff x).mp hc))
    have hsy := sval_sign t k (by rw [ht]; exact fun hc => hy ((mul_unit_eq_zero_iff y).mp hc))
    rw [hs] at hsx
    rw [ht] at hsy
    have hxor : xor s t = decide (x * y < 0) := by
      rw [hsx, hsy]
      have e1 : decide (x * (unit : Int) < 0) = decide (x < 0) := by
        congr 1
        exact propext (mul_unit_neg_iff x)
      have e2 : decide (y * (unit : Int) < 0) = decide (y < 0) := by
        congr 1
        exact propext (mul_unit_neg_iff y)
      rw [e1, e2]
      rcases lt_or_gt_of_ne hx with h1 | h1 <;> rcases lt_or_gt_of_ne hy with h2 | h2
      · have : ¬ (x * y < 0) := not_lt.mpr (le_of_lt (mul_pos_of_neg_of_neg h1 h2))
        simp [h1, h2, this]
      · have : x * y < 0 := mul_neg_of_neg_of_pos h1 h2
        have h3 : ¬ (y < 0) := by omega
        simp [h1, h3, this]
      · have : x * y < 0 := mul_neg_of_pos_of_neg h1 h2
        have h3 : ¬ (x < 0) := by omega
        simp [h2, h3, this]
      · have : ¬ (x * y < 0) := not_lt.mpr (le_of_lt (mul_pos h1 h2))
        have h3 : ¬ (x < 0) := by omega
        have h4 : ¬ (y < 0) := by omega
        simp [h3, h4, this]
    rw [hxor]
    exact sval_natAbs _ unit

end Exact

/-! ## The `double` engines as reference loops -/

section LinkDouble
open double

theorem b64_corrWindow_eq_gWindow (rev : List double) (len_rev : Int) (loc : List double)
    (len_local : Int) (oBuff : Int) (output : List double) :
    Binary64.corrWindow rev len_rev loc len_local oBuff output =
      gWindow (fun a b => a + b) (fun a b => a * b) rev len_rev loc len_local oBuff output := by
  unfold Binary64.corrWindow gWindow winBound winRev winLoc
  split_ifs <;> rfl

theorem b64_corrWindowComp_eq_gWindow (rev : List (complex double)) (len_rev : Int)
    (loc : List (complex double)) (len_local : Int) (oBuff : Int)
    (output : List (complex double)) :
    Binary64.corrWindowComp rev len_rev loc len_local oBuff output =
      gWindow Binary64.addComp Binary64.mulComp rev len_rev loc len_local oBuff output := by
  unfold Binary64.corrWindowComp gWindow winBound winRev winLoc
  split_ifs <;> rfl

theorem b64_xcorr_loop_eq_gLoop (rev : List double) (len_rev : Int) (loc : List double)
    (len_local : Int) (max_threshold min_threshold : double) :
    ∀ (r : Nat) (oBuff : Int) (output : List double),
      Binary64.xcorr_loop rev len_rev loc len_local max_threshold min_threshold r oBuff output =
        gLoop 0 (fun a b => a + b) (fun a b => a * b)
          (Binary64.stopReal max_threshold min_threshold)
          rev len_rev loc len_local r oBuff output := by
  intro r
  induction r with
  | zero => intro _ _; rfl
  | succ r ih =>
    intro oBuff output
    simp only [Binary64.xcorr_loop, gLoop, ih, b64_corrWindow_eq_gWindow, Binary64.stopReal]

theorem b64_xcorr_loopComp_eq_gLoop (sqrt : double → double) (pow : double → double → double)
    (rev : List (complex double)) (len_rev : Int) (loc : List (complex double))
    (len_local : Int) (max_threshold : double) :
    ∀ (r : Nat) (oBuff : Int) (output : List (complex double)),
      Binary64.xcorr_loopComp sqrt pow rev len_rev loc len_local max_threshold r oBuff output =
        gLoop (Binary64.genComp 0 0) Binary64.addComp Binary64.mulComp
          (Binary64.stopComp sqrt pow max_threshold) rev len_rev loc len_local r oBuff
          output := by
  intro r
  induction r with
  | zero => intro _ _; rfl
  | succ r ih =>
    intro oBuff output
    simp only [Binary64.xcorr_loopComp, gLoop, ih, b64_corrWindowComp_eq_gWindow,
      Binary64.stopComp]

theorem b64_conjLocal_eq (loc : List (complex double)) :
    Binary64.conjLocal loc loc.length = some (loc.map Binary64.conjComp) := by
  unfold Binary64.conjLocal forLoop
  have h := foldlM_copy Binary64.conjComp loc loc.length
    (List.replicate loc.length (Binary64.genComp 0 0)) le_rfl (by simp)
  simpa using h

set_option exponentiation.threshold 5000 in
set_option maxRecDepth 100000 in
theorem b64_magic_disabled :
    double.ne Binary64.MAX_MAGIC Binary64.MAX_MAGIC = false ∧
      double.ne Binary64.MIN_MAGIC Binary64.MIN_MAGIC = false := by
  decide

theorem b64_stopReal_disabled (v : double) :
    Binary64.stopReal Binary64.MAX_MAGIC Binary64.MIN_MAGIC v = false := by
  simp [Binary64.stopReal, b64_magic_disabled.1, b64_magic_disabled.2]

theorem b64_stopComp_disabled (sqrt : double → double) (pow : double → double → double)
    (v : complex double) : Binary64.stopComp sqrt pow Binary64.MAX_MAGIC v = false := by
  simp [Binary64.stopComp, b64_magic_disabled.1]

theorem b64_xcorr_get (output : List double) (len_output : Int) (rev loc : List double)
    (hbuf : len_output ≤ (output.length : Int)) :
    ∃ r, Binary64.xcorr output len_output rev rev.length loc loc.length = some r ∧
      r.exit = Exit.completed ∧ r.output.length = output.length ∧
      ∀ k : Nat, (k : Int) < len_output →
        r.output[k]? = some (posVal 0 (fun a b => a + b) (fun a b => a * b) rev loc k) := by
  refine ⟨refLoop 0 (fun a b => a + b) (fun a b => a * b)
      (Binary64.stopReal Binary64.MAX_MAGIC Binary64.MIN_MAGIC) rev loc len_output.toNat 0 output,
    ?_, refLoop_never_completed _ _ _ _ _ _ b64_stopReal_disabled _ _ _,
    refLoop_length _ _ _ _ _ _ _ _ _,
    fun k hk => refLoop_never_written _ _ _ _ _ _ b64_stopReal_disabled _ 0 output k
      (Nat.zero_le k) (by omega) (by omega)⟩
  unfold Binary64.xcorr Binary64.xcorr_range
  rw [b64_xcorr_loop_eq_gLoop]
  have h := gLoop_eq_refLoop (0 : double) (fun a b => a + b) (fun a b => a * b)
    (Binary64.stopReal Binary64.MAX_MAGIC Binary64.MIN_MAGIC) rev loc len_output.toNat 0 output
    (by omega)
  simpa using h

theorem b64_xcorr_rangeComp_get (sqrt : double → double) (pow : double → double → double)
    (output : List (complex double)) (len_output : Int) (rev loc : List (complex double))
    (min_threshold : double) (hbuf : len_output ≤ (output.length : Int)) :
    ∃ r, Binary64.xcorr_rangeComp sqrt pow output len_output rev rev.length loc loc.length
          Binary64.MAX_MAGIC min_threshold = some r ∧
      r.exit = Exit.completed ∧ r.output.length = output.length ∧
      ∀ k : Nat, (k : Int) < len_output →
        r.output[k]? = some (posVal (Binary64.genComp 0 0) Binary64.addComp Binary64.mulComp
          rev (loc.map Binary64.conjComp) k) := by
  refine ⟨refLoop (Binary64.genComp 0 0) Binary64.addComp Binary64.mulComp
      (Binary64.stopComp sqrt pow Binary64.MAX_MAGIC) rev (loc.map Binary64.conjComp)
      len_output.toNat 0 output,
    ?_, refLoop_never_completed _ _ _ _ _ _ (b64_stopComp_disabled sqrt pow) _ _ _,
    refLoop_length _ _ _ _ _ _ _ _ _,
    fun k hk => refLoop_never_written _ _ _ _ _ _ (b64_stopComp_disabled sqrt pow) _ 0 output k
      (Nat.zero_le k) (by omega) (by omega)⟩
  unfold Binary64.xcorr_rangeComp
  rw [b64_conjLocal_eq]
  simp only [Option.bind_eq_bind, Option.some_bind]
  rw [b64_xcorr_loopComp_eq_gLoop]
  have h := gLoop_eq_refLoop (Binary64.genComp 0 0) Binary64.addComp Binary64.mulComp
    (Binary64.stopComp sqrt pow Binary64.MAX_MAGIC) rev (loc.map Binary64.conjComp)
    len_output.toNat 0 output (by omega)
  simpa using h

end LinkDouble

/-! ## Integer-valued signals: the `double` engine computes the exact sums -/

section Transfer
open double

theorem natAbs_mul_le (x y : Int) (A B : Nat) (hx : x.natAbs ≤ A) (hy : y.natAbs ≤ B) :
    (x * y).natAbs ≤ A * B := by
  rw [Int.natAbs_mul]
  exact Nat.mul_le_mul hx hy

theorem getD_natAbs_le (l : List Int) (A : Nat) (h : ∀ x ∈ l, x.natAbs ≤ A) (i : Nat) :
    (l.getD i 0).natAbs ≤ A := by
  by_cases hi : i < l.length
  · rw [List.getD_eq_getElem _ _ hi]
    exact h _ (List.getElem_mem _)
  · rw [List.getD_eq_default _ _ (by omega)]
    exact Nat.zero_le A

theorem winBound_le_min (m n k : Nat) : (winBound m n k).toNat ≤ min m n := by
  unfold winBound
  split_ifs <;> omega

theorem zero_eq_ofInt : (0 : double) = ofInt 0 :=
  rfl

theorem foldl_range_congr {β : Type} (F G : β → Nat → β) :
    ∀ (n : Nat) (a : β), (∀ acc i, i < n → F acc i = G acc i) →
      (List.range n).foldl F a = (List.range n).foldl G a := by
  intro n
  induction n with
  | zero => intro a _; rfl
  | succ n ih =>
    intro a h
    rw [List.range_succ, List.foldl_append, List.foldl_append,
      ih a (fun acc i hi => h acc i (Nat.lt_succ_of_lt hi))]
    simp only [List.foldl_cons, List.foldl_nil]
    exact h _ n (Nat.lt_succ_self n)

theorem foldl_mac_exact (f g : Nat → Int) (P : Nat) :
    ∀ (n : Nat) (a : Int),
      (∀ i, i < n → (f i).natAbs < 2 ^ 53 ∧ (g i).natAbs < 2 ^ 53 ∧ (f i * g i).natAbs ≤ P) →
      a.natAbs + n * P < 2 ^ 53 →
      (List.range n).foldl (fun acc (i : Nat) => acc + ofInt (f i) * ofInt (g i)) (ofInt a) =
          ofInt ((List.range n).foldl (fun acc (i : Nat) => acc + f i * g i) a) ∧
        ((List.range n).foldl (fun acc (i : Nat) => acc + f i * g i) a).natAbs ≤
          a.natAbs + n * P := by
  intro n
  induction n with
  | zero =>
    intro a _ _
    simp only [List.range_zero, List.foldl_nil, Nat.zero_mul, Nat.add_zero, le_refl, and_self]
  | succ n ih =>
    intro a h hb
    have e : (n + 1) * P = n * P + P := by ring
    rw [e] at hb ⊢
    obtain ⟨h1, h2⟩ := ih a (fun i hi => h i (Nat.lt_succ_of_lt hi)) (by omega)
    obtain ⟨hf, hg, hp⟩ := h n (Nat.lt_succ_self n)
    rw [List.range_succ, List.foldl_append, List.foldl_append, h1]
    simp only [List.foldl_cons, List.foldl_nil]
    have hsum : ((List.range n).foldl (fun acc (i : Nat) => acc + f i * g i) a +
        f n * g n).natAbs ≤ a.natAbs + (n * P + P) := by omega
    refine ⟨?_, hsum⟩
    exact add_ofInt_rep _ _ _ (by omega)
      (rep_mul _ _ _ _ (rep_ofInt _ hf) (rep_ofInt _ hg) (by omega)) (by omega)

theorem posVal_exact (rev loc : List Int) (A B : Nat) (hA : ∀ x ∈ rev, x.natAbs ≤ A)
    (hB : ∀ y ∈ loc, y.natAbs ≤ B) (hA53 : A < 2 ^ 53) (hB53 : B < 2 ^ 53)
    (hW : min rev.length loc.length * (A * B) < 2 ^ 53) (k : Nat) :
    posVal (0 : double) (fun a b => a + b) (fun a b => a * b) (rev.map ofInt)
        (loc.map ofInt) k =
      ofInt (posVal (0 : Int) (fun a b => a + b) (fun a b => a * b) rev loc k) ∧
    (posVal (0 : Int) (fun a b => a + b) (fun a b => a * b) rev loc k).natAbs ≤
      min rev.length loc.length * (A * B) := by
  unfold posVal
  simp only [List.length_map]
  split_ifs with hk
  · exact ⟨rfl, by simp⟩
  · unfold winVal
    simp only [List.length_map, zero_eq_ofInt, List.getD_map]
    have hn := winBound_le_min rev.length loc.length k
    have hnP : (winBound rev.length loc.length k).toNat * (A * B) ≤
        min rev.length loc.length * (A * B) := Nat.mul_le_mul_right _ hn
    obtain ⟨h1, h2⟩ := foldl_mac_exact
      (fun i => rev.getD (winRev rev.length loc.length k (i : Int)).toNat 0)
      (fun i => loc.getD (winLoc rev.length loc.length k (i : Int)).toNat 0) (A * B)
      (winBound rev.length loc.length k).toNat 0
      (fun i _ => ⟨lt_of_le_of_lt (getD_natAbs_le rev A hA _) hA53,
        lt_of_le_of_lt (getD_natAbs_le loc B hB _) hB53,
        natAbs_mul_le _ _ A B (getD_natAbs_le rev A hA _) (getD_natAbs_le loc B hB _)⟩)
      (by simp only [Int.natAbs_zero]; omega)
    refine ⟨h1, ?_⟩
    simp only [Int.natAbs_zero] at h2
    omega

end Transfer

/-! ## Linearity on `double` -/

section LinearDouble
open double

theorem zipWith_lin_exact (c : Int) (M : Nat) (hc : c.natAbs ≤ M) (hM : M + M * M < 2 ^ 53) :
    ∀ (r1 r2 : List Int), (∀ x ∈ r1, x.natAbs ≤ M) → (∀ x ∈ r2, x.natAbs ≤ M) →
      List.zipWith (fun x y => x + ofInt c * y) (r1.map ofInt) (r2.map ofInt) =
          (List.zipWith (fun x y => x + c * y) r1 r2).map ofInt ∧
        ∀ z ∈ List.zipWith (fun x y => x + c * y) r1 r2, z.natAbs ≤ M + M * M := by
  intro r1
  induction r1 with
  | nil => intro r2 _ _; simp
  | cons a r1 ih =>
    intro r2 h1 h2
    cases r2 with
    | nil => simp
    | cons b r2 =>
      have ha : a.natAbs ≤ M := h1 a (List.mem_cons_self _ _)
      have hb : b.natAbs ≤ M := h2 b (List.mem_cons_self _ _)
      have hcb := natAbs_mul_le c b M M hc hb
      obtain ⟨i1, i2⟩ := ih r2 (fun x hx => h1 x (List.mem_cons_of_mem _ hx))
        (fun x hx => h2 x (List.mem_cons_of_mem _ hx))
      have hz : (a + c * b).natAbs ≤ M + M * M := by omega
      constructor
      · simp only [List.map_cons, List.zipWith_cons_cons, i1]
        rw [add_ofInt_rep a (c * b) _ (by omega)
          (rep_mul _ _ _ _ (rep_ofInt c (by omega)) (rep_ofInt b (by omega)) (by omega))
          (by omega)]
      · intro z hz2
        simp only [List.zipWith_cons_cons, List.mem_cons] at hz2
        rcases hz2 with hz2 | hz2
        · rw [hz2]; exact hz
        · exact i2 z hz2

theorem lin_bound (W1 W M : Nat) (h : W1 ≤ W) :
    M * (W1 * (M * M)) ≤ W * ((M + M * M) * M) ∧ W1 * (M * M) ≤ W * ((M + M * M) * M) ∧
      W1 * (M * M) + M * (W1 * (M * M)) ≤ W * ((M + M * M) * M) ∧
      W1 * ((M + M * M) * M) ≤ W * ((M + M * M) * M) := by
  have e : W1 * ((M + M * M) * M) = W1 * (M * M) + M * (W1 * (M * M)) := by ring
  have h1 : W1 * ((M + M * M) * M) ≤ W * ((M + M * M) * M) := Nat.mul_le_mul_right _ h
  omega

theorem b64_xcorr_integer (output : List double) (len_output : Int) (rev loc : List Int)
    (A B : Nat) (hA : ∀ x ∈ rev, x.natAbs ≤ A) (hB : ∀ y ∈ loc, y.natAbs ≤ B)
    (hA53 : A < 2 ^ 53) (hB53 : B < 2 ^ 53)
    (hW : min rev.length loc.length * (A * B) < 2 ^ 53)
    (hbuf : len_output ≤ (output.length : Int)) :
    ∃ r, Binary64.xcorr output len_output (rev.map ofInt) rev.length (loc.map ofInt)
          loc.length = some r ∧
      r.exit = Exit.completed ∧ r.output.length = output.length ∧
      ∀ k : Nat, (k : Int) < len_output →
        r.output[k]? =
          some (ofInt (posVal (0 : Int) (fun a b => a + b) (fun a b => a * b) rev loc k)) := by
  obtain ⟨r, h1, h2, h3, h4⟩ := b64_xcorr_get output len_output (rev.map ofInt)
    (loc.map ofInt) hbuf
  simp only [List.length_map] at h1
  refine ⟨r, h1, h2, h3, fun k hk => ?_⟩
  rw [h4 k hk, (posVal_exact rev loc A B hA hB hA53 hB53 hW k).1]

/-- C27 (integer-valued signals). On `double`, with thresholds disabled, `xcorr` is bilinear
on signals that hold integers small enough for every product and sum to be exact: for
integer sequences `r1`, `r2` of one length, `l1`, `l2` of one length and an integer `c`, all
of absolute value at most `M`, with `M + M*M < 2^53` and `W * ((M + M*M) * M) < 2^53` for a
bound `W` on the window length, every `k < len_output` has
`xcorr(r1 + c*r2, l)[k] = xcorr(r1, l)[k] + c * xcorr(r2, l)[k]` and
`xcorr(r, l1 + c*l2)[k] = xcorr(r, l1)[k] + c * xcorr(r, l2)[k]`, all sums and products
being those of `double`. -/
theorem xcorr_bilinear_on_integers (output : List double) (r1 r2 l r l1 l2 : List Int)
    (c : Int) (M W : Nat) (len_output : Int)
    (hr : r1.length = r2.length) (hl : l1.length = l2.length)
    (hbuf : len_output ≤ (output.length : Int))
    (hb : ∀ x ∈ r1 ++ r2 ++ l ++ r ++ l1 ++ l2, x.natAbs ≤ M) (hc : c.natAbs ≤ M)
    (hM : M + M * M < 2 ^ 53)
    (hW1 : min r1.length l.length ≤ W) (hW2 : min r.length l1.length ≤ W)
    (hW : W * ((M + M * M) * M) < 2 ^ 53) :
    (∃ s a b,
        Binary64.xcorr output len_output
          (List.zipWith (fun x y => x + ofInt c * y) (r1.map ofInt) (r2.map ofInt))
          r1.length (l.map ofInt) l.length = some s ∧
        Binary64.xcorr output len_output (r1.map ofInt) r1.length (l.map ofInt) l.length =
          some a ∧
        Binary64.xcorr output len_output (r2.map ofInt) r1.length (l.map ofInt) l.length =
          some b ∧
        ∀ k : Nat, (k : Int) < len_output →
          ∃ x y z, s.output[k]? = some x ∧ a.output[k]? = some y ∧ b.output[k]? = some z ∧
            x = y + ofInt c * z) ∧
      (∃ s a b,
        Binary64.xcorr output len_output (r.map ofInt) r.length
          (List.zipWith (fun x y => x + ofInt c * y) (l1.map ofInt) (l2.map ofInt))
          l1.length = some s ∧
        Binary64.xcorr output len_output (r.map ofInt) r.length (l1.map ofInt) l1.length =
          some a ∧
        Binary64.xcorr output len_output (r.map ofInt) r.length (l2.map ofInt) l1.length =
          some b ∧
        ∀ k : Nat, (k : Int) < len_output →
          ∃ x y z, s.output[k]? = some x ∧ a.output[k]? = some y ∧ b.output[k]? = some z ∧
            x = y + ofInt c * z) := by
  have hr1 : ∀ x ∈ r1, x.natAbs ≤ M := fun x hx => hb x (by simp [hx])
  have hr2 : ∀ x ∈ r2, x.natAbs ≤ M := fun x hx => hb x (by simp [hx])
  have hl0 : ∀ x ∈ l, x.natAbs ≤ M := fun x hx => hb x (by simp [hx])
  have hr0 : ∀ x ∈ r, x.natAbs ≤ M := fun x hx => hb x (by simp [hx])
  have hl1 : ∀ x ∈ l1, x.natAbs ≤ M := fun x hx => hb x (by simp [hx])
  have hl2 : ∀ x ∈ l2, x.natAbs ≤ M := fun x hx => hb x (by simp [hx])
  have hM53 : M < 2 ^ 53 := by omega
  have key : ∀ (Y Z : Int) (W1 : Nat), W1 ≤ W → Y.natAbs ≤ W1 * (M * M) →
      Z.natAbs ≤ W1 * (M * M) → ofInt Y + ofInt c * ofInt Z = ofInt (Y + c * Z) := by
    intro Y Z W1 hW1 hY hZ
    obtain ⟨b1, b2, b3, _⟩ := lin_bound W1 W M hW1
    have hcz := natAbs_mul_le c Z M (W1 * (M * M)) hc hZ
    exact add_ofInt_rep Y (c * Z) _ (by omega)
      (rep_mul _ _ _ _ (rep_ofInt c (by omega)) (rep_ofInt Z (by omega)) (by omega))
      (by omega)
  constructor
  · obtain ⟨z1, z2⟩ := zipWith_lin_exact c M hc hM r1 r2 hr1 hr2
    have hzl : (List.zipWith (fun x y => x + c * y) r1 r2).length = r1.length := by
      simp [List.length_zipWith, hr]
    have hmin := (lin_bound (min r1.length l.length) W M hW1).2.2.2
    have hminb := (lin_bound (min r1.length l.length) W M hW1).2.1
    obtain ⟨s, s1, _, _, s3⟩ := b64_xcorr_integer output len_output
      (List.zipWith (fun x y => x + c * y) r1 r2) l (M + M * M) M z2 hl0 hM hM53
      (by rw [hzl]; omega) hbuf
    obtain ⟨a, a1, _, _, a3⟩ := b64_xcorr_integer output len_output r1 l M M hr1 hl0 hM53 hM53
      (by omega) hbuf
    obtain ⟨b, b1, _, _, b3⟩ := b64_xcorr_integer output len_output r2 l M M hr2 hl0 hM53 hM53
      (by rw [← hr]; omega) hbuf
    rw [hzl, ← z1] at s1
    rw [← hr] at b1
    refine ⟨s, a, b, s1, a1, b1, fun k hk => ⟨_, _, _, s3 k hk, a3 k hk, b3 k hk, ?_⟩⟩
    rw [posVal_lin_left c r1 r2 l hr k]
    have p1 := (posVal_exact r1 l M M hr1 hl0 hM53 hM53 (by omega) k).2
    have p2 := (posVal_exact r2 l M M hr2 hl0 hM53 hM53 (by rw [← hr]; omega) k).2
    rw [← hr] at p2
    exact (key _ _ (min r1.length l.length) hW1 p1 p2).symm
  · obtain ⟨z1, z2⟩ := zipWith_lin_exact c M hc hM l1 l2 hl1 hl2
    have hzl : (List.zipWith (fun x y => x + c * y) l1 l2).length = l1.length := by
      simp [List.length_zipWith, hl]
    have hmin := (lin_bound (min r.length l1.length) W M hW2).2.2.2
    have hminb := (lin_bound (min r.length l1.length) W M hW2).2.1
    have hcomm : M * (M + M * M) = (M + M * M) * M := Nat.mul_comm _ _
    obtain ⟨s, s1, _, _, s3⟩ := b64_xcorr_integer output len_output r
      (List.zipWith (fun x y => x + c * y) l1 l2) M (M + M * M) hr0 z2 hM53 hM
      (by rw [hzl, hcomm]; omega) hbuf
    obtain ⟨a, a1, _, _, a3⟩ := b64_xcorr_integer output len_output r l1 M M hr0 hl1 hM53 hM53
      (by omega) hbuf
    obtain ⟨b, b1, _, _, b3⟩ := b64_xcorr_integer output len_output r l2 M M hr0 hl2 hM53 hM53
      (by rw [← hl]; omega) hbuf
    rw [hzl, ← z1] at s1
    rw [← hl] at b1
    refine ⟨s, a, b, s1, a1, b1, fun k hk => ⟨_, _, _, s3 k hk, a3 k hk, b3 k hk, ?_⟩⟩
    rw [posVal_lin_right c r l1 l2 hl k]
    have p1 := (posVal_exact r l1 M M hr0 hl1 hM53 hM53 (by omega) k).2
    have p2 := (posVal_exact r l2 M M hr0 hl2 hM53 hM53 (by rw [← hl]; omega) k).2
    rw [← hl] at p2
    exact (key _ _ (min r.length l1.length) hW2 p1 p2).symm

end LinearDouble

/-! ## The complex engine on integer-valued signals -/

section CompDouble
open double

theorem macComp_exact (a r l : complex Int) (M S : Nat)
    (hr1 : r.re.natAbs ≤ M) (hr2 : r.im.natAbs ≤ M) (hl1 : l.re.natAbs ≤ M)
    (hl2 : l.im.natAbs ≤ M) (ha1 : a.re.natAbs ≤ S) (ha2 : a.im.natAbs ≤ S)
    (hM : M < 2 ^ 53) (hS : S + 2 * (M * M) < 2 ^ 53) :
    Binary64.addComp (toDouble a)
        (Binary64.mulComp (toDouble r) (Binary64.conjComp (toDouble l))) =
      toDouble (addComp a (mulComp r (conjComp l))) ∧
    (addComp a (mulComp r (conjComp l))).re.natAbs ≤ S + 2 * (M * M) ∧
    (addComp a (mulComp r (conjComp l))).im.natAbs ≤ S + 2 * (M * M) := by
  have p1 := natAbs_mul_le r.re l.re M M hr1 hl1
  have p2 := natAbs_mul_le r.im (-l.im) M M hr2 (by rw [Int.natAbs_neg]; exact hl2)
  have p3 := natAbs_mul_le r.re (-l.im) M M hr1 (by rw [Int.natAbs_neg]; exact hl2)
  have p4 := natAbs_mul_le r.im l.re M M hr2 hl1
  have q1 := rep_mul _ _ _ _ (rep_ofInt r.re (by omega)) (rep_ofInt l.re (by omega))
    (by omega)
  have q2 := rep_mul _ _ _ _ (rep_ofInt r.im (by omega))
    (rep_neg _ _ (rep_ofInt l.im (by omega))) (by omega)
  have q3 := rep_mul _ _ _ _ (rep_ofInt r.re (by omega))
    (rep_neg _ _ (rep_ofInt l.im (by omega))) (by omega)
  have q4 := rep_mul _ _ _ _ (rep_ofInt r.im (by omega)) (rep_ofInt l.re (by omega))
    (by omega)
  have e1 := add_ofInt_rep a.re _ _ (by omega) (rep_sub _ _ _ _ q1 q2 (by omega)) (by omega)
  have e2 := add_ofInt_rep a.im _ _ (by omega) (rep_add _ _ _ _ q3 q4 (by omega)) (by omega)
  refine ⟨?_, ?_, ?_⟩
  · simp only [Binary64.addComp, Binary64.mulComp, Binary64.conjComp, Binary64.genComp,
      toDouble, addComp, mulComp, conjComp, genComp]
    rw [e1, e2]
  · simp only [addComp, mulComp, conjComp, genComp]
    omega
  · simp only [addComp, mulComp, conjComp, genComp]
    omega

theorem foldl_macComp_exact (f g : Nat → complex Int) (M : Nat) (hM : M < 2 ^ 53) :
    ∀ (n : Nat) (a : complex Int) (S : Nat),
      (∀ i, i < n → (f i).re.natAbs ≤ M ∧ (f i).im.natAbs ≤ M ∧ (g i).re.natAbs ≤ M ∧
        (g i).im.natAbs ≤ M) →
      a.re.natAbs ≤ S → a.im.natAbs ≤ S → S + n * (2 * (M * M)) < 2 ^ 53 →
      (List.range n).foldl
          (fun acc (i : Nat) => Binary64.addComp acc
            (Binary64.mulComp (toDouble (f i)) (Binary64.conjComp (toDouble (g i)))))
          (toDouble a) =
        toDouble ((List.range n).foldl
          (fun acc (i : Nat) => addComp acc (mulComp (f i) (conjComp (g i)))) a) ∧
      ((List.range n).foldl
          (fun acc (i : Nat) => addComp acc (mulComp (f i) (conjComp (g i)))) a).re.natAbs ≤
        S + n * (2 * (M * M)) ∧
      ((List.range n).foldl
          (fun acc (i : Nat) => addComp acc (mulComp (f i) (conjComp (g i)))) a).im.natAbs ≤
        S + n * (2 * (M * M)) := by
  intro n
  induction n with
  | zero =>
    intro a S _ h1 h2 _
    simp only [List.range_zero, List.foldl_nil, Nat.zero_mul, Nat.add_zero, true_and]
    exact ⟨h1, h2⟩
  | succ n ih =>
    intro a S h h1 h2 hb
    have e : (n + 1) * (2 * (M * M)) = n * (2 * (M * M)) + 2 * (M * M) := by ring
    rw [e] at hb ⊢
    obtain ⟨i1, i2, i3⟩ := ih a S (fun i hi => h i (Nat.lt_succ_of_lt hi)) h1 h2 (by omega)
    obtain ⟨b1, b2, b3, b4⟩ := h n (Nat.lt_succ_self n)
    rw [List.range_succ, List.foldl_append, List.foldl_append, i1]
    simp only [List.foldl_cons, List.foldl_nil]
    have := macComp_exact _ (f n) (g n) M (S + n * (2 * (M * M))) b1 b2 b3 b4 i2 i3 hM
      (by omega)
    rw [← Nat.add_assoc]
    exact this

theorem getD_comp_le (l : List (complex Int)) (M : Nat)
    (h : ∀ z ∈ l, z.re.natAbs ≤ M ∧ z.im.natAbs ≤ M) (i : Nat) :
    (l.getD i (genComp 0 0)).re.natAbs ≤ M ∧ (l.getD i (genComp 0 0)).im.natAbs ≤ M := by
  by_cases hi : i < l.length
  · rw [List.getD_eq_getElem _ _ hi]
    exact h _ (List.getElem_mem _)
  · rw [List.getD_eq_default _ _ (by omega)]
    exact ⟨Nat.zero_le M, Nat.zero_le M⟩

theorem genComp_zero_eq : Binary64.genComp 0 0 = toDouble (genComp (0 : Int) 0) :=
  rfl

theorem posValComp_exact (rev loc : List (complex Int)) (M : Nat)
    (hA : ∀ z ∈ rev, z.re.natAbs ≤ M ∧ z.im.natAbs ≤ M)
    (hB : ∀ z ∈ loc, z.re.natAbs ≤ M ∧ z.im.natAbs ≤ M) (hM : M < 2 ^ 53)
    (hW : min rev.length loc.length * (2 * (M * M)) < 2 ^ 53) (k : Nat) :
    posVal (Binary64.genComp 0 0) Binary64.addComp Binary64.mulComp (rev.map toDouble)
        ((loc.map toDouble).map Binary64.conjComp) k =
      toDouble (posVal (genComp (0 : Int) 0) addComp mulComp rev (loc.map conjComp) k) ∧
    (posVal (genComp (0 : Int) 0) addComp mulComp rev (loc.map conjComp) k).re.natAbs ≤
      min rev.length loc.length * (2 * (M * M)) ∧
    (posVal (genComp (0 : Int) 0) addComp mulComp rev (loc.map conjComp) k).im.natAbs ≤
      min rev.length loc.length * (2 * (M * M)) := by
  unfold posVal
  simp only [List.length_map]
  split_ifs with hk
  · exact ⟨rfl, by simp [genComp], by simp [genComp]⟩
  · have hk2 : (k : Int) ≤ (rev.length : Int) + (loc.length : Int) - 1 := by omega
    unfold winVal
    simp only [List.length_map]
    have hn := winBound_le_min rev.length loc.length k
    have hnP : (winBound rev.length loc.length k).toNat * (2 * (M * M)) ≤
        min rev.length loc.length * (2 * (M * M)) := Nat.mul_le_mul_right _ hn
    have hd : (List.range (winBound rev.length loc.length k).toNat).foldl
        (fun acc (i : Nat) => Binary64.addComp acc (Binary64.mulComp
          ((rev.map toDouble).getD (winRev rev.length loc.length k (i : Int)).toNat
            (Binary64.genComp 0 0))
          (((loc.map toDouble).map Binary64.conjComp).getD
            (winLoc rev.length loc.length k (i : Int)).toNat (Binary64.genComp 0 0))))
        (Binary64.genComp 0 0) =
      (List.range (winBound rev.length loc.length k).toNat).foldl
        (fun acc (i : Nat) => Binary64.addComp acc (Binary64.mulComp
          (toDouble (rev.getD (winRev rev.length loc.length k (i : Int)).toNat (genComp 0 0)))
          (Binary64.conjComp (toDouble
            (loc.getD (winLoc rev.length loc.length k (i : Int)).toNat (genComp 0 0))))))
        (toDouble (genComp 0 0)) := by
      rw [genComp_zero_eq]
      apply foldl_range_congr
      intro acc i hi
      obtain ⟨w1, w2, w3, w4⟩ := win_inBounds rev.length loc.length k hk2 i hi
      have j1 : (winRev rev.length loc.length k (i : Int)).toNat < rev.length := by omega
      have j2 : (winLoc rev.length loc.length k (i : Int)).toNat < loc.length := by omega
      rw [List.getD_eq_getElem _ _ (by simpa using j1),
        List.getD_eq_getElem _ _ (by simpa using j2),
        List.getD_eq_getElem _ _ j1, List.getD_eq_getElem _ _ j2]
      simp only [List.getElem_map]
    have hi : (List.range (winBound rev.length loc.length k).toNat).foldl
        (fun acc (i : Nat) => addComp acc (mulComp
          (rev.getD (winRev rev.length loc.length k (i : Int)).toNat (genComp 0 0))
          ((loc.map conjComp).getD (winLoc rev.length loc.length k (i : Int)).toNat
            (genComp 0 0)))) (genComp (0 : Int) 0) =
      (List.range (winBound rev.length loc.length k).toNat).foldl
        (fun acc (i : Nat) => addComp acc (mulComp
          (rev.getD (winRev rev.length loc.length k (i : Int)).toNat (genComp 0 0))
          (conjComp (loc.getD (winLoc rev.length loc.length k (i : Int)).toNat
            (genComp 0 0))))) (genComp (0 : Int) 0) := by
      apply foldl_range_congr
      intro acc i _
      rw [getD_map_conj]
    rw [hd, hi]
    obtain ⟨h1, h2, h3⟩ := foldl_macComp_exact
      (fun i => rev.getD (winRev rev.length loc.length k (i : Int)).toNat (genComp 0 0))
      (fun i => loc.getD (winLoc rev.length loc.length k (i : Int)).toNat (genComp 0 0)) M hM
      (winBound rev.length loc.length k).toNat (genComp 0 0) 0
      (fun i _ => ⟨(getD_comp_le rev M hA _).1, (getD_comp_le rev M hA _).2,
        (getD_comp_le loc M hB _).1, (getD_comp_le loc M hB _).2⟩)
      (by simp [genComp]) (by simp [genComp]) (by omega)
    exact ⟨h1, by omega, by omega⟩

theorem sub_ofInt_exact (p q : Int) (hp : p.natAbs < 2 ^ 53) (hq : q.natAbs < 2 ^ 53)
    (h : (p - q).natAbs < 2 ^ 53) : ofInt p - ofInt q = ofInt (p - q) := by
  have := add_ofInt_rep p (-q) _ hp (rep_neg _ _ (rep_ofInt q hq))
    (by rwa [← sub_eq_add_neg])
  rw [← sub_eq_add_neg] at this
  exact this

theorem add_ofInt_exact (p q : Int) (hp : p.natAbs < 2 ^ 53) (hq : q.natAbs < 2 ^ 53)
    (h : (p + q).natAbs < 2 ^ 53) : ofInt p + ofInt q = ofInt (p + q) :=
  add_ofInt_rep p q _ hp (rep_ofInt q hq) h

end CompDouble

section CompClaims
open double

theorem map_toDouble_re (l : List (complex Int)) :
    (l.map toDouble).map complex.re = (l.map complex.re).map ofInt := by
  simp [List.map_map, Function.comp_def, toDouble]

theorem map_toDouble_im (l : List (complex Int)) :
    (l.map toDouble).map complex.im = (l.map complex.im).map ofInt := by
  simp [List.map_map, Function.comp_def, toDouble]

/-- For complex `rev`, `local` whose components are integers of absolute value at most `M`,
with `M < 2^53` and `W * (2 * M * M) < 2^53` for a bound `W` on the window length, every
position `k < len_output` of the output of `xcorr_rangeComp` on `double` has real part
`X(rev.re, local.re)[k] + X(rev.im, local.im)[k]` and imaginary part
`X(rev.im, local.re)[k] - X(rev.re, local.im)[k]`, where `X` is the real `xcorr`. -/
theorem components_on_integers (sqrt : double → double)
    (pow : double → double → double) (coutput : List (complex double))
    (routput : List double) (rev loc : List (complex Int)) (M W : Nat) (len_output : Int)
    (min_threshold : double)
    (hcbuf : len_output ≤ (coutput.length : Int))
    (hrbuf : len_output ≤ (routput.length : Int))
    (hb : ∀ z ∈ rev ++ loc, z.re.natAbs ≤ M ∧ z.im.natAbs ≤ M) (hM : M < 2 ^ 53)
    (hWl : min rev.length loc.length ≤ W) (hW : W * (2 * (M * M)) < 2 ^ 53) :
    ∃ rc rrr rii rir rri,
      Binary64.xcorr_rangeComp sqrt pow coutput len_output (rev.map toDouble) rev.length
          (loc.map toDouble) loc.length Binary64.MAX_MAGIC min_threshold = some rc ∧
      Binary64.xcorr routput len_output ((rev.map toDouble).map complex.re) rev.length
          ((loc.map toDouble).map complex.re) loc.length = some rrr ∧
      Binary64.xcorr routput len_output ((rev.map toDouble).map complex.im) rev.length
          ((loc.map toDouble).map complex.im) loc.length = some rii ∧
      Binary64.xcorr routput len_output ((rev.map toDouble).map complex.im) rev.length
          ((loc.map toDouble).map complex.re) loc.length = some rir ∧
      Binary64.xcorr routput len_output ((rev.map toDouble).map complex.re) rev.length
          ((loc.map toDouble).map complex.im) loc.length = some rri ∧
      ∀ k : Nat, (k : Int) < len_output →
        ∃ c a b p q, rc.output[k]? = some c ∧ rrr.output[k]? = some a ∧
          rii.output[k]? = some b ∧ rir.output[k]? = some p ∧ rri.output[k]? = some q ∧
          c.re = a + b ∧ c.im = p - q ∧
          ((∀ z ∈ rev, z.im = 0) → (∀ z ∈ loc, z.im = 0) → c = { re := a, im := 0 }) := by
  have hA : ∀ z ∈ rev, z.re.natAbs ≤ M ∧ z.im.natAbs ≤ M := fun z hz => hb z (by simp [hz])
  have hB : ∀ z ∈ loc, z.re.natAbs ≤ M ∧ z.im.natAbs ≤ M := fun z hz => hb z (by simp [hz])
  have hmin2 : min rev.length loc.length * (2 * (M * M)) ≤ W * (2 * (M * M)) :=
    Nat.mul_le_mul_right _ hWl
  have e2 : min rev.length loc.length * (2 * (M * M)) =
      2 * (min rev.length loc.length * (M * M)) := by ring
  have hmin1 : min rev.length loc.length * (M * M) < 2 ^ 53 := by omega
  have hre : ∀ (l : List (complex Int)), (∀ z ∈ l, z.re.natAbs ≤ M ∧ z.im.natAbs ≤ M) →
      ∀ x ∈ l.map complex.re, x.natAbs ≤ M := by
    intro l hl x hx
    obtain ⟨z, hz, rfl⟩ := List.mem_map.mp hx
    exact (hl z hz).1
  have him : ∀ (l : List (complex Int)), (∀ z ∈ l, z.re.natAbs ≤ M ∧ z.im.natAbs ≤ M) →
      ∀ x ∈ l.map complex.im, x.natAbs ≤ M := by
    intro l hl x hx
    obtain ⟨z, hz, rfl⟩ := List.mem_map.mp hx
    exact (hl z hz).2
  have hreal : ∀ (f g : complex Int → Int), (∀ x ∈ rev.map f, x.natAbs ≤ M) →
      (∀ x ∈ loc.map g, x.natAbs ≤ M) →
      ∃ r, Binary64.xcorr routput len_output ((rev.map f).map ofInt) rev.length
          ((loc.map g).map ofInt) loc.length = some r ∧
        ∀ k : Nat, (k : Int) < len_output →
          r.output[k]? = some (ofInt (posVal (0 : Int) (fun a b => a + b) (fun a b => a * b)
            (rev.map f) (loc.map g) k)) ∧
          (posVal (0 : Int) (fun a b => a + b) (fun a b => a * b) (rev.map f) (loc.map g)
            k).natAbs ≤ min rev.length loc.length * (M * M) := by
    intro f g hf hg
    obtain ⟨r, r1, _, _, r4⟩ := b64_xcorr_integer routput len_output (rev.map f) (loc.map g)
      M M hf hg hM hM (by simpa using hmin1) hrbuf
    simp only [List.length_map] at r1
    refine ⟨r, r1, fun k hk => ⟨r4 k hk, ?_⟩⟩
    have := (posVal_exact (rev.map f) (loc.map g) M M hf hg hM hM (by simpa using hmin1) k).2
    simpa using this
  obtain ⟨rc, c1, _, _, c4⟩ := b64_xcorr_rangeComp_get sqrt pow coutput len_output
    (rev.map toDouble) (loc.map toDouble) min_threshold hcbuf
  simp only [List.length_map] at c1
  obtain ⟨rrr, a1, a2⟩ := hreal complex.re complex.re (hre rev hA) (hre loc hB)
  obtain ⟨rii, b1, b2⟩ := hreal complex.im complex.im (him rev hA) (him loc hB)
  obtain ⟨rir, p1, p2⟩ := hreal complex.im complex.re (him rev hA) (hre loc hB)
  obtain ⟨rri, q1, q2⟩ := hreal complex.re complex.im (hre rev hA) (him loc hB)
  refine ⟨rc, rrr, rii, rir, rri, c1, by rw [map_toDouble_re, map_toDouble_re]; exact a1,
    by rw [map_toDouble_im, map_toDouble_im]; exact b1,
    by rw [map_toDouble_im, map_toDouble_re]; exact p1,
    by rw [map_toDouble_re, map_toDouble_im]; exact q1, ?_⟩
  intro k hk
  have hc := (posValComp_exact rev loc M hA hB hM (by omega) k).1
  obtain ⟨a3, a4⟩ := a2 k hk
  obtain ⟨b3, b4⟩ := b2 k hk
  obtain ⟨p3, p4⟩ := p2 k hk
  obtain ⟨q3, q4⟩ := q2 k hk
  rw [posVal_comp_components] at hc
  have z1 : (∀ z ∈ rev, z.im = 0) → posVal (0 : Int) (fun a b => a + b) (fun a b => a * b)
      (rev.map complex.im) (loc.map complex.im) k = 0 := fun hz =>
    posVal_real_zero_left _ _ k (getD_map_im_zero rev hz)
  have z2 : (∀ z ∈ rev, z.im = 0) → posVal (0 : Int) (fun a b => a + b) (fun a b => a * b)
      (rev.map complex.im) (loc.map complex.re) k = 0 := fun hz =>
    posVal_real_zero_left _ _ k (getD_map_im_zero rev hz)
  have z3 : (∀ z ∈ loc, z.im = 0) → posVal (0 : Int) (fun a b => a + b) (fun a b => a * b)
      (rev.map complex.re) (loc.map complex.im) k = 0 := fun hz =>
    posVal_real_zero_right _ _ k (getD_map_im_zero loc hz)
  generalize posVal (0 : Int) (fun a b => a + b) (fun a b => a * b) (rev.map complex.re)
    (loc.map complex.re) k = Prr at *
  generalize posVal (0 : Int) (fun a b => a + b) (fun a b => a * b) (rev.map complex.im)
    (loc.map complex.im) k = Pii at *
  generalize posVal (0 : Int) (fun a b => a + b) (fun a b => a * b) (rev.map complex.im)
    (loc.map complex.re) k = Pir at *
  generalize posVal (0 : Int) (fun a b => a + b) (fun a b => a * b) (rev.map complex.re)
    (loc.map complex.im) k = Pri at *
  have hsum := add_ofInt_exact Prr Pii (by omega) (by omega) (by omega)
  have hdiff := sub_ofInt_exact Pir Pri (by omega) (by omega) (by omega)
  refine ⟨_, _, _, _, _, (c4 k hk).trans (congrArg some hc), a3, b3, p3, q3, ?_, ?_, ?_⟩
  · simp only [toDouble]
    exact hsum.symm
  · simp only [toDouble]
    exact hdiff.symm
  · intro hz1 hz2
    rw [z1 hz1, z2 hz1, z3 hz2]
    simp only [add_zero, sub_zero, toDouble]
    rfl

end CompClaims

section OpsDouble
open double

theorem rep_eq_ofInt (d : double) (n : Int) (hd : rep d n) (hn : n ≠ 0)
    (h : n.natAbs < 2 ^ 53) : d = ofInt n := by
  obtain ⟨s, m, rfl, hs⟩ := hd
  have hne : sval s m ≠ 0 := by
    rw [hs]
    exact fun hc => hn ((mul_unit_eq_zero_iff n).mp hc)
  have hsg := sval_sign s m hne
  have hm : m = n.natAbs * unit := by
    have := congrArg Int.natAbs hs
    rwa [sval_natAbs_eq, Int.natAbs_mul, Int.natAbs_ofNat] at this
  rw [hs] at hsg
  have e1 : decide (n * (unit : Int) < 0) = decide (n < 0) := by
    congr 1
    exact propext (mul_unit_neg_iff n)
  rw [ofInt_eq n h, hsg, e1, hm]

set_option exponentiation.threshold 5000 in
set_option maxRecDepth 100000 in
theorem ofInt_zero_mul_self : ofInt 0 * ofInt 0 = ofInt 0 := by
  decide

theorem sq_ofInt (n : Int) (h : (n * n).natAbs < 2 ^ 53) : ofInt n * ofInt n = ofInt (n * n) := by
  have hn : n.natAbs < 2 ^ 53 := by
    rw [Int.natAbs_mul] at h
    by_contra hc
    have h1 : 2 ^ 53 ≤ n.natAbs := by omega
    have h2 : 2 ^ 53 * 2 ^ 53 ≤ n.natAbs * n.natAbs := Nat.mul_le_mul h1 h1
    have h3 : 2 ^ 53 ≤ 2 ^ 53 * 2 ^ 53 := Nat.le_mul_of_pos_right _ (Nat.two_pow_pos 53)
    omega
  by_cases h0 : n = 0
  · subst h0
    exact ofInt_zero_mul_self
  · exact rep_eq_ofInt _ _ (rep_mul _ _ n n (rep_ofInt n hn) (rep_ofInt n hn) h)
      (mul_ne_zero h0 h0) h

theorem le_mul_self_two (M : Nat) : 2 * M ≤ 2 * (M * M) + 1 := by
  have := Nat.le_mul_self M
  omega

theorem natAbs_add_lt (x y : Int) (a b B : Nat) (hx : x.natAbs ≤ a) (hy : y.natAbs ≤ b)
    (h : a + b < B) : (x + y).natAbs < B :=
  lt_of_le_of_lt (le_trans (Int.natAbs_add_le x y) (Nat.add_le_add hx hy)) h

theorem natAbs_sub_lt (x y : Int) (a b B : Nat) (hx : x.natAbs ≤ a) (hy : y.natAbs ≤ b)
    (h : a + b < B) : (x - y).natAbs < B :=
  lt_of_le_of_lt (le_trans (Int.natAbs_sub_le x y) (Nat.add_le_add hx hy)) h

theorem absSqr_ofInt (pow : double → double → double) (z : complex Int) (M : Nat)
    (hpow : ∀ n : Int, n.natAbs ≤ M → pow (ofInt n) 2 = ofInt (n * n))
    (z1 : z.re.natAbs ≤ M) (z2 : z.im.natAbs ≤ M) (hP : 2 * (M * M) + 1 < 2 ^ 53) :
    Binary64.absSqrComp pow (toDouble z) = ofInt (z.re ^ 2 + z.im ^ 2) := by
  have p5 := natAbs_mul_le z.re z.re M M z1 z1
  have p6 := natAbs_mul_le z.im z.im M M z2 z2
  have hMM : M * M < 2 ^ 53 := by omega
  have h2 : M * M + M * M < 2 ^ 53 := by omega
  simp only [Binary64.absSqrComp, toDouble, hpow z.re z1, hpow z.im z2]
  rw [add_ofInt_exact _ _ (lt_of_le_of_lt p5 hMM) (lt_of_le_of_lt p6 hMM)
      (natAbs_add_lt _ _ _ _ _ p5 p6 h2), pow_two, pow_two]

/-- C16 (componentwise form; integer-valued components). On `double`, for all components
`mulComp((a, b), (c, d))` is `(a*c - b*d, a*d + b*c)`, `addComp` is componentwise and
`conjComp` negates only the second component, each product, sum and difference being
rounded, `absSqrComp` is `pow(re, 2) + pow(im, 2)`, `absComp` its `sqrt` and `normComp` the
same. For complex values `z`, `w` whose components are integers of absolute value at most
`M` with `2 * M * M + 1 < 2^53`, and for a `pow` that returns the square of every integer of
absolute value at most `M`, nothing is rounded: `addComp`, `mulComp` and `conjComp` give the
components of the complex sum, product and conjugate under `(re, im) ↦ re + im * i`;
`absSqrComp(z)` is `re² + im²`; and `absComp(z)² = normComp(z)² = absSqrComp(z)` whenever
`re² + im²` is the square of an integer `n ≥ 0` that `sqrt` returns exactly. -/
theorem complex_ops_on_double (sqrt : double → double) (pow : double → double → double)
    (z w : complex Int) (M : Nat)
    (hz : z.re.natAbs ≤ M ∧ z.im.natAbs ≤ M) (hw : w.re.natAbs ≤ M ∧ w.im.natAbs ≤ M)
    (hP : 2 * (M * M) + 1 < 2 ^ 53)
    (hpow : ∀ n : Int, n.natAbs ≤ M → pow (ofInt n) 2 = ofInt (n * n)) :
    (∀ a b c d : double,
        Binary64.mulComp ⟨a, b⟩ ⟨c, d⟩ = ⟨a * c - b * d, a * d + b * c⟩ ∧
        Binary64.addComp ⟨a, b⟩ ⟨c, d⟩ = ⟨a + c, b + d⟩ ∧
        Binary64.conjComp ⟨a, b⟩ = ⟨a, -b⟩ ∧
        Binary64.absSqrComp pow ⟨a, b⟩ = pow a 2 + pow b 2 ∧
        Binary64.absComp sqrt pow ⟨a, b⟩ = sqrt (Binary64.absSqrComp pow ⟨a, b⟩) ∧
        Binary64.normComp sqrt pow ⟨a, b⟩ = Binary64.absComp sqrt pow ⟨a, b⟩) ∧
      (Binary64.addComp (toDouble z) (toDouble w) = toDouble ⟨z.re + w.re, z.im + w.im⟩ ∧
        toComplex ⟨z.re + w.re, z.im + w.im⟩ = toComplex z + toComplex w) ∧
      (rep (Binary64.mulComp (toDouble z) (toDouble w)).re (z.re * w.re - z.im * w.im) ∧
        rep (Binary64.mulComp (toDouble z) (toDouble w)).im (z.re * w.im + z.im * w.re) ∧
        toComplex ⟨z.re * w.re - z.im * w.im, z.re * w.im + z.im * w.re⟩ =
          toComplex z * toComplex w) ∧
      ((Binary64.conjComp (toDouble z)).re = ofInt z.re ∧
        rep (Binary64.conjComp (toDouble z)).im (-z.im) ∧
        toComplex ⟨z.re, -z.im⟩ = (starRingEnd ℂ) (toComplex z)) ∧
      Binary64.absSqrComp pow (toDouble z) = ofInt (z.re ^ 2 + z.im ^ 2) ∧
      (∀ n : Int, 0 ≤ n → z.re ^ 2 + z.im ^ 2 = n ^ 2 → sqrt (ofInt (n ^ 2)) = ofInt n →
        Binary64.absComp sqrt pow (toDouble z) * Binary64.absComp sqrt pow (toDouble z) =
            Binary64.absSqrComp pow (toDouble z) ∧
          Binary64.normComp sqrt pow (toDouble z) * Binary64.normComp sqrt pow (toDouble z) =
            Binary64.absSqrComp pow (toDouble z)) := by
  obtain ⟨z1, z2⟩ := hz
  obtain ⟨w1, w2⟩ := hw
  have hM2 := le_mul_self_two M
  have hM : M < 2 ^ 53 := by omega
  have hMM : M * M < 2 ^ 53 := by omega
  have h2 : M * M + M * M < 2 ^ 53 := by omega
  have hMs : M + M < 2 ^ 53 := by omega
  have b1 := lt_of_le_of_lt z1 hM
  have b2 := lt_of_le_of_lt z2 hM
  have b3 := lt_of_le_of_lt w1 hM
  have b4 := lt_of_le_of_lt w2 hM
  have p1 := natAbs_mul_le z.re w.re M M z1 w1
  have p2 := natAbs_mul_le z.im w.im M M z2 w2
  have p3 := natAbs_mul_le z.re w.im M M z1 w2
  have p4 := natAbs_mul_le z.im w.re M M z2 w1
  have p5 := natAbs_mul_le z.re z.re M M z1 z1
  have p6 := natAbs_mul_le z.im z.im M M z2 z2
  have q1 := rep_mul _ _ z.re w.re (rep_ofInt z.re b1) (rep_ofInt w.re b3)
    (lt_of_le_of_lt p1 hMM)
  have q2 := rep_mul _ _ z.im w.im (rep_ofInt z.im b2) (rep_ofInt w.im b4)
    (lt_of_le_of_lt p2 hMM)
  have q3 := rep_mul _ _ z.re w.im (rep_ofInt z.re b1) (rep_ofInt w.im b4)
    (lt_of_le_of_lt p3 hMM)
  have q4 := rep_mul _ _ z.im w.re (rep_ofInt z.im b2) (rep_ofInt w.re b3)
    (lt_of_le_of_lt p4 hMM)
  have hsq := absSqr_ofInt pow z M hpow z1 z2 hP
  refine ⟨fun a b c d => ⟨rfl, rfl, rfl, rfl, rfl, rfl⟩, ⟨?_, ?_⟩, ⟨?_, ?_, ?_⟩, ⟨?_, ?_, ?_⟩,
    hsq, ?_⟩
  · simp only [Binary64.addComp, Binary64.genComp, toDouble]
    rw [add_ofInt_exact z.re w.re b1 b3 (natAbs_add_lt _ _ _ _ _ z1 w1 hMs),
      add_ofInt_exact z.im w.im b2 b4 (natAbs_add_lt _ _ _ _ _ z2 w2 hMs)]
  · apply Complex.ext <;> simp [toComplex]
  · simp only [Binary64.mulComp, toDouble]
    exact rep_sub _ _ _ _ q1 q2 (natAbs_sub_lt _ _ _ _ _ p1 p2 h2)
  · simp only [Binary64.mulComp, toDouble]
    exact rep_add _ _ _ _ q3 q4 (natAbs_add_lt _ _ _ _ _ p3 p4 h2)
  · apply Complex.ext <;> simp [toComplex]
  · simp only [Binary64.conjComp, toDouble]
  · simp only [Binary64.conjComp, toDouble]
    exact rep_neg _ _ (rep_ofInt z.im b2)
  · apply Complex.ext <;> simp [toComplex]
  · intro n hn hsum hsqrt
    have hn2 : (n * n).natAbs < 2 ^ 53 := by
      rw [← pow_two, ← hsum, pow_two, pow_two]
      exact natAbs_add_lt _ _ _ _ _ p5 p6 h2
    have habs : Binary64.absComp sqrt pow (toDouble z) = ofInt n := by
      have : Binary64.absComp sqrt pow (toDouble z) =
          sqrt (Binary64.absSqrComp pow (toDouble z)) := rfl
      rw [this, hsq, hsum, hsqrt]
    have hfin : ofInt n * ofInt n = Binary64.absSqrComp pow (toDouble z) := by
      rw [sq_ofInt n hn2, hsq, hsum, pow_two]
    refine ⟨by rw [habs]; exact hfin, ?_⟩
    have : Binary64.normComp sqrt pow (toDouble z) = Binary64.absComp sqrt pow (toDouble z) :=
      rfl
    rw [this, habs]
    exact hfin

end OpsDouble

/-! ## The loops of `conv` for any sample type -/

section ConvGeneric
variable {β : Type}

theorem invLoop_spec (zero : β) (h : List β) :
    ∃ inv_h, forLoop (h.length : Int)
        (fun idx inv_h => (readAt h ((h.length : Int) - 1 - idx)).bind
          fun v => writeAt inv_h idx v)
        (List.replicate (h.length : Int).toNat zero) = some inv_h ∧
      inv_h.length = h.length ∧
      ∀ i, i < h.length → inv_h.getD i zero = h.getD (h.length - 1 - i) zero := by
  obtain ⟨inv_h, h1, h2, h3⟩ := foldlM_pointwise
    (fun (i : Nat) (st : List β) =>
      (readAt h ((h.length : Int) - 1 - (i : Int))).bind fun v => writeAt st (i : Int) v)
    (fun i _ => h.getD (h.length - 1 - i) zero) 0 h.length
    (fun i st v hi hv => by
      rw [Nat.zero_add] at hv ⊢
      have hlt : i < st.length := by
        by_contra hc
        rw [List.getElem?_eq_none (by omega)] at hv
        exact absurd hv (by simp)
      have hr := readAt_of_lt zero h ((h.length : Int) - 1 - (i : Int)) (by omega) (by omega)
      have ht : ((h.length : Int) - 1 - (i : Int)).toNat = h.length - 1 - i := by omega
      rw [ht] at hr
      simp [hr, writeAt_natCast, hlt])
    h.length (List.replicate h.length zero) le_rfl (by simp)
  refine ⟨inv_h, by simpa [forLoop] using h1, by simpa using h2, ?_⟩
  intro i hi
  have hc : 0 ≤ i ∧ i < 0 + h.length := by omega
  rw [List.getD_eq_getElem?_getD, h3 i, if_pos hc]
  simp [hi]

theorem zeroLoop_spec (zero : β) (n : Nat) :
    ∃ buf : List β, forLoop (n : Int) (fun idx buf => writeAt buf idx zero)
        (List.replicate (n : Int).toNat zero) = some buf ∧
      buf.length = n ∧ ∀ j, buf.getD j zero = zero := by
  obtain ⟨buf, h1, h2, h3⟩ := foldlM_pointwise
    (fun (i : Nat) (st : List β) => writeAt st (i : Int) zero)
    (fun _ _ => zero) 0 n
    (fun i st v hi hv => by
      rw [Nat.zero_add] at hv ⊢
      have hlt : i < st.length := by
        by_contra hc
        rw [List.getElem?_eq_none (by omega)] at hv
        exact absurd hv (by simp)
      simp [writeAt_natCast, hlt])
    n (List.replicate n zero) le_rfl (by simp)
  refine ⟨buf, by simpa [forLoop] using h1, by simpa using h2, ?_⟩
  intro j
  rw [List.getD_eq_getElem?_getD, h3 j]
  by_cases hj : j < n
  · have hc : 0 ≤ j ∧ j < 0 + n := by omega
    simp [hc, hj]
  · have hc : ¬ (0 ≤ j ∧ j < 0 + n) := by omega
    simp [hc, hj]

theorem fillLoop_spec (zero : β) (x : List β) (lh : Nat) (hlh : 1 ≤ lh) (buf0 : List β)
    (hlen : buf0.length = x.length + (lh - 1) * 2) (hzero : ∀ j, buf0.getD j zero = zero) :
    ∃ buf, forLoopFrom ((lh : Int) - 1) ((x.length : Int) - 1 + (lh : Int))
        (fun idx buf => (readAt x (idx - (lh : Int) + 1)).bind fun v => writeAt buf idx v)
        buf0 = some buf ∧
      buf.length = buf0.length ∧
      ∀ j, buf.getD j zero =
        if lh - 1 ≤ j ∧ j < lh - 1 + x.length then x.getD (j - (lh - 1)) zero else zero := by
  obtain ⟨buf, h1, h2, h3⟩ := foldlM_pointwise
    (fun (i : Nat) (st : List β) =>
      (readAt x ((lh : Int) - 1 + (i : Int) - (lh : Int) + 1)).bind
        fun v => writeAt st ((lh : Int) - 1 + (i : Int)) v)
    (fun i _ => x.getD i zero) (lh - 1) x.length
    (fun i st v hi hv => by
      beta_reduce
      have hlt : lh - 1 + i < st.length := by
        by_contra hc
        rw [List.getElem?_eq_none (by omega)] at hv
        exact absurd hv (by simp)
      have hr := readAt_of_lt zero x ((lh : Int) - 1 + (i : Int) - (lh : Int) + 1)
        (by omega) (by omega)
      have ht : ((lh : Int) - 1 + (i : Int) - (lh : Int) + 1).toNat = i := by omega
      rw [ht] at hr
      have hw : ((lh : Int) - 1 + (i : Int)) = ((lh - 1 + i : Nat) : Int) := by omega
      rw [hr, hw]
      simp only [Option.some_bind]
      exact writeAt_natCast st (lh - 1 + i) _ hlt)
    x.length buf0 le_rfl (by omega)
  have hcnt : ((x.length : Int) - 1 + (lh : Int) - ((lh : Int) - 1)).toNat = x.length := by
    omega
  refine ⟨buf, by simpa [forLoopFrom, hcnt] using h1, h2, ?_⟩
  intro j
  rw [List.getD_eq_getElem?_getD, h3 j]
  by_cases hc : lh - 1 ≤ j ∧ j < lh - 1 + x.length
  · have hj : j < buf0.length := by omega
    simp [hc, List.getElem?_eq_getElem hj]
  · rw [if_neg hc, if_neg hc, ← List.getD_eq_getElem?_getD, hzero]

theorem tapLoop_spec (zero : β) (add mul : β → β → β) (buf inv_h : List β) (lh : Nat)
    (hinv : inv_h.length = lh) (idx : Nat) (hbuf : idx + lh ≤ buf.length) (st : List β)
    (v : β) (hv : st[0 + idx]? = some v) :
    forLoop (lh : Int)
        (fun idx2 y => gMac add mul buf inv_h (idx : Int) ((idx : Int) + idx2) idx2 y) st =
      some (st.set (0 + idx) ((List.range lh).foldl
        (fun acc (i : Nat) => add acc (mul (buf.getD (idx + i) zero) (inv_h.getD i zero)))
        v)) := by
  rw [Nat.zero_add] at hv ⊢
  have hlt : idx < st.length := by
    by_contra hc
    rw [List.getElem?_eq_none (by omega)] at hv
    exact absurd hv (by simp)
  have hst : st = st.set idx v := (set_of_getElem? st idx v hv).symm
  have h := foldlM_gMac zero add mul buf inv_h idx
    (fun i => (idx : Int) + i) (fun i => i) st hlt lh v
    (fun i hi => by beta_reduce; exact ⟨by omega, by omega, by omega, by omega⟩)
  rw [← hst] at h
  unfold forLoop
  simp only [Int.toNat_ofNat]
  rw [h]
  congr 3

end ConvGeneric

section ConvSum
variable {α : Type} [LinearOrderedCommRing α]

theorem convSum_window (h x : List α) (idx : Nat) (hh : 1 ≤ h.length) :
    ∑ i in Finset.range h.length,
        (if h.length - 1 ≤ idx + i ∧ idx + i < h.length - 1 + x.length then
          x.getD (idx + i - (h.length - 1)) 0 else 0) * h.getD (h.length - 1 - i) 0 =
      convSum h x idx := by
  unfold convSum
  rw [← Finset.sum_range_reflect]
  apply Finset.sum_congr rfl
  intro s hs
  have hs2 : s < h.length := Finset.mem_range.mp hs
  have e1 : h.length - 1 - (h.length - 1 - s) = s := by omega
  rw [e1]
  by_cases hc : s ≤ idx ∧ idx - s < x.length
  · have hc2 : h.length - 1 ≤ idx + (h.length - 1 - s) ∧
        idx + (h.length - 1 - s) < h.length - 1 + x.length := by omega
    have e2 : idx + (h.length - 1 - s) - (h.length - 1) = idx - s := by omega
    rw [if_pos hc, if_pos hc2, e2, mul_comm]
  · have hc2 : ¬ (h.length - 1 ≤ idx + (h.length - 1 - s) ∧
        idx + (h.length - 1 - s) < h.length - 1 + x.length) := by omega
    rw [if_neg hc, if_neg hc2, zero_mul]

end ConvSum

/-! ## `conv` on `double` -/

section ConvDouble
open double

theorem b64_conv_run (y h x : List double) (len_y : Int) (hh : 1 ≤ h.length)
    (hy : len_y ≤ (y.length : Int))
    (hlong : (x.length : Int) + (h.length : Int) - 1 ≤ len_y) :
    ∃ (y2 buf inv_h : List double),
      Binary64.conv true true y len_y h h.length x x.length = some (y2, 0) ∧
      y2.length = y.length ∧
      (∀ i, i < h.length → inv_h.getD i 0 = h.getD (h.length - 1 - i) 0) ∧
      (∀ j, buf.getD j 0 =
        if h.length - 1 ≤ j ∧ j < h.length - 1 + x.length then
          x.getD (j - (h.length - 1)) 0 else 0) ∧
      ∀ idx, y2[idx]? =
        if 0 ≤ idx ∧ idx < 0 + (x.length + h.length - 1) then
          (y[idx]?).map (fun v => (List.range h.length).foldl
            (fun acc (i : Nat) => acc + buf.getD (idx + i) 0 * inv_h.getD i 0) v)
        else y[idx]? := by
  obtain ⟨inv_h, i1, i2, i3⟩ := invLoop_spec (0 : double) h
  obtain ⟨buf0, z1, z2, z3⟩ := zeroLoop_spec (0 : double) (x.length + (h.length - 1) * 2)
  obtain ⟨buf, b1, b2, b3⟩ := fillLoop_spec (0 : double) x h.length hh buf0 z2 z3
  obtain ⟨y2, o1, o2, o3⟩ := foldlM_pointwise
    (fun (idx : Nat) (st : List double) => forLoop (h.length : Int)
      (fun idx2 y => Binary64.macStep buf inv_h (idx : Int) ((idx : Int) + idx2) idx2 y) st)
    (fun idx v => (List.range h.length).foldl
      (fun acc (i : Nat) => acc + buf.getD (idx + i) 0 * inv_h.getD i 0) v)
    0 (x.length + h.length - 1)
    (fun idx st v hidx hv => tapLoop_spec (0 : double) (fun a b => a + b) (fun a b => a * b)
      buf inv_h h.length i2 idx (by omega) st v hv)
    (x.length + h.length - 1) y le_rfl (by omega)
  have e1 : (x.length : Int) + ((h.length : Int) - 1) * 2 =
      ((x.length + (h.length - 1) * 2 : Nat) : Int) := by omega
  have e2 : ((x.length : Int) + (h.length : Int) - 1).toNat = x.length + h.length - 1 := by
    omega
  have hns : ¬ (len_y < (x.length : Int) + (h.length : Int) - 1) := by omega
  refine ⟨y2, buf, inv_h, ?_, o2, i3, b3, o3⟩
  unfold Binary64.conv
  simp only [hns, if_false, Bool.true_eq_false, e1, Option.bind_eq_bind]
  rw [i1, Option.some_bind, z1, Option.some_bind, b1, Option.some_bind]
  unfold forLoop at o1 ⊢
  simp only [e2, Int.toNat_ofNat] at o1 ⊢
  rw [o1]
  rfl

theorem getD_map_ofInt (l : List Int) (i : Nat) :
    (l.map ofInt).getD i 0 = ofInt (l.getD i 0) := by
  rw [zero_eq_ofInt, List.getD_map]

/-- C17 (integer-valued samples). On `double`, for `len_h ≥ 1` and `len_x ≥ 0`: if
`len_y < len_x + len_h - 1`, `conv` returns -1 and leaves `y` unchanged; otherwise, the
scratch allocations succeeding, it returns 0 and leaves every position
`idx ≥ len_x + len_h - 1` unchanged, and when `y`, `h`, `x` hold integers with
`|y[idx]| ≤ Y`, `|h[s]|, |x[t]| ≤ M`, `M < 2^53` and `Y + len_h * M * M < 2^53`, every
position `idx < len_x + len_h - 1` of `y` holds exactly its old value plus the sum of
`h[s] * x[idx - s]` over the `s` with `0 ≤ s < len_h` and `0 ≤ idx - s < len_x`. -/
theorem conv_adds_linear_convolution_on_double (y h x : List double) (len_y : Int)
    (hh : 1 ≤ h.length) (hy : len_y ≤ (y.length : Int)) :
    (len_y < (x.length : Int) + (h.length : Int) - 1 →
        ∀ a b, Binary64.conv a b y len_y h h.length x x.length = some (y, -1)) ∧
      ((x.length : Int) + (h.length : Int) - 1 ≤ len_y →
        ∃ y2, Binary64.conv true true y len_y h h.length x x.length = some (y2, 0) ∧
          y2.length = y.length ∧
          (∀ idx, x.length + h.length - 1 ≤ idx → y2[idx]? = y[idx]?) ∧
          ∀ (yI hI xI : List Int) (M Y : Nat), y = yI.map ofInt → h = hI.map ofInt →
            x = xI.map ofInt → (∀ v ∈ yI, v.natAbs ≤ Y) → (∀ v ∈ hI ++ xI, v.natAbs ≤ M) →
            M < 2 ^ 53 → Y + hI.length * (M * M) < 2 ^ 53 →
            ∀ idx v, yI[idx]? = some v →
              y2[idx]? = some (ofInt
                (if idx < xI.length + hI.length - 1 then v + convSum hI xI idx else v))) := by
  constructor
  · intro hshort a b
    simp [Binary64.conv, hshort]
  · intro hlong
    obtain ⟨y2, buf, inv_h, c1, c2, c3, c4, c5⟩ := b64_conv_run y h x len_y hh hy hlong
    refine ⟨y2, c1, c2, ?_, ?_⟩
    · intro idx hidx
      rw [c5 idx, if_neg (by omega)]
    intro yI hI xI M Y ey eh ex hY hMb hM hb
    subst ey eh ex
    simp only [List.length_map] at c3 c4 c5 hh
    have hH : ∀ v ∈ hI, v.natAbs ≤ M := fun v hv => hMb v (by simp [hv])
    have hX : ∀ v ∈ xI, v.natAbs ≤ M := fun v hv => hMb v (by simp [hv])
    intro idx v hv
    have hvy : (yI.map ofInt)[idx]? = some (ofInt v) := by
      rw [List.getElem?_map, hv]
      rfl
    have hvb : v.natAbs ≤ Y := by
      obtain ⟨hlt, hget⟩ := List.getElem?_eq_some.mp hv
      rw [← hget]
      exact hY _ (List.getElem_mem _)
    rw [c5 idx, hvy]
    by_cases hc : idx < xI.length + hI.length - 1
    · have hc2 : 0 ≤ idx ∧ idx < 0 + (xI.length + hI.length - 1) := by omega
      rw [if_pos hc, if_pos hc2, Option.map_some']
      refine congrArg some ?_
      have hcong : (List.range hI.length).foldl
          (fun acc (i : Nat) => acc + buf.getD (idx + i) 0 * inv_h.getD i 0) (ofInt v) =
          (List.range hI.length).foldl
            (fun acc (i : Nat) => acc +
              ofInt (if hI.length - 1 ≤ idx + i ∧ idx + i < hI.length - 1 + xI.length then
                xI.getD (idx + i - (hI.length - 1)) 0 else 0) *
              ofInt (hI.getD (hI.length - 1 - i) 0)) (ofInt v) := by
        apply foldl_range_congr
        intro acc i hi
        rw [c3 i hi, c4 (idx + i), getD_map_ofInt, getD_map_ofInt]
        split_ifs
        · rfl
        · exact congrArg (fun t => acc + t * ofInt (hI.getD (hI.length - 1 - i) 0))
            zero_eq_ofInt
      rw [hcong]
      obtain ⟨f1, _⟩ := foldl_mac_exact
        (fun i => if hI.length - 1 ≤ idx + i ∧ idx + i < hI.length - 1 + xI.length then
          xI.getD (idx + i - (hI.length - 1)) 0 else 0)
        (fun i => hI.getD (hI.length - 1 - i) 0) (M * M) hI.length v
        (fun i _ => by
          have hg := getD_natAbs_le hI M hH (hI.length - 1 - i)
          have hf : (if hI.length - 1 ≤ idx + i ∧ idx + i < hI.length - 1 + xI.length then
              xI.getD (idx + i - (hI.length - 1)) 0 else 0).natAbs ≤ M := by
            split_ifs
            · exact getD_natAbs_le xI M hX _
            · exact Nat.zero_le M
          exact ⟨lt_of_le_of_lt hf hM, lt_of_le_of_lt hg hM, natAbs_mul_le _ _ M M hf hg⟩)
        (by omega)
      rw [f1, foldl_add_eq_sum, convSum_window hI xI idx hh]
    · have hc2 : ¬ (0 ≤ idx ∧ idx < 0 + (xI.length + hI.length - 1)) := by omega
      rw [if_neg hc, if_neg hc2]

end ConvDouble

/-! ## Sign rules of `double` and the zero-lag tap for finite signals -/

section Signs
open double

theorem neg_neg_double (a : double) : -(-a) = a := by
  show double.neg (double.neg a) = a
  cases a <;> simp [double.neg]

theorem neg_roundEven (s : Bool) (n sh : Nat) :
    double.neg (roundEven s n sh) = roundEven (!s) n sh := by
  unfold roundEven
  split_ifs <;> rfl

theorem mul_neg_double (a b : double) : a * -b = -(a * b) := by
  show double.mul a (double.neg b) = double.neg (double.mul a b)
  cases a with
  | nan => cases b <;> rfl
  | inf s =>
    cases b with
    | nan => rfl
    | inf t => simp [double.mul, double.neg, Bool.xor_not]
    | fin t b => by_cases h : b = 0 <;> simp [double.mul, double.neg, h, Bool.xor_not]
  | fin s a =>
    cases b with
    | nan => rfl
    | inf t => by_cases h : a = 0 <;> simp [double.mul, double.neg, h, Bool.xor_not]
    | fin t b =>
      show roundEven (xor s (!t)) (a * b) 1074 = double.neg (roundEven (xor s t) (a * b) 1074)
      rw [neg_roundEven, Bool.xor_not]

theorem mul_comm_double (a b : double) : a * b = b * a := by
  show double.mul a b = double.mul b a
  cases a <;> cases b <;> simp only [double.mul, Bool.xor_comm, Nat.mul_comm]

theorem sub_neg_double (a b : double) : a - -b = a + b := by
  show double.add a (double.neg (-b)) = double.add a b
  have h : double.neg (-b) = b := neg_neg_double b
  rw [h]

theorem zero_eq_fin : (0 : double) = fin false 0 := by
  have h := ofInt_eq 0 (by decide)
  rw [Int.natAbs_zero, Nat.zero_mul] at h
  exact h

theorem neg_add_self_fin (s : Bool) (m : Nat) : -(fin s m) + fin s m = 0 := by
  rw [zero_eq_fin]
  show double.add (double.neg (fin s m)) (fin s m) = fin false 0
  cases s <;> simp [double.neg, double.add]

theorem zero_add_zero_double : (0 : double) + 0 = 0 := by
  rw [zero_eq_fin]
  show double.add (fin false 0) (fin false 0) = fin false 0
  simp only [double.add, if_true, Nat.add_zero]
  exact roundEven_zero false 0

/-- The product of a complex value and its conjugate: the real part is the sum of the two
squares, and the imaginary part is zero as soon as `re * im` is finite. -/
theorem mulComp_conj (z : complex double) (h : (z.re * z.im).isfinite = true) :
    Binary64.mulComp z (Binary64.conjComp z) = { re := z.re * z.re + z.im * z.im, im := 0 } := by
  unfold Binary64.mulComp Binary64.conjComp
  refine congrArg₂ complex.mk ?_ ?_
  · show z.re * z.re - z.im * -z.im = z.re * z.re + z.im * z.im
    rw [mul_neg_double, sub_neg_double]
  · show z.re * -z.im + z.im * z.re = 0
    rw [mul_neg_double, mul_comm_double z.im z.re]
    generalize z.re * z.im = p at h
    cases p with
    | fin s m => exact neg_add_self_fin s m
    | inf s => exact absurd h (by simp [double.isfinite])
    | nan => exact absurd h (by simp [double.isfinite])

theorem foldl_energy (pow : double → double → double) :
    ∀ (l : List (complex double)) (u : double),
      (∀ z ∈ l, (z.re * z.im).isfinite = true) →
      (∀ z ∈ l, pow z.re 2 = z.re * z.re ∧ pow z.im 2 = z.im * z.im) →
      l.foldl (fun acc z => Binary64.addComp acc (Binary64.mulComp z (Binary64.conjComp z)))
          { re := u, im := 0 } =
        { re := (l.map (Binary64.absSqrComp pow)).foldl (fun a b => a + b) u, im := 0 } := by
  intro l
  induction l with
  | nil => intro u _ _; rfl
  | cons z l ih =>
    intro u hf hp
    have hz := hf z (List.mem_cons_self _ _)
    obtain ⟨p1, p2⟩ := hp z (List.mem_cons_self _ _)
    simp only [List.foldl_cons, List.map_cons]
    rw [mulComp_conj z hz]
    have e : Binary64.addComp { re := u, im := 0 }
        { re := z.re * z.re + z.im * z.im, im := 0 } =
        { re := u + Binary64.absSqrComp pow z, im := 0 } := by
      unfold Binary64.addComp Binary64.genComp Binary64.absSqrComp
      rw [p1, p2]
      exact congrArg₂ complex.mk rfl zero_add_zero_double
    rw [e]
    exact ih _ (fun w hw => hf w (List.mem_cons_of_mem _ hw))
      (fun w hw => hp w (List.mem_cons_of_mem _ hw))

end Signs

section ZeroLag
variable {β : Type}

theorem foldl_range_reverse {γ : Type} (g : β → γ → β) (d : γ) :
    ∀ (l : List γ) (a : β),
      (List.range l.length).foldl (fun acc i => g acc (l.getD (l.length - 1 - i) d)) a =
        l.reverse.foldl g a := by
  intro l
  induction l with
  | nil => intro a; rfl
  | cons z t ih =>
    intro a
    rw [List.length_cons, List.range_succ, List.foldl_append, List.reverse_cons,
      List.foldl_append]
    have h1 : (List.range t.length).foldl
        (fun acc i => g acc ((z :: t).getD (t.length + 1 - 1 - i) d)) a =
        (List.range t.length).foldl (fun acc i => g acc (t.getD (t.length - 1 - i) d)) a := by
      apply foldl_range_congr
      intro acc i hi
      have e : t.length + 1 - 1 - i = (t.length - 1 - i) + 1 := by omega
      rw [e, List.getD_cons_succ]
    rw [h1, ih a]
    simp

/-- The window of the last rising position `m - 1` of two signals of length `m` pairs
`rev[j]` with `local[j]`, from `j = m - 1` down to `j = 0`. -/
theorem posVal_zero_lag_fold (zero : β) (add mul : β → β → β) (f : β → β) (x : List β)
    (hm : 1 ≤ x.length) :
    posVal zero add mul x (x.map f) (x.length - 1) =
      x.reverse.foldl (fun acc z => add acc (mul z (f z))) zero := by
  have hk : ((x.length - 1 : Nat) : Int) = (x.length : Int) - 1 := by omega
  unfold posVal
  rw [if_neg (by simp only [List.length_map]; omega)]
  unfold winVal
  simp only [List.length_map]
  have hb : (winBound x.length x.length ((x.length - 1 : Nat) : Int)).toNat = x.length := by
    unfold winBound
    rw [if_pos (le_refl _), if_pos (by omega)]
    omega
  rw [hb, ← foldl_range_reverse (fun acc z => add acc (mul z (f z))) zero x zero]
  apply foldl_range_congr
  intro acc i hi
  have hr : (winRev x.length x.length ((x.length - 1 : Nat) : Int) (i : Int)).toNat =
      x.length - 1 - i := by
    unfold winRev
    rw [if_pos (le_refl _), if_pos (by omega)]
    omega
  have hl : (winLoc x.length x.length ((x.length - 1 : Nat) : Int) (i : Int)).toNat =
      x.length - 1 - i := by
    unfold winLoc
    rw [if_pos (le_refl _), if_pos (by omega)]
    omega
  rw [hr, hl]
  have hj : x.length - 1 - i < x.length := by omega
  rw [List.getD_eq_getElem x zero hj,
    List.getD_eq_getElem (x.map f) zero (by simpa using hj), List.getElem_map]

end ZeroLag

section Energy
open double

theorem absSqr_exact (pow : double → double → double) (z : complex Int) (M : Nat)
    (p1 : pow (toDouble z).re 2 = (toDouble z).re * (toDouble z).re)
    (p2 : pow (toDouble z).im 2 = (toDouble z).im * (toDouble z).im)
    (h1 : z.re.natAbs ≤ M) (h2 : z.im.natAbs ≤ M) (hP : 2 * (M * M) < 2 ^ 53) :
    rep (Binary64.absSqrComp pow (toDouble z)) (absSqrComp z) ∧
      (absSqrComp z).natAbs ≤ 2 * (M * M) := by
  have q1 := natAbs_mul_le z.re z.re M M h1 h1
  have q2 := natAbs_mul_le z.im z.im M M h2 h2
  have hM : M < 2 ^ 53 := by
    have := Nat.le_mul_self M
    omega
  have e : absSqrComp z = z.re * z.re + z.im * z.im := by
    unfold absSqrComp
    ring
  rw [e]
  refine ⟨?_, by omega⟩
  unfold Binary64.absSqrComp
  rw [p1, p2]
  simp only [toDouble]
  exact rep_add _ _ (z.re * z.re) (z.im * z.im)
    (rep_mul _ _ z.re z.re (rep_ofInt z.re (by omega)) (rep_ofInt z.re (by omega)) (by omega))
    (rep_mul _ _ z.im z.im (rep_ofInt z.im (by omega)) (rep_ofInt z.im (by omega)) (by omega))
    (by omega)

theorem foldl_absSqr_exact (pow : double → double → double) (M : Nat) :
    ∀ (l : List (complex Int)) (a : Int),
      (∀ z ∈ l, z.re.natAbs ≤ M ∧ z.im.natAbs ≤ M) →
      (∀ z ∈ l.map toDouble, pow z.re 2 = z.re * z.re ∧ pow z.im 2 = z.im * z.im) →
      a.natAbs + l.length * (2 * (M * M)) < 2 ^ 53 →
      ((l.map toDouble).map (Binary64.absSqrComp pow)).foldl (fun u v => u + v) (ofInt a) =
          ofInt (a + (l.map absSqrComp).sum) ∧
        (a + (l.map absSqrComp).sum).natAbs ≤ a.natAbs + l.length * (2 * (M * M)) := by
  intro l
  induction l with
  | nil =>
    intro a _ _ _
    simp
  | cons z l ih =>
    intro a h hp hb
    have e : (l.length + 1) * (2 * (M * M)) = l.length * (2 * (M * M)) + 2 * (M * M) := by
      ring
    simp only [List.length_cons] at hb ⊢
    rw [e] at hb ⊢
    obtain ⟨hz1, hz2⟩ := h z (List.mem_cons_self _ _)
    obtain ⟨p1, p2⟩ := hp (toDouble z) (by simp)
    obtain ⟨s1, s2⟩ := absSqr_exact pow z M p1 p2 hz1 hz2 (by omega)
    have hstep := add_ofInt_rep a (absSqrComp z) _ (by omega) s1 (by omega)
    obtain ⟨i1, i2⟩ := ih (a + absSqrComp z)
      (fun w hw => h w (List.mem_cons_of_mem _ hw))
      (fun w hw => hp w (by
        rw [List.map_cons]
        exact List.mem_cons_of_mem _ hw)) (by omega)
    simp only [List.map_cons, List.foldl_cons, List.sum_cons]
    rw [hstep, i1, add_assoc]
    exact ⟨rfl, by rw [add_assoc] at i2; omega⟩

/-- C28 (finite signal, summed from the last sample). On `double`, for a complex signal `x`
of length `m ≥ 1` in which every product `re * im` is finite, for `len_output ≥ m`, and for
a `pow` whose square of each component of `x` is the rounded product, `xcorr_rangeComp`
with `rev = local = x` and the upper bound disabled leaves at position `m - 1` the value
`(S, 0)`, where `S` is obtained by adding `absSqrComp(x[m-1])`, ..., `absSqrComp(x[0])` to 0
in this order. When the components of `x` are integers of absolute value at most `M` with
`M < 2^53` and `m * (2 * M * M) < 2^53`, no addition rounds and `S` is the integer sum of
`re² + im²`. -/
theorem xcorr_rangeComp_zero_lag_finite (sqrt : double → double)
    (pow : double → double → double) (output x : List (complex double)) (len_output : Int)
    (min_threshold : double)
    (hm : 1 ≤ x.length) (hlen : (x.length : Int) ≤ len_output)
    (hbuf : len_output ≤ (output.length : Int))
    (hfin : ∀ z ∈ x, (z.re * z.im).isfinite = true)
    (hpow : ∀ z ∈ x, pow z.re 2 = z.re * z.re ∧ pow z.im 2 = z.im * z.im) :
    (∃ r, Binary64.xcorr_rangeComp sqrt pow output len_output x x.length x x.length
          Binary64.MAX_MAGIC min_threshold = some r ∧
        r.output[x.length - 1]? =
          some { re := (x.reverse.map (Binary64.absSqrComp pow)).foldl (fun u v => u + v) 0,
                 im := 0 }) ∧
      ∀ (xI : List (complex Int)) (M : Nat), x = xI.map toDouble →
        (∀ z ∈ xI, z.re.natAbs ≤ M ∧ z.im.natAbs ≤ M) → M < 2 ^ 53 →
        xI.length * (2 * (M * M)) < 2 ^ 53 →
        (x.reverse.map (Binary64.absSqrComp pow)).foldl (fun u v => u + v) 0 =
          ofInt ((xI.map absSqrComp).sum) := by
  obtain ⟨r, r1, _, _, r4⟩ := b64_xcorr_rangeComp_get sqrt pow output len_output x x
    min_threshold hbuf
  refine ⟨⟨r, r1, ?_⟩, ?_⟩
  · rw [r4 (x.length - 1) (by omega),
      posVal_zero_lag_fold (Binary64.genComp 0 0) Binary64.addComp Binary64.mulComp
        Binary64.conjComp x hm]
    exact congrArg some (foldl_energy pow x.reverse 0
      (fun z hz => hfin z (List.mem_reverse.mp hz))
      (fun z hz => hpow z (List.mem_reverse.mp hz)))
  · intro xI M hx hb _ hW
    subst hx
    obtain ⟨f1, _⟩ := foldl_absSqr_exact pow M xI.reverse 0
      (fun z hz => hb z (List.mem_reverse.mp hz))
      (fun z hz => hpow z (by
        rw [List.map_reverse] at hz
        exact List.mem_reverse.mp hz))
      (by simpa using hW)
    rw [zero_add, List.map_reverse] at f1
    rw [List.map_reverse absSqrComp xI, List.sum_reverse] at f1
    exact f1

set_option exponentiation.threshold 10000 in
set_option maxRecDepth 100000 in
/-- C28 at `x = [1 + 2i, 3 - i]` with `len_output = 3` and `M = 3`, `pow(v, 2)` being the
rounded product `v * v`: position 1 holds `(9 + 1) + (1 + 4) = 15`. -/
theorem xcorr_rangeComp_zero_lag_finite_witness :
    1 ≤ (([⟨1, 2⟩, ⟨3, -1⟩] : List (complex Int)).map toDouble).length ∧
      ((([⟨1, 2⟩, ⟨3, -1⟩] : List (complex Int)).map toDouble).length : Int) ≤ 3 ∧
      (3 : Int) ≤ (([⟨0, 0⟩, ⟨0, 0⟩, ⟨0, 0⟩] : List (complex double)).length : Int) ∧
      (∀ z ∈ ([⟨1, 2⟩, ⟨3, -1⟩] : List (complex Int)).map toDouble,
        (z.re * z.im).isfinite = true) ∧
      (∀ z ∈ ([⟨1, 2⟩, ⟨3, -1⟩] : List (complex Int)).map toDouble,
        (fun (u : double) (_ : double) => u * u) z.re 2 = z.re * z.re ∧
          (fun (u : double) (_ : double) => u * u) z.im 2 = z.im * z.im) ∧
      (∃ r, Binary64.xcorr_rangeComp (fun v => v) (fun u _ => u * u)
            [⟨0, 0⟩, ⟨0, 0⟩, ⟨0, 0⟩] 3
            (([⟨1, 2⟩, ⟨3, -1⟩] : List (complex Int)).map toDouble)
            (([⟨1, 2⟩, ⟨3, -1⟩] : List (complex Int)).map toDouble).length
            (([⟨1, 2⟩, ⟨3, -1⟩] : List (complex Int)).map toDouble)
            (([⟨1, 2⟩, ⟨3, -1⟩] : List (complex Int)).map toDouble).length
            Binary64.MAX_MAGIC 0 = some r ∧
        r.output[(([⟨1, 2⟩, ⟨3, -1⟩] : List (complex Int)).map toDouble).length - 1]? =
          some { re := (((([⟨1, 2⟩, ⟨3, -1⟩] : List (complex Int)).map toDouble).reverse).map
                   (Binary64.absSqrComp (fun u _ => u * u))).foldl (fun u v => u + v) 0,
                 im := 0 }) ∧
      (∀ z ∈ ([⟨1, 2⟩, ⟨3, -1⟩] : List (complex Int)), z.re.natAbs ≤ 3 ∧ z.im.natAbs ≤ 3) ∧
      3 < 2 ^ 53 ∧ ([⟨1, 2⟩, ⟨3, -1⟩] : List (complex Int)).length * (2 * (3 * 3)) < 2 ^ 53 ∧
      (((([⟨1, 2⟩, ⟨3, -1⟩] : List (complex Int)).map toDouble).reverse).map
          (Binary64.absSqrComp (fun u _ => u * u))).foldl (fun u v => u + v) 0 =
        ofInt ((([⟨1, 2⟩, ⟨3, -1⟩] : List (complex Int)).map absSqrComp).sum) :=
  ⟨by decide, by decide, by decide, by decide, fun _ _ => ⟨rfl, rfl⟩,
    (xcorr_rangeComp_zero_lag_finite (fun v => v) (fun u _ => u * u)
      [⟨0, 0⟩, ⟨0, 0⟩, ⟨0, 0⟩] (([⟨1, 2⟩, ⟨3, -1⟩] : List (complex Int)).map toDouble) 3 0
      (by decide) (by decide) (by decide) (by decide) (fun _ _ => ⟨rfl, rfl⟩)).1,
    by decide, by decide, by decide,
    (xcorr_rangeComp_zero_lag_finite (fun v => v) (fun u _ => u * u)
      [⟨0, 0⟩, ⟨0, 0⟩, ⟨0, 0⟩] (([⟨1, 2⟩, ⟨3, -1⟩] : List (complex Int)).map toDouble) 3 0
      (by decide) (by decide) (by decide) (by decide) (fun _ _ => ⟨rfl, rfl⟩)).2
      [⟨1, 2⟩, ⟨3, -1⟩] 3 rfl (by decide) (by decide) (by decide)⟩

end Energy

/-! ## Values of binary64: rounding is idempotent, zeros are neutral -/

section Valid
open double
set_option exponentiation.threshold 5000

theorem log2Search_gt (n : Nat) :
    ∀ (k acc : Nat), n < 2 ^ (acc + 2 ^ k) → n < 2 ^ (log2Search k n acc + 1) := by
  intro k
  induction k with
  | zero =>
    intro acc h
    rw [pow_zero] at h
    exact h
  | succ k ih =>
    intro acc h
    unfold log2Search
    split_ifs with hc
    · apply ih
      have e : acc + 2 ^ k + 2 ^ k = acc + 2 ^ (k + 1) := by
        rw [pow_succ]
        omega
      rw [e]
      exact h
    · exact ih acc (Nat.not_le.mp hc)

theorem bitLen_gt (n : Nat) (h : n < 2 ^ (2 ^ 13)) : n < 2 ^ bitLen n := by
  unfold bitLen
  split_ifs with h0
  · rw [h0]
    exact Nat.two_pow_pos 0
  · exact log2Search_gt n 13 0 (by rw [Nat.zero_add]; exact h)

theorem bitLen_lower (n : Nat) (h0 : 0 < n) : 2 ^ (bitLen n - 1) ≤ n := by
  unfold bitLen
  rw [if_neg (Nat.pos_iff_ne_zero.mp h0), Nat.add_sub_cancel]
  exact log2Search_le 13 n 0 (by rw [pow_zero]; exact h0)

theorem roundMag_form (n sh : Nat) (h : n < 2 ^ (2 ^ 13)) :
    ∃ K e, K < 2 ^ 53 ∧ roundMag n sh = K * 2 ^ e := by
  have hb := bitLen_gt n h
  unfold roundMag
  generalize hd : max sh (bitLen n - 53) = d
  have hd2 : bitLen n - 53 ≤ d := by
    rw [← hd]
    exact le_max_right _ _
  have hq : n / 2 ^ d < 2 ^ 53 := by
    apply Nat.div_lt_of_lt_mul
    calc n < 2 ^ bitLen n := hb
      _ ≤ 2 ^ (d + 53) := Nat.pow_le_pow_right (by norm_num) (by omega)
      _ = 2 ^ d * 2 ^ 53 := pow_add 2 d 53
  simp only []
  split_ifs with hc
  · by_cases hq2 : n / 2 ^ d + 1 < 2 ^ 53
    · exact ⟨_, _, hq2, rfl⟩
    · refine ⟨2 ^ 52, d - sh + 1, by norm_num, ?_⟩
      have e : n / 2 ^ d + 1 = 2 ^ 52 * 2 := by omega
      rw [e, Nat.mul_assoc, ← pow_succ']
  · exact ⟨_, _, hq, rfl⟩

theorem roundMag_idem (n sh : Nat) (h : n < 2 ^ (2 ^ 13)) :
    roundMag (roundMag n sh) 0 = roundMag n sh := by
  obtain ⟨K, e, hK, hr⟩ := roundMag_form n sh h
  rw [hr]
  have := roundMag_exact K 0 e hK
  rwa [Nat.zero_add] at this

theorem roundMag_pos (n : Nat) (h0 : 0 < n) : 0 < roundMag n 0 := by
  have hl := bitLen_lower n h0
  unfold roundMag
  generalize hd : max 0 (bitLen n - 53) = d
  have hd2 : d ≤ bitLen n - 1 := by
    rw [← hd]
    exact max_le (Nat.zero_le _) (by omega)
  have hle : 2 ^ d ≤ n := le_trans (Nat.pow_le_pow_right (by norm_num) hd2) hl
  have hq : 0 < n / 2 ^ d := Nat.div_pos hle (Nat.two_pow_pos d)
  simp only []
  split_ifs
  · exact Nat.mul_pos (Nat.succ_pos _) (Nat.two_pow_pos _)
  · exact Nat.mul_pos hq (Nat.two_pow_pos _)

theorem huge_pos : 0 < huge := by
  unfold huge
  exact Nat.two_pow_pos 2098

theorem huge_sq_le : huge * huge ≤ 2 ^ (2 ^ 13) := by
  unfold huge
  rw [← pow_add]
  exact Nat.pow_le_pow_right (by decide) (by decide)

theorem huge_two_le : huge + huge ≤ 2 ^ (2 ^ 13) := by
  have h1 : huge + huge ≤ huge * huge := by
    have h2 : 2 ≤ huge := by
      unfold huge
      calc 2 = 2 ^ 1 := rfl
        _ ≤ 2 ^ 2098 := Nat.pow_le_pow_right (by decide) (by decide)
    calc huge + huge = 2 * huge := (Nat.two_mul huge).symm
      _ ≤ huge * huge := Nat.mul_le_mul_right huge h2
  exact le_trans h1 huge_sq_le

theorem isBinary64_fin (s : Bool) (m : Nat) (h : (fin s m).isBinary64 = true) :
    m < huge ∧ roundMag m 0 = m := by
  simpa only [isBinary64, Bool.and_eq_true, decide_eq_true_eq] using h

theorem isBinary64_roundEven (s : Bool) (n sh : Nat) (h : n < 2 ^ (2 ^ 13)) :
    (roundEven s n sh).isBinary64 = true := by
  unfold roundEven
  split_ifs with hc
  · rfl
  · simp only [isBinary64, Bool.and_eq_true, decide_eq_true_eq]
    exact ⟨Nat.not_le.mp hc, roundMag_idem n sh h⟩

theorem isBinary64_zero (s : Bool) : (fin s 0).isBinary64 = true := by
  have h := isBinary64_roundEven s 0 0 (Nat.two_pow_pos _)
  rwa [roundEven_zero] at h

theorem roundEven_of_isBinary64 (s : Bool) (m : Nat) (h : (fin s m).isBinary64 = true) :
    roundEven s m 0 = fin s m := by
  obtain ⟨h1, h2⟩ := isBinary64_fin s m h
  unfold roundEven
  rw [h2, if_neg (Nat.not_le.mpr h1)]

theorem isBinary64_mul (a b : double) (ha : a.isBinary64 = true) (hb : b.isBinary64 = true) :
    (a * b).isBinary64 = true := by
  show (double.mul a b).isBinary64 = true
  cases a with
  | nan => cases b <;> rfl
  | inf s =>
    cases b with
    | nan => rfl
    | inf t => rfl
    | fin t b =>
      simp only [double.mul]
      split_ifs <;> rfl
  | fin s a =>
    cases b with
    | nan => rfl
    | inf t =>
      simp only [double.mul]
      split_ifs <;> rfl
    | fin t b =>
      have h1 := (isBinary64_fin s a ha).1
      have h2 := (isBinary64_fin t b hb).1
      exact isBinary64_roundEven _ _ _
        (lt_of_lt_of_le (Nat.mul_lt_mul'' h1 h2) huge_sq_le)

theorem isBinary64_add (a b : double) (ha : a.isBinary64 = true) (hb : b.isBinary64 = true) :
    (a + b).isBinary64 = true := by
  show (double.add a b).isBinary64 = true
  cases a with
  | nan => cases b <;> rfl
  | inf s =>
    cases b with
    | nan => rfl
    | inf t =>
      simp only [double.add]
      split_ifs <;> rfl
    | fin t b => rfl
  | fin s a =>
    cases b with
    | nan => rfl
    | inf t => rfl
    | fin t b =>
      have h1 := (isBinary64_fin s a ha).1
      have h2 := (isBinary64_fin t b hb).1
      have hs : a + b < 2 ^ (2 ^ 13) :=
        lt_of_lt_of_le (Nat.add_lt_add h1 h2) huge_two_le
      have hle : huge ≤ 2 ^ (2 ^ 13) := le_trans (Nat.le_add_left _ _) huge_two_le
      simp only [double.add]
      split_ifs
      · exact isBinary64_roundEven _ _ _ hs
      · exact isBinary64_roundEven _ _ _
          (lt_of_le_of_lt (Nat.sub_le a b) (lt_of_lt_of_le h1 hle))
      · exact isBinary64_roundEven _ _ _
          (lt_of_le_of_lt (Nat.sub_le b a) (lt_of_lt_of_le h2 hle))
      · exact isBinary64_zero false

/-- Adding a zero of either sign to a value of binary64 other than `-0` leaves it
unchanged. -/
theorem add_zero_of_isBinary64 (u : double) (t : Bool) (hu : u.isBinary64 = true)
    (hn : u ≠ fin true 0) : u + fin t 0 = u := by
  show double.add u (fin t 0) = u
  cases u with
  | nan => rfl
  | inf s => rfl
  | fin s a =>
    by_cases ha : a = 0
    · subst ha
      have hs : s = false := by
        cases s
        · rfl
        · exact absurd rfl hn
      subst hs
      cases t
      · simp only [double.add, if_true, Nat.add_zero]
        exact roundEven_zero false 0
      · simp [double.add]
    · have hpos : 0 < a := Nat.pos_of_ne_zero ha
      have hr := roundEven_of_isBinary64 s a hu
      simp only [double.add, hpos, if_true, Nat.add_zero, Nat.sub_zero]
      split_ifs <;> exact hr

/-- A sum is `-0` only if its first term is. -/
theorem add_ne_negZero (u x : double) (hn : u ≠ fin true 0) : u + x ≠ fin true 0 := by
  show double.add u x ≠ fin true 0
  cases u with
  | nan => cases x <;> simp [double.add]
  | inf s =>
    cases x with
    | nan => simp [double.add]
    | inf t =>
      simp only [double.add]
      split_ifs <;> simp
    | fin t b => simp [double.add]
  | fin s a =>
    cases x with
    | nan => simp [double.add]
    | inf t => simp [double.add]
    | fin t b =>
      rw [add_fin]
      split_ifs with h0
      · intro hc
        have hst : (s && t) = true := by
          injection hc
        have hs : s = true := by
          cases s
          · simp at hst
          · rfl
        have ht : t = true := by
          cases t
          · simp at hst
          · rfl
        subst hs ht
        simp only [sval, if_true] at h0
        have ha : a = 0 := by omega
        exact hn (by rw [ha])
      · unfold roundEven
        split_ifs
        · simp
        · intro hc
          have hz : roundMag (sval s a + sval t b).natAbs 0 = 0 := by
            injection hc
          have hp := roundMag_pos (sval s a + sval t b).natAbs (Int.natAbs_pos.mpr h0)
          omega

end Valid

/-! ## Real signals in the complex engine -/

section RealInComplex
open double

theorem foldl_rel {β γ ι : Type} (R : β → γ → Prop) (F : β → ι → β)
    (G : γ → ι → γ) (hstep : ∀ b c i, R b c → R (F b i) (G c i)) :
    ∀ (l : List ι) (b : β) (c : γ), R b c → R (l.foldl F b) (l.foldl G c) := by
  intro l
  induction l with
  | nil => intro b c h; exact h
  | cons i l ih => intro b c h; exact ih _ _ (hstep b c i h)

theorem eq_zero_double (a : double) (h : double.eq a 0 = true) : ∃ s, a = fin s 0 := by
  rw [zero_eq_fin] at h
  cases a with
  | nan => exact absurd h (by decide)
  | inf s =>
    have h0 : decide (sval s huge = sval false 0) = true := h
    have h1 := congrArg Int.natAbs (of_decide_eq_true h0)
    rw [sval_natAbs_eq, sval_natAbs_eq] at h1
    exact absurd h1 (Nat.pos_iff_ne_zero.mp huge_pos)
  | fin s m =>
    have h0 : decide (sval s m = sval false 0) = true := h
    have h1 := congrArg Int.natAbs (of_decide_eq_true h0)
    rw [sval_natAbs_eq, sval_natAbs_eq] at h1
    exact ⟨s, by rw [h1]⟩

theorem fin_of_isfinite (a : double) (h : a.isfinite = true) : ∃ s m, a = fin s m := by
  cases a with
  | nan => simp [double.isfinite] at h
  | inf s => simp [double.isfinite] at h
  | fin s m => exact ⟨s, m, rfl⟩

theorem mul_zero_right_fin (s t : Bool) (m : Nat) : fin s m * fin t 0 = fin (xor s t) 0 := by
  show double.mul (fin s m) (fin t 0) = fin (xor s t) 0
  simp only [double.mul, Nat.mul_zero]
  exact roundEven_zero _ _

theorem mul_zero_left_fin (s t : Bool) (m : Nat) : fin s 0 * fin t m = fin (xor s t) 0 := by
  show double.mul (fin s 0) (fin t m) = fin (xor s t) 0
  simp only [double.mul, Nat.zero_mul]
  exact roundEven_zero _ _

theorem add_zero_zero_fin (s t : Bool) : fin s 0 + fin t 0 = fin (s && t) 0 := by
  show double.add (fin s 0) (fin t 0) = fin (s && t) 0
  rw [add_fin, sval_zero, sval_zero, if_pos (by norm_num)]

/-- The product of two complex values with finite real parts and zero imaginary parts: the
real part is the product of the real parts plus a zero, the imaginary part is a zero. -/
theorem mulComp_real (a b : complex double)
    (ha : double.eq a.im 0 = true ∧ a.re.isfinite = true)
    (hb : double.eq b.im 0 = true ∧ b.re.isfinite = true) :
    ∃ t1 t2, Binary64.mulComp a b = { re := a.re * b.re + fin t1 0, im := fin t2 0 } := by
  obtain ⟨sa, ea⟩ := eq_zero_double _ ha.1
  obtain ⟨sb, eb⟩ := eq_zero_double _ hb.1
  obtain ⟨s1, m1, e1⟩ := fin_of_isfinite _ ha.2
  obtain ⟨s2, m2, e2⟩ := fin_of_isfinite _ hb.2
  refine ⟨!(xor sa sb), (xor s1 sb) && (xor sa s2), ?_⟩
  unfold Binary64.mulComp
  refine congrArg₂ complex.mk ?_ ?_
  · show a.re * b.re - a.im * b.im = a.re * b.re + fin (!(xor sa sb)) 0
    rw [ea, eb, mul_zero_right_fin]
    rfl
  · show a.re * b.im + a.im * b.re = fin ((xor s1 sb) && (xor sa s2)) 0
    rw [ea, eb, e1, e2, mul_zero_right_fin, mul_zero_left_fin, add_zero_zero_fin]

/-- One step of the complex window sum on an accumulator `(u, 0)`, for `u` a value of
binary64 other than `-0`: the imaginary part stays `0` and the real part is the step of the
real window sum. -/
theorem macComp_real (u : double) (a b : complex double) (hu : u.isBinary64 = true)
    (hn : u ≠ fin true 0)
    (ha : double.eq a.im 0 = true ∧ a.re.isfinite = true ∧ a.re.isBinary64 = true)
    (hb : double.eq b.im 0 = true ∧ b.re.isfinite = true ∧ b.re.isBinary64 = true) :
    Binary64.addComp { re := u, im := 0 } (Binary64.mulComp a b) =
      { re := u + a.re * b.re, im := 0 } := by
  obtain ⟨t1, t2, hm⟩ := mulComp_real a b ⟨ha.1, ha.2.1⟩ ⟨hb.1, hb.2.1⟩
  have hp := isBinary64_mul a.re b.re ha.2.2 hb.2.2
  rw [hm]
  unfold Binary64.addComp Binary64.genComp
  refine congrArg₂ complex.mk ?_ ?_
  · show u + (a.re * b.re + fin t1 0) = u + a.re * b.re
    by_cases hz : a.re * b.re = fin true 0
    · rw [hz, add_zero_zero_fin, add_zero_of_isBinary64 u _ hu hn,
        add_zero_of_isBinary64 u _ hu hn]
    · rw [add_zero_of_isBinary64 _ t1 hp hz]
  · show (0 : double) + fin t2 0 = 0
    rw [zero_eq_fin]
    exact add_zero_of_isBinary64 _ t2 (isBinary64_zero false) (by simp)

theorem getD_real_part (l : List (complex double)) (j : Nat) :
    (l.map complex.re).getD j 0 = (l.getD j (Binary64.genComp 0 0)).re := by
  have h := List.getD_map (l := l) (d := Binary64.genComp 0 0) (n := j) complex.re
  exact h

theorem getD_conj_real_part (l : List (complex double)) (j : Nat) :
    (l.map complex.re).getD j 0 =
      ((l.map Binary64.conjComp).getD j (Binary64.genComp 0 0)).re := by
  by_cases hj : j < l.length
  · rw [List.getD_eq_getElem _ _ (by simpa using hj),
      List.getD_eq_getElem _ _ (by simpa using hj), List.getElem_map, List.getElem_map]
    rfl
  · rw [List.getD_eq_default _ _ (by simpa using hj),
      List.getD_eq_default _ _ (by simpa using hj)]
    rfl

theorem neg_zero_eq_zero (a : double) (h : double.eq a 0 = true) :
    double.eq (-a) 0 = true := by
  obtain ⟨s, rfl⟩ := eq_zero_double a h
  rw [zero_eq_fin]
  show double.eq (fin (!s) 0) (fin false 0) = true
  simp [double.eq, double.key, sval_zero]

theorem zero_good :
    double.eq (Binary64.genComp 0 0).im 0 = true ∧ (Binary64.genComp 0 0).re.isfinite = true ∧
      (Binary64.genComp 0 0).re.isBinary64 = true := by
  show double.eq 0 0 = true ∧ (0 : double).isfinite = true ∧ (0 : double).isBinary64 = true
  rw [zero_eq_fin]
  exact ⟨by simp [double.eq, double.key], rfl, isBinary64_zero false⟩

theorem getD_good (l : List (complex double))
    (h : ∀ z ∈ l, double.eq z.im 0 = true ∧ z.re.isfinite = true ∧ z.re.isBinary64 = true)
    (j : Nat) :
    double.eq (l.getD j (Binary64.genComp 0 0)).im 0 = true ∧
      (l.getD j (Binary64.genComp 0 0)).re.isfinite = true ∧
      (l.getD j (Binary64.genComp 0 0)).re.isBinary64 = true := by
  by_cases hj : j < l.length
  · rw [List.getD_eq_getElem _ _ hj]
    exact h _ (List.getElem_mem _)
  · rw [List.getD_eq_default _ _ (by omega)]
    exact zero_good

/-- For signals with finite real parts and zero imaginary parts the complex window sum is
the real window sum of the real parts, with imaginary part `0`. -/
theorem posVal_real_in_complex (rev loc : List (complex double))
    (h : ∀ z ∈ rev ++ loc,
      double.eq z.im 0 = true ∧ z.re.isfinite = true ∧ z.re.isBinary64 = true)
    (k : Nat) :
    posVal (Binary64.genComp 0 0) Binary64.addComp Binary64.mulComp rev
        (loc.map Binary64.conjComp) k =
      { re := posVal 0 (fun a b => a + b) (fun a b => a * b) (rev.map complex.re)
          (loc.map complex.re) k,
        im := 0 } := by
  have hrev := getD_good rev (fun z hz => h z (by simp [hz]))
  have hloc := getD_good (loc.map Binary64.conjComp) (by
    intro z hz
    obtain ⟨w, hw, rfl⟩ := List.mem_map.mp hz
    have hw2 := h w (by simp [hw])
    exact ⟨neg_zero_eq_zero _ hw2.1, hw2.2⟩)
  unfold posVal
  simp only [List.length_map]
  split_ifs
  · rfl
  · unfold winVal
    simp only [List.length_map]
    have key := foldl_rel
      (fun (c : complex double) (u : double) =>
        c = { re := u, im := 0 } ∧ u.isBinary64 = true ∧ u ≠ fin true 0)
      (fun acc (i : Nat) => Binary64.addComp acc (Binary64.mulComp
        (rev.getD (winRev rev.length loc.length k (i : Int)).toNat (Binary64.genComp 0 0))
        ((loc.map Binary64.conjComp).getD (winLoc rev.length loc.length k (i : Int)).toNat
          (Binary64.genComp 0 0))))
      (fun acc (i : Nat) =>
        acc + (rev.map complex.re).getD (winRev rev.length loc.length k (i : Int)).toNat 0 *
          (loc.map complex.re).getD (winLoc rev.length loc.length k (i : Int)).toNat 0)
      (by
        rintro c u i ⟨rfl, hu, hn⟩
        have ha := hrev (winRev rev.length loc.length k (i : Int)).toNat
        have hb := hloc (winLoc rev.length loc.length k (i : Int)).toNat
        beta_reduce
        rw [getD_real_part, getD_conj_real_part]
        exact ⟨macComp_real u _ _ hu hn ha hb,
          isBinary64_add _ _ hu (isBinary64_mul _ _ ha.2.2 hb.2.2),
          add_ne_negZero _ _ hn⟩)
      (List.range (winBound rev.length loc.length k).toNat) (Binary64.genComp 0 0) 0
      ⟨rfl, zero_good.2.2, by rw [zero_eq_fin]; simp⟩
    exact key.1

/-- C14 (real signals; integer-valued signals). On `double`, with the upper bound disabled,
`xcorr_rangeComp` on `rev`, `local` and the real `xcorr` on their component sequences all
return, and at every position `k < len_output`: when all imaginary parts are zero and all
real parts are finite values of binary64, the complex output is `X(rev.re, local.re)[k]`
with imaginary part `0`; and when the components of `rev` and `local` are integers of
absolute value at most `M`, with `M < 2^53` and `W * (2 * M * M) < 2^53` for a bound `W` on
the window length, the complex output has real part
`X(rev.re, local.re)[k] + X(rev.im, local.im)[k]` and imaginary part
`X(rev.im, local.re)[k] - X(rev.re, local.im)[k]`, where `X` is the real `xcorr` on the
component sequences and the sum and the difference are those of `double`. -/
theorem xcorr_rangeComp_components_on_double (sqrt : double → double)
    (pow : double → double → double) (coutput : List (complex double))
    (routput : List double) (rev loc : List (complex double)) (len_output : Int)
    (min_threshold : double)
    (hcbuf : len_output ≤ (coutput.length : Int))
    (hrbuf : len_output ≤ (routput.length : Int)) :
    ∃ rc rrr rii rir rri,
      Binary64.xcorr_rangeComp sqrt pow coutput len_output rev rev.length loc loc.length
          Binary64.MAX_MAGIC min_threshold = some rc ∧
      Binary64.xcorr routput len_output (rev.map complex.re) rev.length
          (loc.map complex.re) loc.length = some rrr ∧
      Binary64.xcorr routput len_output (rev.map complex.im) rev.length
          (loc.map complex.im) loc.length = some rii ∧
      Binary64.xcorr routput len_output (rev.map complex.im) rev.length
          (loc.map complex.re) loc.length = some rir ∧
      Binary64.xcorr routput len_output (rev.map complex.re) rev.length
          (loc.map complex.im) loc.length = some rri ∧
      ∀ k : Nat, (k : Int) < len_output →
        ∃ c a b p q, rc.output[k]? = some c ∧ rrr.output[k]? = some a ∧
          rii.output[k]? = some b ∧ rir.output[k]? = some p ∧ rri.output[k]? = some q ∧
          ((∀ z ∈ rev ++ loc, double.eq z.im 0 = true ∧ z.re.isfinite = true ∧
              z.re.isBinary64 = true) → c = { re := a, im := 0 }) ∧
          ∀ (revI locI : List (complex Int)) (M W : Nat),
            rev = revI.map toDouble → loc = locI.map toDouble →
            (∀ z ∈ revI ++ locI, z.re.natAbs ≤ M ∧ z.im.natAbs ≤ M) → M < 2 ^ 53 →
            min revI.length locI.length ≤ W → W * (2 * (M * M)) < 2 ^ 53 →
            c.re = a + b ∧ c.im = p - q := by
  obtain ⟨rc, c1, _, _, c4⟩ := b64_xcorr_rangeComp_get sqrt pow coutput len_output rev loc
    min_threshold hcbuf
  have hreal : ∀ (f g : complex double → double),
      ∃ r, Binary64.xcorr routput len_output (rev.map f) rev.length (loc.map g) loc.length =
          some r ∧
        ∀ k : Nat, (k : Int) < len_output →
          r.output[k]? = some (posVal 0 (fun a b => a + b) (fun a b => a * b) (rev.map f)
            (loc.map g) k) := by
    intro f g
    obtain ⟨r, r1, _, _, r4⟩ := b64_xcorr_get routput len_output (rev.map f) (loc.map g) hrbuf
    simp only [List.length_map] at r1
    exact ⟨r, r1, r4⟩
  obtain ⟨rrr, a1, a4⟩ := hreal complex.re complex.re
  obtain ⟨rii, b1, b4⟩ := hreal complex.im complex.im
  obtain ⟨rir, p1, p4⟩ := hreal complex.im complex.re
  obtain ⟨rri, q1, q4⟩ := hreal complex.re complex.im
  refine ⟨rc, rrr, rii, rir, rri, c1, a1, b1, p1, q1, fun k hk =>
    ⟨_, _, _, _, _, c4 k hk, a4 k hk, b4 k hk, p4 k hk, q4 k hk, ?_, ?_⟩⟩
  · intro hz
    exact posVal_real_in_complex rev loc hz k
  · intro revI locI M W hr hl hb hM hWl hW
    subst hr hl
    simp only [List.length_map] at c1 a1 b1 p1 q1
    obtain ⟨rc2, rrr2, rii2, rir2, rri2, c2, a2, b2, p2, q2, h2⟩ :=
      components_on_integers sqrt pow coutput routput revI locI M W len_output min_threshold
        hcbuf hrbuf hb hM hWl hW
    have ec : rc2 = rc := Option.some.inj (c2.symm.trans c1)
    have ea : rrr2 = rrr := Option.some.inj (a2.symm.trans a1)
    have eb : rii2 = rii := Option.some.inj (b2.symm.trans b1)
    have ep : rir2 = rir := Option.some.inj (p2.symm.trans p1)
    have eq : rri2 = rri := Option.some.inj (q2.symm.trans q1)
    subst ec ea eb ep eq
    obtain ⟨c, a, b, p, q, e1, e2, e3, e4, e5, g1, g2, _⟩ := h2 k hk
    have i1 := Option.some.inj ((c4 k hk).symm.trans e1)
    have i2 := Option.some.inj ((a4 k hk).symm.trans e2)
    have i3 := Option.some.inj ((b4 k hk).symm.trans e3)
    have i4 := Option.some.inj ((p4 k hk).symm.trans e4)
    have i5 := Option.some.inj ((q4 k hk).symm.trans e5)
    rw [i1, i2, i3, i4, i5]
    exact ⟨g1, g2⟩

set_option exponentiation.threshold 10000 in
set_option maxRecDepth 100000 in
/-- C14 at `rev = [1 + 2i, 3 - i]`, `local = [2 + i]`, whose components are integers of
absolute value at most 3, and at the real signals `rev = [1.5, -2]`, `local = [0.5]`, the
second sample with the imaginary part `-0`; `len_output = 3`, and the identity stands in for
`sqrt` and `pow`, which the disabled bound never calls. -/
theorem xcorr_rangeComp_components_on_double_witness :
    (3 : Int) ≤ (([⟨0, 0⟩, ⟨0, 0⟩, ⟨0, 0⟩] : List (complex double)).length : Int) ∧
      (3 : Int) ≤ (([0, 0, 0] : List double).length : Int) ∧
      (∀ z ∈ ([⟨1, 2⟩, ⟨3, -1⟩] : List (complex Int)) ++ [⟨2, 1⟩],
        z.re.natAbs ≤ 3 ∧ z.im.natAbs ≤ 3) ∧
      3 < 2 ^ 53 ∧
      min ([⟨1, 2⟩, ⟨3, -1⟩] : List (complex Int)).length
        ([⟨2, 1⟩] : List (complex Int)).length ≤ 1 ∧
      1 * (2 * (3 * 3)) < 2 ^ 53 ∧
      (∀ z ∈ [complex.mk (fin false (3 * 2 ^ 1073)) 0, complex.mk (ofInt (-2)) (fin true 0)] ++
          [complex.mk (fin false (2 ^ 1073)) 0],
        double.eq z.im 0 = true ∧ z.re.isfinite = true ∧ z.re.isBinary64 = true) ∧
      (∃ rc rrr rii rir rri,
        Binary64.xcorr_rangeComp (fun v => v) (fun v _ => v) [⟨0, 0⟩, ⟨0, 0⟩, ⟨0, 0⟩] 3
            (([⟨1, 2⟩, ⟨3, -1⟩] : List (complex Int)).map toDouble)
            (([⟨1, 2⟩, ⟨3, -1⟩] : List (complex Int)).map toDouble).length
            (([⟨2, 1⟩] : List (complex Int)).map toDouble)
            (([⟨2, 1⟩] : List (complex Int)).map toDouble).length Binary64.MAX_MAGIC 0 = some rc ∧
        Binary64.xcorr [0, 0, 0] 3
            ((([⟨1, 2⟩, ⟨3, -1⟩] : List (complex Int)).map toDouble).map complex.re)
            (([⟨1, 2⟩, ⟨3, -1⟩] : List (complex Int)).map toDouble).length
            ((([⟨2, 1⟩] : List (complex Int)).map toDouble).map complex.re)
            (([⟨2, 1⟩] : List (complex Int)).map toDouble).length = some rrr ∧
        Binary64.xcorr [0, 0, 0] 3
            ((([⟨1, 2⟩, ⟨3, -1⟩] : List (complex Int)).map toDouble).map complex.im)
            (([⟨1, 2⟩, ⟨3, -1⟩] : List (complex Int)).map toDouble).length
            ((([⟨2, 1⟩] : List (complex Int)).map toDouble).map complex.im)
            (([⟨2, 1⟩] : List (complex Int)).map toDouble).length = some rii ∧
        Binary64.xcorr [0, 0, 0] 3
            ((([⟨1, 2⟩, ⟨3, -1⟩] : List (complex Int)).map toDouble).map complex.im)
            (([⟨1, 2⟩, ⟨3, -1⟩] : List (complex Int)).map toDouble).length
            ((([⟨2, 1⟩] : List (complex Int)).map toDouble).map complex.re)
            (([⟨2, 1⟩] : List (complex Int)).map toDouble).length = some rir ∧
        Binary64.xcorr [0, 0, 0] 3
            ((([⟨1, 2⟩, ⟨3, -1⟩] : List (complex Int)).map toDouble).map complex.re)
            (([⟨1, 2⟩, ⟨3, -1⟩] : List (complex Int)).map toDouble).length
            ((([⟨2, 1⟩] : List (complex Int)).map toDouble).map complex.im)
            (([⟨2, 1⟩] : List (complex Int)).map toDouble).length = some rri ∧
        ∀ k : Nat, (k : Int) < 3 →
          ∃ c a b p q, rc.output[k]? = some c ∧ rrr.output[k]? = some a ∧
            rii.output[k]? = some b ∧ rir.output[k]? = some p ∧ rri.output[k]? = some q ∧
            ((∀ z ∈ (([⟨1, 2⟩, ⟨3, -1⟩] : List (complex Int)).map toDouble) ++
                  (([⟨2, 1⟩] : List (complex Int)).map toDouble),
                double.eq z.im 0 = true ∧ z.re.isfinite = true ∧ z.re.isBinary64 = true) →
              c = { re := a, im := 0 }) ∧
            ∀ (revI locI : List (complex Int)) (M W : Nat),
              (([⟨1, 2⟩, ⟨3, -1⟩] : List (complex Int)).map toDouble) = revI.map toDouble →
              (([⟨2, 1⟩] : List (complex Int)).map toDouble) = locI.map toDouble →
              (∀ z ∈ revI ++ locI, z.re.natAbs ≤ M ∧ z.im.natAbs ≤ M) → M < 2 ^ 53 →
              min revI.length locI.length ≤ W → W * (2 * (M * M)) < 2 ^ 53 →
              c.re = a + b ∧ c.im = p - q) ∧
      (∃ rc rrr rii rir rri,
        Binary64.xcorr_rangeComp (fun v => v) (fun v _ => v) [⟨0, 0⟩, ⟨0, 0⟩, ⟨0, 0⟩] 3
            [complex.mk (fin false (3 * 2 ^ 1073)) 0, complex.mk (ofInt (-2)) (fin true 0)]
            [complex.mk (fin false (3 * 2 ^ 1073)) 0, complex.mk (ofInt (-2)) (fin true 0)].length
            [complex.mk (fin false (2 ^ 1073)) 0]
            [complex.mk (fin false (2 ^ 1073)) 0].length Binary64.MAX_MAGIC 0 = some rc ∧
        Binary64.xcorr [0, 0, 0] 3
            ([complex.mk (fin false (3 * 2 ^ 1073)) 0,
              complex.mk (ofInt (-2)) (fin true 0)].map complex.re)
            [complex.mk (fin false (3 * 2 ^ 1073)) 0, complex.mk (ofInt (-2)) (fin true 0)].length
            ([complex.mk (fin false (2 ^ 1073)) 0].map complex.re)
            [complex.mk (fin false (2 ^ 1073)) 0].length = some rrr ∧
        Binary64.xcorr [0, 0, 0] 3
            ([complex.mk (fin false (3 * 2 ^ 1073)) 0,
              complex.mk (ofInt (-2)) (fin true 0)].map complex.im)
            [complex.mk (fin false (3 * 2 ^ 1073)) 0, complex.mk (ofInt (-2)) (fin true 0)].length
            ([complex.mk (fin false (2 ^ 1073)) 0].map complex.im)
            [complex.mk (fin false (2 ^ 1073)) 0].length = some rii ∧
        Binary64.xcorr [0, 0, 0] 3
            ([complex.mk (fin false (3 * 2 ^ 1073)) 0,
              complex.mk (ofInt (-2)) (fin true 0)].map complex.im)
            [complex.mk (fin false (3 * 2 ^ 1073)) 0, complex.mk (ofInt (-2)) (fin true 0)].length
            ([complex.mk (fin false (2 ^ 1073)) 0].map complex.re)
            [complex.mk (fin false (2 ^ 1073)) 0].length = some rir ∧
        Binary64.xcorr [0, 0, 0] 3
            ([complex.mk (fin false (3 * 2 ^ 1073)) 0,
              complex.mk (ofInt (-2)) (fin true 0)].map complex.re)
            [complex.mk (fin false (3 * 2 ^ 1073)) 0, complex.mk (ofInt (-2)) (fin true 0)].length
            ([complex.mk (fin false (2 ^ 1073)) 0].map complex.im)
            [complex.mk (fin false (2 ^ 1073)) 0].length = some rri ∧
        ∀ k : Nat, (k : Int) < 3 →
          ∃ c a b p q, rc.output[k]? = some c ∧ rrr.output[k]? = some a ∧
            rii.output[k]? = some b ∧ rir.output[k]? = some p ∧ rri.output[k]? = some q ∧
            ((∀ z ∈ [complex.mk (fin false (3 * 2 ^ 1073)) 0,
              complex.mk (ofInt (-2)) (fin true 0)] ++
                  [complex.mk (fin false (2 ^ 1073)) 0],
                double.eq z.im 0 = true ∧ z.re.isfinite = true ∧ z.re.isBinary64 = true) →
              c = { re := a, im := 0 }) ∧
            ∀ (revI locI : List (complex Int)) (M W : Nat),
              [complex.mk (fin false (3 * 2 ^ 1073)) 0,
                complex.mk (ofInt (-2)) (fin true 0)] = revI.map toDouble →
              [complex.mk (fin false (2 ^ 1073)) 0] = locI.map toDouble →
              (∀ z ∈ revI ++ locI, z.re.natAbs ≤ M ∧ z.im.natAbs ≤ M) → M < 2 ^ 53 →
              min revI.length locI.length ≤ W → W * (2 * (M * M)) < 2 ^ 53 →
              c.re = a + b ∧ c.im = p - q) :=
  ⟨by decide, by decide, by decide, by decide, by decide, by decide, by decide,
    xcorr_rangeComp_components_on_double (fun v => v) (fun v _ => v)
      [⟨0, 0⟩, ⟨0, 0⟩, ⟨0, 0⟩] [0, 0, 0] (([⟨1, 2⟩, ⟨3, -1⟩] : List (complex Int)).map toDouble)
      (([⟨2, 1⟩] : List (complex Int)).map toDouble) 3 0 (by decide) (by decide),
    xcorr_rangeComp_components_on_double (fun v => v) (fun v _ => v)
      [⟨0, 0⟩, ⟨0, 0⟩, ⟨0, 0⟩] [0, 0, 0]
      [complex.mk (fin false (3 * 2 ^ 1073)) 0, complex.mk (ofInt (-2)) (fin true 0)]
      [complex.mk (fin false (2 ^ 1073)) 0] 3 0 (by decide) (by decide)⟩

end RealInComplex

/-! ## Rounding: the claims that fail on `double`, and instances of their corrected form -/

section Rounding
open double

set_option exponentiation.threshold 10000 in
set_option maxRecDepth 100000 in
/-- C14 (counterexample). `rev = [1, 2^53 + 2i]`, `local = [1, 1 + i]`, `len_output = 2`: at
position 1 `xcorr_rangeComp` adds `(2^53 + 2) + 1`, which rounds to `2^53 + 4`, while the
real runs give `X(rev.re, local.re)[1] = 2^53 + 1`, rounded to `2^53`, and
`X(rev.im, local.im)[1] = 2`, with sum `2^53 + 2`. -/
theorem xcorr_rangeComp_components_rounding :
    Binary64.xcorr_rangeComp (fun v => v) (fun v _ => v) [⟨0, 0⟩, ⟨0, 0⟩] 2
        [⟨ofInt 1, ofInt 0⟩, ⟨ofInt 9007199254740992, ofInt 2⟩] 2
        [⟨ofInt 1, ofInt 0⟩, ⟨ofInt 1, ofInt 1⟩] 2 Binary64.MAX_MAGIC 0 =
      some { output := [⟨ofInt 1, ofInt (-1)⟩,
               ⟨ofInt 9007199254740996, ofInt (-9007199254740990)⟩],
             exit := Exit.completed } ∧
    Binary64.xcorr [0, 0] 2 [ofInt 1, ofInt 9007199254740992] 2 [ofInt 1, ofInt 1] 2 =
      some { output := [ofInt 1, ofInt 9007199254740992], exit := Exit.completed } ∧
    Binary64.xcorr [0, 0] 2 [ofInt 0, ofInt 2] 2 [ofInt 0, ofInt 1] 2 =
      some { output := [ofInt 0, ofInt 2], exit := Exit.completed } ∧
    ofInt 9007199254740992 + ofInt 2 = ofInt 9007199254740994 ∧
    double.eq (ofInt 9007199254740996) (ofInt 9007199254740994) = false := by
  decide

set_option exponentiation.threshold 10000 in
set_option maxRecDepth 100000 in
/-- C16 (counterexample). `mulComp((2^53 - 1, 0), (3, 0))` has real part `3 * 2^53 - 4`, not
`ac - bd = 3 * 2^53 - 3`. With the correctly rounded root of 2, which is
`6369051672525773 * 2^-52`, and `pow(v, 2) = v * v`, `absComp((1, 1))^2` is `2 + 2^-51`
while `absSqrComp((1, 1))` is 2. -/
theorem complex_ops_rounding :
    (Binary64.mulComp ⟨ofInt 9007199254740991, ofInt 0⟩ ⟨ofInt 3, ofInt 0⟩).re =
      fin false (27021597764222972 * unit) ∧
    (9007199254740991 : Int) * 3 - 0 * 0 = 27021597764222973 ∧
    (2 * 6369051672525773 - 1) ^ 2 < 2 ^ 107 ∧ 2 ^ 107 < (2 * 6369051672525773 + 1) ^ 2 ∧
    Binary64.absComp (fun _ => fin false (6369051672525773 * 2 ^ 1022)) (fun v _ => v * v)
          ⟨ofInt 1, ofInt 1⟩ *
        Binary64.absComp (fun _ => fin false (6369051672525773 * 2 ^ 1022)) (fun v _ => v * v)
          ⟨ofInt 1, ofInt 1⟩ =
      fin false (4503599627370497 * 2 ^ 1023) ∧
    Binary64.absSqrComp (fun v _ => v * v) ⟨ofInt 1, ofInt 1⟩ = fin false (2 * unit) ∧
    double.eq (fin false (4503599627370497 * 2 ^ 1023)) (fin false (2 * unit)) = false := by
  decide

set_option exponentiation.threshold 10000 in
set_option maxRecDepth 100000 in
/-- C17 (counterexample). With `y = [0, 2^53, 0]`, `h = [1, 1]`, `x = [1, 1]` the code adds
the two products to `y[1]` one after the other, `(2^53 + 1) + 1`, and leaves `2^53`, while
the old value plus the sum `h[0]*x[1] + h[1]*x[0] = 2` is `2^53 + 2`. With `h = [1, inf]`,
`x = [1]` and `y = [0, 0]` the product of the zero padding and `inf` leaves a NaN in `y[0]`,
where the sum of the claim has the single term `h[0]*x[0] = 1`. -/
theorem conv_rounding :
    Binary64.conv true true [ofInt 0, ofInt 9007199254740992, ofInt 0] 3 [ofInt 1, ofInt 1] 2
        [ofInt 1, ofInt 1] 2 =
      some ([ofInt 1, ofInt 9007199254740992, ofInt 1], 0) ∧
    ofInt 9007199254740992 + (ofInt 1 * ofInt 1 + ofInt 1 * ofInt 1) =
      ofInt 9007199254740994 ∧
    double.eq (ofInt 9007199254740992) (ofInt 9007199254740994) = false ∧
    Binary64.conv true true [ofInt 0, ofInt 0] 2 [ofInt 1, inf false] 2 [ofInt 1] 1 =
      some ([nan, inf false], 0) ∧
    ofInt 0 + ofInt 1 * ofInt 1 = ofInt 1 := by
  decide

set_option exponentiation.threshold 10000 in
set_option maxRecDepth 100000 in
/-- C27 (counterexample). `r1 = [3]`, `r2 = [5]`, `c = 1`, `l = [2^53 - 1]`: the sequence
`r1 + c*r2` is `[8]` and `xcorr(r1 + c*r2, l)[0] = 8 * (2^53 - 1)` exactly, while
`xcorr(r1, l)[0]` and `xcorr(r2, l)[0]` are rounded products and
`xcorr(r1, l)[0] + c * xcorr(r2, l)[0]` is `2^56 - 16`. -/
theorem xcorr_bilinear_rounding :
    List.zipWith (fun x y => x + ofInt 1 * y) [ofInt 3] [ofInt 5] = [ofInt 8] ∧
    Binary64.xcorr [0] 1 (List.zipWith (fun x y => x + ofInt 1 * y) [ofInt 3] [ofInt 5]) 1
        [ofInt 9007199254740991] 1 =
      some { output := [ofInt 72057594037927928], exit := Exit.completed } ∧
    Binary64.xcorr [0] 1 [ofInt 3] 1 [ofInt 9007199254740991] 1 =
      some { output := [ofInt 27021597764222972], exit := Exit.completed } ∧
    Binary64.xcorr [0] 1 [ofInt 5] 1 [ofInt 9007199254740991] 1 =
      some { output := [ofInt 45035996273704952], exit := Exit.completed } ∧
    ofInt 27021597764222972 + ofInt 1 * ofInt 45035996273704952 = ofInt 72057594037927920 ∧
    double.eq (ofInt 72057594037927928) (ofInt 72057594037927920) = false := by
  decide

set_option exponentiation.threshold 10000 in
set_option maxRecDepth 100000 in
/-- C28 (counterexample). For `x = [1, 1, 2^26 + 2^26 i]` the code adds the squared
magnitudes from the last sample, `(2^53 + 1) + 1`, and leaves `2^53` at position 2, while
`absSqrComp(x[0]) + absSqrComp(x[1]) + absSqrComp(x[2])` is `2^53 + 2`. For the one-sample
signal `x = [(2^600, 2^600)]` the products overflow: `xcorr_rangeComp` leaves `(inf, NaN)`
at position 0, and `absSqrComp(x[0])` is `inf`, so the imaginary part is not 0. -/
theorem xcorr_rangeComp_zero_lag_rounding :
    (Binary64.xcorr_rangeComp (fun v => v) (fun v _ => v * v) [⟨0, 0⟩, ⟨0, 0⟩, ⟨0, 0⟩] 3
        [⟨ofInt 1, ofInt 0⟩, ⟨ofInt 1, ofInt 0⟩, ⟨ofInt 67108864, ofInt 67108864⟩] 3
        [⟨ofInt 1, ofInt 0⟩, ⟨ofInt 1, ofInt 0⟩, ⟨ofInt 67108864, ofInt 67108864⟩] 3
        Binary64.MAX_MAGIC 0).map (fun r => r.output[2]?) =
      some (some ⟨ofInt 9007199254740992, 0⟩) ∧
    (([⟨ofInt 1, ofInt 0⟩, ⟨ofInt 1, ofInt 0⟩, ⟨ofInt 67108864, ofInt 67108864⟩] :
          List (complex double)).map (Binary64.absSqrComp (fun v _ => v * v))).foldl
        (fun u v => u + v) 0 = ofInt 9007199254740994 ∧
    double.eq (ofInt 9007199254740992) (ofInt 9007199254740994) = false ∧
    Binary64.xcorr_rangeComp (fun v => v) (fun v _ => v * v) [⟨0, 0⟩] 1
        [⟨fin false (2 ^ 1674), fin false (2 ^ 1674)⟩] 1
        [⟨fin false (2 ^ 1674), fin false (2 ^ 1674)⟩] 1 Binary64.MAX_MAGIC 0 =
      some { output := [⟨inf false, nan⟩], exit := Exit.completed } ∧
    fin false (2 ^ 1674) = fin false (2 ^ 600 * unit) ∧
    Binary64.absSqrComp (fun v _ => v * v) ⟨fin false (2 ^ 1674), fin false (2 ^ 1674)⟩ =
      inf false ∧
    double.eq nan 0 = false := by
  decide

end Rounding

section Instances
open double

/-- C27 at `r1 = [1, 2, 3]`, `r2 = [4, 5, 6]`, `l = [1, 2, 3]`, `r = [1, 2]`, `l1 = [3, 4]`,
`l2 = [5, 6]`, `c = 2`, `len_output = 5`, with `M = 6` and `W = 3`. -/
theorem xcorr_bilinear_on_integers_witness :
    ([1, 2, 3] : List Int).length = ([4, 5, 6] : List Int).length ∧
      ([3, 4] : List Int).length = ([5, 6] : List Int).length ∧
      (5 : Int) ≤ (([0, 0, 0, 0, 0] : List double).length : Int) ∧
      (∀ x ∈ ([1, 2, 3] : List Int) ++ [4, 5, 6] ++ [1, 2, 3] ++ [1, 2] ++ [3, 4] ++ [5, 6],
        x.natAbs ≤ 6) ∧
      (2 : Int).natAbs ≤ 6 ∧ 6 + 6 * 6 < 2 ^ 53 ∧ 3 * ((6 + 6 * 6) * 6) < 2 ^ 53 ∧
      ((∃ s a b,
          Binary64.xcorr [0, 0, 0, 0, 0] 5
            (List.zipWith (fun x y => x + ofInt 2 * y) (([1, 2, 3] : List Int).map ofInt)
              (([4, 5, 6] : List Int).map ofInt))
            ([1, 2, 3] : List Int).length (([1, 2, 3] : List Int).map ofInt)
            ([1, 2, 3] : List Int).length = some s ∧
          Binary64.xcorr [0, 0, 0, 0, 0] 5 (([1, 2, 3] : List Int).map ofInt)
            ([1, 2, 3] : List Int).length (([1, 2, 3] : List Int).map ofInt)
            ([1, 2, 3] : List Int).length = some a ∧
          Binary64.xcorr [0, 0, 0, 0, 0] 5 (([4, 5, 6] : List Int).map ofInt)
            ([1, 2, 3] : List Int).length (([1, 2, 3] : List Int).map ofInt)
            ([1, 2, 3] : List Int).length = some b ∧
          ∀ k : Nat, (k : Int) < 5 →
            ∃ x y z, s.output[k]? = some x ∧ a.output[k]? = some y ∧ b.output[k]? = some z ∧
              x = y + ofInt 2 * z) ∧
        (∃ s a b,
          Binary64.xcorr [0, 0, 0, 0, 0] 5 (([1, 2] : List Int).map ofInt)
            ([1, 2] : List Int).length
            (List.zipWith (fun x y => x + ofInt 2 * y) (([3, 4] : List Int).map ofInt)
              (([5, 6] : List Int).map ofInt))
            ([3, 4] : List Int).length = some s ∧
          Binary64.xcorr [0, 0, 0, 0, 0] 5 (([1, 2] : List Int).map ofInt)
            ([1, 2] : List Int).length (([3, 4] : List Int).map ofInt)
            ([3, 4] : List Int).length = some a ∧
          Binary64.xcorr [0, 0, 0, 0, 0] 5 (([1, 2] : List Int).map ofInt)
            ([1, 2] : List Int).length (([5, 6] : List Int).map ofInt)
            ([3, 4] : List Int).length = some b ∧
          ∀ k : Nat, (k : Int) < 5 →
            ∃ x y z, s.output[k]? = some x ∧ a.output[k]? = some y ∧ b.output[k]? = some z ∧
              x = y + ofInt 2 * z)) :=
  ⟨by decide, by decide, by decide, by decide, by decide, by decide, by decide,
    xcorr_bilinear_on_integers [0, 0, 0, 0, 0] [1, 2, 3] [4, 5, 6] [1, 2, 3] [1, 2] [3, 4]
      [5, 6] 2 6 3 5 (by decide) (by decide) (by decide) (by decide) (by decide) (by decide)
      (by decide) (by decide) (by decide)⟩

/-- C16 at `z = 3 + 4i`, `w = 1 - 2i` with `M = 4`; `pow(v, 2)` is the rounded product `v * v`
and `sqrt` returns 5, the root of `3² + 4²`. -/
theorem complex_ops_on_double_witness :
    ((3 : Int).natAbs ≤ 4 ∧ (4 : Int).natAbs ≤ 4) ∧
      ((1 : Int).natAbs ≤ 4 ∧ (-2 : Int).natAbs ≤ 4) ∧ 2 * (4 * 4) + 1 < 2 ^ 53 ∧
      (∀ n : Int, n.natAbs ≤ 4 →
        (fun (u : double) (_ : double) => u * u) (ofInt n) 2 = ofInt (n * n)) ∧
      ((∀ a b c d : double,
          Binary64.mulComp ⟨a, b⟩ ⟨c, d⟩ = ⟨a * c - b * d, a * d + b * c⟩ ∧
          Binary64.addComp ⟨a, b⟩ ⟨c, d⟩ = ⟨a + c, b + d⟩ ∧
          Binary64.conjComp ⟨a, b⟩ = ⟨a, -b⟩ ∧
          Binary64.absSqrComp (fun u _ => u * u) ⟨a, b⟩ = a * a + b * b ∧
          Binary64.absComp (fun _ => ofInt 5) (fun u _ => u * u) ⟨a, b⟩ =
            (fun (_ : double) => ofInt 5) (Binary64.absSqrComp (fun u _ => u * u) ⟨a, b⟩) ∧
          Binary64.normComp (fun _ => ofInt 5) (fun u _ => u * u) ⟨a, b⟩ =
            Binary64.absComp (fun _ => ofInt 5) (fun u _ => u * u) ⟨a, b⟩) ∧
        (Binary64.addComp (toDouble ⟨3, 4⟩) (toDouble ⟨1, -2⟩) =
            toDouble ⟨(3 : Int) + 1, (4 : Int) + -2⟩ ∧
          toComplex ⟨(3 : Int) + 1, (4 : Int) + -2⟩ =
            toComplex ⟨3, 4⟩ + toComplex ⟨1, -2⟩) ∧
        (rep (Binary64.mulComp (toDouble ⟨3, 4⟩) (toDouble ⟨1, -2⟩)).re
            ((3 : Int) * 1 - 4 * -2) ∧
          rep (Binary64.mulComp (toDouble ⟨3, 4⟩) (toDouble ⟨1, -2⟩)).im
            ((3 : Int) * -2 + 4 * 1) ∧
          toComplex ⟨(3 : Int) * 1 - 4 * -2, (3 : Int) * -2 + 4 * 1⟩ =
            toComplex ⟨3, 4⟩ * toComplex ⟨1, -2⟩) ∧
        ((Binary64.conjComp (toDouble ⟨3, 4⟩)).re = ofInt 3 ∧
          rep (Binary64.conjComp (toDouble ⟨3, 4⟩)).im (-(4 : Int)) ∧
          toComplex ⟨3, -(4 : Int)⟩ = (starRingEnd ℂ) (toComplex ⟨3, 4⟩)) ∧
        Binary64.absSqrComp (fun u _ => u * u) (toDouble ⟨3, 4⟩) =
          ofInt ((3 : Int) ^ 2 + (4 : Int) ^ 2) ∧
        (∀ n : Int, 0 ≤ n → (3 : Int) ^ 2 + (4 : Int) ^ 2 = n ^ 2 →
          (fun (_ : double) => ofInt 5) (ofInt (n ^ 2)) = ofInt n →
          Binary64.absComp (fun _ => ofInt 5) (fun u _ => u * u) (toDouble ⟨3, 4⟩) *
              Binary64.absComp (fun _ => ofInt 5) (fun u _ => u * u) (toDouble ⟨3, 4⟩) =
            Binary64.absSqrComp (fun u _ => u * u) (toDouble ⟨3, 4⟩) ∧
          Binary64.normComp (fun _ => ofInt 5) (fun u _ => u * u) (toDouble ⟨3, 4⟩) *
              Binary64.normComp (fun _ => ofInt 5) (fun u _ => u * u) (toDouble ⟨3, 4⟩) =
            Binary64.absSqrComp (fun u _ => u * u) (toDouble ⟨3, 4⟩))) ∧
      (Binary64.absComp (fun _ => ofInt 5) (fun u _ => u * u) (toDouble ⟨3, 4⟩) *
            Binary64.absComp (fun _ => ofInt 5) (fun u _ => u * u) (toDouble ⟨3, 4⟩) =
          Binary64.absSqrComp (fun u _ => u * u) (toDouble ⟨3, 4⟩) ∧
        Binary64.normComp (fun _ => ofInt 5) (fun u _ => u * u) (toDouble ⟨3, 4⟩) *
            Binary64.normComp (fun _ => ofInt 5) (fun u _ => u * u) (toDouble ⟨3, 4⟩) =
          Binary64.absSqrComp (fun u _ => u * u) (toDouble ⟨3, 4⟩)) :=
  ⟨by decide, by decide, by decide,
    fun n hn => sq_ofInt n (lt_of_le_of_lt (natAbs_mul_le n n 4 4 hn hn) (by decide)),
    complex_ops_on_double (fun _ => ofInt 5) (fun u _ => u * u) ⟨3, 4⟩ ⟨1, -2⟩ 4
      (by decide) (by decide) (by decide)
      (fun n hn => sq_ofInt n (lt_of_le_of_lt (natAbs_mul_le n n 4 4 hn hn) (by decide))),
    (complex_ops_on_double (fun _ => ofInt 5) (fun u _ => u * u) ⟨3, 4⟩ ⟨1, -2⟩ 4
      (by decide) (by decide) (by decide)
      (fun n hn => sq_ofInt n (lt_of_le_of_lt (natAbs_mul_le n n 4 4 hn hn)
        (by decide)))).2.2.2.2.2 5 (by decide) (by decide) rfl⟩

/-- C17 at `h = [1, 2]`, `x = [3, 4, 5]` and a zero buffer `y` of length 5, with `M = 5`
and `Y = 0`: the call returns 0 and position `idx` holds `y[idx] + Σ h[j]·x[idx - j]`. -/
theorem conv_adds_linear_convolution_on_double_witness :
    1 ≤ (([1, 2] : List Int).map ofInt).length ∧
      (5 : Int) ≤ ((([0, 0, 0, 0, 0] : List Int).map ofInt).length : Int) ∧
      ((([3, 4, 5] : List Int).map ofInt).length : Int) +
          ((([1, 2] : List Int).map ofInt).length : Int) - 1 ≤ 5 ∧
      (∀ v ∈ ([0, 0, 0, 0, 0] : List Int), v.natAbs ≤ 0) ∧
      (∀ v ∈ ([1, 2] : List Int) ++ [3, 4, 5], v.natAbs ≤ 5) ∧
      5 < 2 ^ 53 ∧ 0 + ([1, 2] : List Int).length * (5 * 5) < 2 ^ 53 ∧
      ∃ y2, Binary64.conv true true (([0, 0, 0, 0, 0] : List Int).map ofInt) 5
          (([1, 2] : List Int).map ofInt) (([1, 2] : List Int).map ofInt).length
          (([3, 4, 5] : List Int).map ofInt) (([3, 4, 5] : List Int).map ofInt).length =
          some (y2, 0) ∧
        y2.length = (([0, 0, 0, 0, 0] : List Int).map ofInt).length ∧
        (∀ idx, (([3, 4, 5] : List Int).map ofInt).length +
            (([1, 2] : List Int).map ofInt).length - 1 ≤ idx →
          y2[idx]? = (([0, 0, 0, 0, 0] : List Int).map ofInt)[idx]?) ∧
        ∀ idx v, ([0, 0, 0, 0, 0] : List Int)[idx]? = some v →
          y2[idx]? = some (ofInt
            (if idx < ([3, 4, 5] : List Int).length + ([1, 2] : List Int).length - 1
              then v + convSum [1, 2] [3, 4, 5] idx else v)) :=
  ⟨by decide, by decide, by decide, by decide, by decide, by decide, by decide,
    ((conv_adds_linear_convolution_on_double (([0, 0, 0, 0, 0] : List Int).map ofInt)
      (([1, 2] : List Int).map ofInt) (([3, 4, 5] : List Int).map ofInt) 5 (by decide)
      (by decide)).2 (by decide)).imp (fun _ hy2 => ⟨hy2.1, hy2.2.1, hy2.2.2.1,
        hy2.2.2.2 [0, 0, 0, 0, 0] [1, 2] [3, 4, 5] 5 0 rfl rfl rfl (by decide) (by decide)
          (by decide) (by decide)⟩)⟩

end Instances

end ComSim
